import Mathlib

/-!
# Verification of the detour-matrix core (`mordred/_detour_matrix.py`)

Shallow embedding of the detour-matrix computation:

* `searchLoopAux` / `searchVisit` / `lspStart` embed
  `LongestSimplePath._search` / `LongestSimplePath._start`
  (exhaustive backtracking over simple paths, with a visited set and a
  running distance that are restored on every exit).
* `lspMapA` embeds `LongestSimplePath.__call__`
  (the per-block pairwise map, keyed by the unordered pair, with
  Python-dict overwrite semantics: the last write wins).
* `blockNodes`, `toBlock` embed the node-set extraction in
  `CalcDetour.__init__`.
* `findBlock`, `calcWeight`, `rebuildC`, `mergeStep`, `mergeLoopF` embed
  `CalcDetour.merge` (block selection scanning `Q` from the end, the
  pairwise-weight case analysis, and the rebuild of the merged map).
* `calcDetour` / `calcDetourG` embed `CalcDetour.__call__`
  (the seed pop, the merge loop and the assembly of the dense matrix).
* `detourIndex` embeds `DetourIndex.calculate` (`int(0.5 * D.sum())`).

Edge weights are modelled as rationals; Python exceptions are modelled by
`Except MErr`; Python sets are modelled as duplicate-free lists.  The
biconnected decomposition is performed by the external `networkx`
library, so the pipeline is embedded from the list of blocks it
produces: `calcDetourG` takes the list of block graphs as input.

`Rat.add`, `Rat.sub` and `Rat.mul` are `@[irreducible]` in Batteries,
which blocks kernel evaluation of closed instances; the embedding
therefore computes with the `mkRat`-based operations `qadd`, `qsub`,
`qmul`, proved equal to the standard ones below.
-/

/-- Membership-guarded insertion into a list used as a set
(`set.add` in Python). -/
def vadd (v : ℕ) (l : List ℕ) : List ℕ := if v ∈ l then l else v :: l

/-- Removal of one element from a list used as a set (`set.remove`). -/
def vdel (v : ℕ) : List ℕ → List ℕ
  | [] => []
  | x :: r => if x = v then r else x :: vdel v r

/-- Kernel-computable rational addition. -/
def qadd (a b : ℚ) : ℚ := mkRat (a.num * b.den + b.num * a.den) (a.den * b.den)

/-- Kernel-computable rational subtraction. -/
def qsub (a b : ℚ) : ℚ := mkRat (a.num * b.den - b.num * a.den) (a.den * b.den)

/-- Kernel-computable rational multiplication. -/
def qmul (a b : ℚ) : ℚ := mkRat (a.num * b.num) (a.den * b.den)

/-- Mutable state of `LongestSimplePath`: the visited set, the running
distance and the per-target best distances (`result`, initialised to 0
for every node). -/
structure SState where
  visited : List ℕ
  distance : ℚ
  result : ℕ → ℚ

/-- `if d > self.result[v]: self.result[v] = d`. -/
def updMax (r : ℕ → ℚ) (v : ℕ) (d : ℚ) : ℕ → ℚ :=
  fun n => if n = v then (if r v < d then d else r v) else r n

/-- One block graph, as `LongestSimplePath.__init__` sees it: the node
list and, for each node, its weighted neighbor list. -/
structure WGraph where
  nodes : List ℕ
  adj : ℕ → List (ℕ × ℚ)

/-- Entering neighbor `v` through an edge of weight `w`:
`visited.add(v); distance += w; if d > result[v]: result[v] = d`. -/
def stepInto (v : ℕ) (w : ℚ) (st : SState) : SState :=
  ⟨vadd v st.visited, qadd st.distance w, updMax st.result v (qadd st.distance w)⟩

/-- Backtracking out of neighbor `v`:
`visited.remove(v); distance -= w`. -/
def stepBack (v : ℕ) (w : ℚ) (st : SState) : SState :=
  ⟨vdel v st.visited, qsub st.distance w, st.result⟩

/-- The neighbor loop of `LongestSimplePath._search`: for each unvisited
neighbor `v` mark it, extend the distance, update `result`, recurse
(unless `v` is the start), then unmark and restore the distance.
`recurse` is the recursive call (one fuel level down). -/
def searchLoopAux (start : ℕ) (recurse : ℕ → SState → SState) :
    List (ℕ × ℚ) → SState → SState
  | [], st => st
  | (v, w) :: rest, st =>
    if v ∈ st.visited then searchLoopAux start recurse rest st
    else
      searchLoopAux start recurse rest
        (stepBack v w
          (if v = start then stepInto v w st else recurse v (stepInto v w st)))

/-- `LongestSimplePath._search(u)`: mark `u` visited and run the neighbor
loop.  The fuel bounds the recursion depth; `g.nodes.length` is always
enough because the visited set grows along every recursive call. -/
def searchVisit (adj : ℕ → List (ℕ × ℚ)) (start : ℕ) : ℕ → ℕ → SState → SState
  | 0, u, st => ⟨vadd u st.visited, st.distance, st.result⟩
  | fuel + 1, u, st =>
    searchLoopAux start (searchVisit adj start fuel) (adj u)
      ⟨vadd u st.visited, st.distance, st.result⟩

/-- `LongestSimplePath._start(s)`: fresh state (`result` all zero, empty
visited set, zero distance), then `_search(s)`; returns `result`. -/
def lspStart (g : WGraph) (s : ℕ) : ℕ → ℚ :=
  (searchVisit g.adj s g.nodes.length s ⟨[], 0, fun _ => 0⟩).result

/-- A walk from `u` along the adjacency structure; each step records the
target node and the edge weight used. -/
inductive PathFrom (adj : ℕ → List (ℕ × ℚ)) : ℕ → List (ℕ × ℚ) → Prop
  | nil (u : ℕ) : PathFrom adj u []
  | cons {u v : ℕ} {w : ℚ} {p : List (ℕ × ℚ)} :
      (v, w) ∈ adj u → PathFrom adj v p → PathFrom adj u ((v, w) :: p)

/-- Nodes visited by a walk (excluding its origin). -/
def pnodes (p : List (ℕ × ℚ)) : List ℕ := p.map Prod.fst

/-- Total weight of a walk. -/
def pweight (p : List (ℕ × ℚ)) : ℚ := (p.map Prod.snd).sum

/-- Endpoint of a walk starting at `u`. -/
def pend (u : ℕ) : List (ℕ × ℚ) → ℕ
  | [] => u
  | (v, _) :: p => pend v p

/-- Reversal of a walk starting at `u` (a walk from `pend u p` back to
`u` in an undirected graph). -/
def prevP (u : ℕ) : List (ℕ × ℚ) → List (ℕ × ℚ)
  | [] => []
  | (v, w) :: p => prevP v p ++ [(u, w)]

/-- A nonempty simple path of `g` from `s` to `t`: a walk with pairwise
distinct nodes that never returns to `s`. -/
def SimplePath (g : WGraph) (s t : ℕ) (p : List (ℕ × ℚ)) : Prop :=
  PathFrom g.adj s p ∧ p ≠ [] ∧ (pnodes p).Nodup ∧ s ∉ pnodes p ∧ pend s p = t

/-- Pairwise weight maps (`lsp`, `self.C`) are dicts keyed by ordered
pairs; modelled as association lists where the first hit wins. -/
abbrev Wmap := List ((ℕ × ℕ) × ℚ)

/-- Dict lookup. -/
def mlookup (m : Wmap) (k : ℕ × ℕ) : Option ℚ :=
  match m with
  | [] => none
  | (k1, v) :: r => if k = k1 then some v else mlookup r k

/-- Dict insertion with overwrite (new binding shadows old ones). -/
def minsert (m : Wmap) (k : ℕ × ℕ) (v : ℚ) : Wmap := (k, v) :: m

/-- All ordered pairs of a node list, in the iteration order of the dict
comprehension in `LongestSimplePath.__call__`. -/
def allPairs (l : List ℕ) : List (ℕ × ℕ) :=
  l.flatMap fun s => l.map fun t => (s, t)

/-- `LongestSimplePath.__call__`:
`{(min(s,g), max(s,g)): w for s in nodes for g, w in self._start(s).items()}`. -/
def lspMapA (g : WGraph) : Wmap :=
  (allPairs g.nodes).foldl
    (fun m st => minsert m (min st.1 st.2, max st.1 st.2) (lspStart g st.1 st.2)) []

/-- Node sets (`self.nodes`, `ns`, `common`) are Python sets; modelled
as duplicate-free lists.  `linter a b` is the intersection `a & b`. -/
def linter (a b : List ℕ) : List ℕ := a.filter fun x => x ∈ b

/-- Set union by repeated insertion (`for n in ns: self.nodes.add(n)`). -/
def lunion (base ns : List ℕ) : List ℕ := ns.foldl (fun acc n => vadd n acc) base

/-- Node-set extraction of `CalcDetour.__init__`:
`for a, b in lsp: nodes.add(a); nodes.add(b)`. -/
def blockNodes (m : Wmap) : List ℕ :=
  m.foldl (fun acc kv => vadd kv.1.2 (vadd kv.1.1 acc)) []

/-- A block as stored in `self.Q`: its node set and pairwise map. -/
abbrev Block := List ℕ × Wmap

/-- One entry of `self.Q` as built by `CalcDetour.__init__` from a block
graph. -/
def toBlock (g : WGraph) : Block := (blockNodes (lspMapA g), lspMapA g)

/-- Fatal errors of the merge, mirroring the Python exceptions:
`multipleCommon` is `ValueError('bug: multiple common nodes.')`,
`unknownWeight` is `ValueError('bug: unknown weight')`, `keyError` a
dict `KeyError`, `noCommon` the breakdown on an exhausted scan with no
intersecting block, and `emptyQ` the `IndexError` of popping an empty
`Q`. -/
inductive MErr where
  | multipleCommon
  | unknownWeight
  | keyError
  | noCommon
  | emptyQ
  deriving DecidableEq, Repr

/-- The block-selection loop of `CalcDetour.merge`, on the reversed
queue (`self.Q[-i]` for `i = 1, 2, ...`): skip blocks with empty
intersection, fail on an intersection of more than one node, otherwise
return the cut vertex, the selected block and the remaining queue. -/
def findRev (nodes : List ℕ) : List Block → Except MErr (ℕ × Block × List Block)
  | [] => .error .noCommon
  | blk :: rest =>
    match linter blk.1 nodes with
    | [] =>
      match findRev nodes rest with
      | .error e => .error e
      | .ok (c, b, rem) => .ok (c, b, blk :: rem)
    | [c] => .ok (c, blk, rest)
    | _ :: _ :: _ => .error .multipleCommon

/-- Block selection on the queue in source order (scan from the end,
pop the match, keep the rest in order). -/
def findBlock (nodes : List ℕ) (Q : List Block) :
    Except MErr (ℕ × Block × List Block) :=
  match findRev nodes Q.reverse with
  | .error e => .error e
  | .ok (c, b, rem) => .ok (c, b, rem.reverse)

/-- `calc_weight(i, j)` of `CalcDetour.merge`: the two direct lookups,
the degenerate `i == j == common` branch (which would re-index the
missing key, i.e. a `KeyError`), and the two cut-vertex cross cases. -/
def calcWeight (C lsp : Wmap) (c i j : ℕ) : Except MErr ℚ :=
  match mlookup C (i, j) with
  | some w => .ok w
  | none =>
    match mlookup lsp (i, j) with
    | some w => .ok w
    | none =>
      if i = j ∧ j = c then .error .keyError
      else
        match mlookup C (min i c, max i c), mlookup lsp (min j c, max j c) with
        | some a, some b => .ok (qadd a b)
        | _, _ =>
          match mlookup C (min j c, max j c), mlookup lsp (min i c, max i c) with
          | some a, some b => .ok (qadd a b)
          | _, _ => .error .unknownWeight

/-- All pairs `(i, j)` with `i ≤ j` drawn from a node list. -/
def pairsOf (l : List ℕ) : List (ℕ × ℕ) :=
  l.flatMap fun i => (l.filter fun j => i ≤ j).map fun j => (i, j)

/-- Build the merged dict entry by entry, propagating the first error
(the dict comprehension in `CalcDetour.merge`). -/
def buildPairs (f : ℕ → ℕ → Except MErr ℚ) : List (ℕ × ℕ) → Except MErr Wmap
  | [] => .ok []
  | ij :: rest =>
    match f ij.1 ij.2 with
    | .error e => .error e
    | .ok w =>
      match buildPairs f rest with
      | .error e => .error e
      | .ok m => .ok ((ij, w) :: m)

/-- `self.C = {(i, j): calc_weight(i, j) for i in self.nodes
for j in self.nodes if i <= j}`. -/
def rebuildC (nodes : List ℕ) (f : ℕ → ℕ → Except MErr ℚ) : Except MErr Wmap :=
  buildPairs f (pairsOf nodes)

/-- Mutable state of `CalcDetour`: the merged node set `self.nodes`,
the merged map `self.C` and the remaining queue `self.Q`. -/
structure MState where
  nodes : List ℕ
  C : Wmap
  Q : List Block

/-- One call of `CalcDetour.merge`: select a block, extend the node set,
rebuild the merged map. -/
def mergeStep (st : MState) : Except MErr MState :=
  match findBlock st.nodes st.Q with
  | .error e => .error e
  | .ok (c, blk, Qrem) =>
    match rebuildC (lunion st.nodes blk.1) (fun i j => calcWeight st.C blk.2 c i j) with
    | .error e => .error e
    | .ok Cnew => .ok ⟨lunion st.nodes blk.1, Cnew, Qrem⟩

/-- `while self.Q: self.merge()`.  The fuel is the initial queue length;
each successful step removes exactly one block. -/
def mergeLoopF : ℕ → MState → Except MErr MState
  | 0, st => if st.Q.isEmpty then .ok st else .error .noCommon
  | fuel + 1, st =>
    if st.Q.isEmpty then .ok st
    else
      match mergeStep st with
      | .error e => .error e
      | .ok st1 => mergeLoopF fuel st1

/-- Assembly of the dense symmetric matrix from the merged map
(`result[i, j] = result[j, i] = self.C[(i, j)]`); a missing key is a
dict `KeyError`. -/
def assemble (N : ℕ) (C : Wmap) : Except MErr (ℕ → ℕ → ℚ) :=
  if ∀ i ∈ List.range N, ∀ j ∈ List.range N, i ≤ j → (mlookup C (i, j)).isSome = true
  then .ok fun i j => (mlookup C (min i j, max i j)).getD 0
  else .error .keyError

/-- `CalcDetour.__call__`: the `N == 1` shortcut, the seed pop
(`self.nodes, self.C = self.Q.pop()`), the merge loop, the assembly. -/
def calcDetour (N : ℕ) (Q : List Block) : Except MErr (ℕ → ℕ → ℚ) :=
  if N = 1 then .ok fun _ _ => 0
  else
    match Q.getLast? with
    | none => .error .emptyQ
    | some blk =>
      match mergeLoopF Q.dropLast.length ⟨blk.1, blk.2, Q.dropLast⟩ with
      | .error e => .error e
      | .ok st => assemble N st.C

/-- The whole pipeline from the list of block graphs produced by the
(external) biconnected decomposition. -/
def calcDetourG (N : ℕ) (blocks : List WGraph) : Except MErr (ℕ → ℕ → ℚ) :=
  calcDetour N (blocks.map toBlock)

/-- Kernel-computable sum of a list of rationals. -/
def qsum (l : List ℚ) : ℚ := l.foldr qadd 0

/-- `D.sum()`: the sum of all entries of the dense matrix. -/
def matrixSum (N : ℕ) (M : ℕ → ℕ → ℚ) : ℚ :=
  qsum ((List.range N).map fun i => qsum ((List.range N).map fun j => M i j))

/-- Python `int()` on a rational: truncation toward zero. -/
def pyInt (q : ℚ) : ℤ := if q.num < 0 then q.ceil else q.floor

/-- `DetourIndex.calculate`: `int(0.5 * D.sum())`. -/
def detourIndex (N : ℕ) (M : ℕ → ℕ → ℚ) : ℤ :=
  pyInt (qmul (mkRat 1 2) (matrixSum N M))

/-- Finite fingerprint of a dense matrix, row by row. -/
def matRows (N : ℕ) (M : ℕ → ℕ → ℚ) : List (List ℚ) :=
  (List.range N).map fun i => (List.range N).map fun j => M i j

/-- Well-formedness of a pairwise map over a node set, as established by
`LongestSimplePath` for every block: all unordered pairs of the node set
are present, keys are normalized pairs of the node set, the diagonal is
zero, and all values are non-negative. -/
def WFMap (ns : List ℕ) (m : Wmap) : Prop :=
  (∀ a b : ℕ, a ∈ ns → b ∈ ns → a ≤ b → (mlookup m (a, b)).isSome = true) ∧
  (∀ (k : ℕ × ℕ) (v : ℚ), mlookup m k = some v → k.1 ∈ ns ∧ k.2 ∈ ns ∧ k.1 ≤ k.2) ∧
  (∀ a : ℕ, a ∈ ns → mlookup m (a, a) = some 0) ∧
  (∀ (k : ℕ × ℕ) (v : ℚ), mlookup m k = some v → 0 ≤ v)

/-- The merge invariant: the merged map is well-formed over the merged
node set, and every block still in the queue is well-formed. -/
def InvS (st : MState) : Prop :=
  WFMap st.nodes st.C ∧ ∀ b ∈ st.Q, WFMap b.1 b.2

/-- Union of the node sets of a list of blocks. -/
def QNodes (Q : List Block) : List ℕ :=
  Q.foldl (fun acc b => lunion acc b.1) []

/-- The unweighted 4-cycle 0-1-2-3-0 (spec scenario; it is biconnected,
so its decomposition is the single block). -/
def cycle4 : WGraph :=
  ⟨[0, 1, 2, 3], fun n =>
    if n = 0 then [(1, 1), (3, 1)]
    else if n = 1 then [(0, 1), (2, 1)]
    else if n = 2 then [(1, 1), (3, 1)]
    else if n = 3 then [(2, 1), (0, 1)]
    else []⟩

/-- Block 0-1 (weight 2) of the spec's path-graph scenario. -/
def pathA : WGraph :=
  ⟨[0, 1], fun n => if n = 0 then [(1, 2)] else if n = 1 then [(0, 2)] else []⟩

/-- Block 1-2 (weight 3) of the spec's path-graph scenario. -/
def pathB : WGraph :=
  ⟨[1, 2], fun n => if n = 1 then [(2, 3)] else if n = 2 then [(1, 3)] else []⟩

/-- Merge state after seeding with the block 1-2, with the block 0-1
still queued (cut vertex 1). -/
def seedSt : MState := ⟨(toBlock pathB).1, (toBlock pathB).2, [toBlock pathA]⟩

/-- Merge state whose queued block shares the two nodes 1 and 2 with the
already-merged set (an improper decomposition). -/
def badSt : MState := ⟨(toBlock pathB).1, (toBlock pathB).2, [([1, 2], [((1, 2), 1)])]⟩

/-- Lookup of the unordered pair `{x, y}` in a pairwise map. -/
def pval (m : Wmap) (x y : ℕ) : Option ℚ := mlookup m (min x y, max x y)

/-- One block merge on a bare (node set, map) state: the cut vertex is
the unique common node, the map is rebuilt over the union.  `none`
models any of the fatal merge errors. -/
def mergeB (s : List ℕ × Wmap) (blk : Block) : Option (List ℕ × Wmap) :=
  match linter blk.1 s.1 with
  | [c] =>
    match rebuildC (lunion s.1 blk.1) (fun i j => calcWeight s.2 blk.2 c i j) with
    | .ok C1 => some (lunion s.1 blk.1, C1)
    | .error _ => none
  | _ => none

/-- Merging a list of blocks in the given order. -/
def runBlocks : (List ℕ × Wmap) → List Block → Option (List ℕ × Wmap)
  | s, [] => some s
  | s, blk :: rest =>
    match mergeB s blk with
    | some s1 => runBlocks s1 rest
    | none => none

/-- Extensional equality of merge states: same node membership and same
map graph.  (Two merge orders build the node list and the association
list in different orders, but with the same contents.) -/
def SEq (s t : List ℕ × Wmap) : Prop :=
  (∀ x : ℕ, x ∈ s.1 ↔ x ∈ t.1) ∧ ∀ k : ℕ × ℕ, mlookup s.2 k = mlookup t.2 k

/-- A whole merge pass over an explicitly ordered queue: the first block
seeds the state (`self.nodes, self.C = self.Q.pop()`), the rest are
merged in list order. -/
def runAll : List Block → Option (List ℕ × Wmap)
  | [] => none
  | blk :: rest => runBlocks (blk.1, blk.2) rest

/-- The whole input graph reassembled from its list of block graphs:
nodes and adjacency are the unions of the blocks' nodes and
adjacencies. -/
def unionGraph (bs : List WGraph) : WGraph :=
  ⟨bs.flatMap (fun g => g.nodes), fun u => bs.flatMap fun g => g.adj u⟩

/-- What the (external) biconnected decomposition guarantees about each
block graph it hands to the core: undirected adjacency, adjacency
confined to the block's node set (no edges leaving the block, sources
outside the block have no neighbors), non-negative edge weights, and
connectivity of the block. -/
def GoodBlock (g : WGraph) : Prop :=
  (∀ u v : ℕ, ∀ w : ℚ, (v, w) ∈ g.adj u ↔ (u, w) ∈ g.adj v) ∧
  (∀ x : ℕ, ∀ vw ∈ g.adj x, vw.1 ∈ g.nodes) ∧
  (∀ u : ℕ, u ∉ g.nodes → g.adj u = []) ∧
  (∀ x : ℕ, ∀ vw ∈ g.adj x, 0 ≤ vw.2) ∧
  (∀ x y : ℕ, x ∈ g.nodes → y ∈ g.nodes → x ≠ y → ∃ p, SimplePath g x y p)

/-- The semantic invariant of the merge loop: after the block graphs
`done` have been merged into the state, the node set is exactly the
union of their node sets, and each stored pairwise value is exactly the
maximum simple-path weight between the two nodes inside the union graph
of the merged blocks (with a zero diagonal). -/
def LspInv (done : List WGraph) (s : List ℕ × Wmap) : Prop :=
  (∀ x : ℕ, x ∈ s.1 ↔ x ∈ (unionGraph done).nodes) ∧
  ∀ x y : ℕ, x ∈ s.1 → y ∈ s.1 → ∃ v : ℚ, pval s.2 x y = some v ∧
    (∀ p, SimplePath (unionGraph done) x y p → pweight p ≤ v) ∧
    ((x = y ∧ v = 0) ∨ ∃ p, SimplePath (unionGraph done) x y p ∧ pweight p = v)

/-! # Theorems -/

@[simp] theorem mem_vadd {x v : ℕ} {l : List ℕ} : x ∈ vadd v l ↔ x = v ∨ x ∈ l := by
  unfold vadd
  split
  · constructor
    · exact fun h => Or.inr h
    · rintro (rfl | h) <;> assumption
  · simp [List.mem_cons]

theorem vadd_of_mem {v : ℕ} {l : List ℕ} (h : v ∈ l) : vadd v l = l := by
  simp [vadd, h]

theorem vadd_of_not_mem {v : ℕ} {l : List ℕ} (h : v ∉ l) : vadd v l = v :: l := by
  simp [vadd, h]

theorem vdel_vadd_of_not_mem {v : ℕ} {l : List ℕ} (h : v ∉ l) :
    vdel v (vadd v l) = l := by
  simp [vadd_of_not_mem h, vdel]

theorem vadd_twice (v : ℕ) (l : List ℕ) : vadd v (vadd v l) = vadd v l :=
  vadd_of_mem (by simp)

theorem qadd_eq (a b : ℚ) : qadd a b = a + b := by
  have ha : (a.den : ℚ) ≠ 0 := by exact_mod_cast a.den_nz
  have hb : (b.den : ℚ) ≠ 0 := by exact_mod_cast b.den_nz
  rw [qadd, Rat.mkRat_eq_div]
  conv_rhs => rw [← Rat.num_div_den a, ← Rat.num_div_den b]
  push_cast
  rw [div_add_div _ _ ha hb]
  ring_nf

theorem qsub_eq (a b : ℚ) : qsub a b = a - b := by
  have ha : (a.den : ℚ) ≠ 0 := by exact_mod_cast a.den_nz
  have hb : (b.den : ℚ) ≠ 0 := by exact_mod_cast b.den_nz
  rw [qsub, Rat.mkRat_eq_div]
  conv_rhs => rw [← Rat.num_div_den a, ← Rat.num_div_den b]
  push_cast
  rw [div_sub_div _ _ ha hb]
  ring_nf

theorem qmul_eq (a b : ℚ) : qmul a b = a * b := by
  have ha : (a.den : ℚ) ≠ 0 := by exact_mod_cast a.den_nz
  have hb : (b.den : ℚ) ≠ 0 := by exact_mod_cast b.den_nz
  rw [qmul, Rat.mkRat_eq_div]
  conv_rhs => rw [← Rat.num_div_den a, ← Rat.num_div_den b]
  push_cast
  field_simp

theorem qsub_qadd_cancel (a b : ℚ) : qsub (qadd a b) b = a := by
  rw [qsub_eq, qadd_eq]
  ring

theorem qsum_eq (l : List ℚ) : qsum l = l.sum := by
  induction l with
  | nil => rfl
  | cons a r ih => rw [qsum, List.foldr_cons, List.sum_cons, qadd_eq, ← qsum, ih]

@[simp] theorem mlookup_nil (k : ℕ × ℕ) : mlookup [] k = none := rfl

@[simp] theorem mlookup_cons (k1 k : ℕ × ℕ) (v : ℚ) (r : Wmap) :
    mlookup ((k1, v) :: r) k = if k = k1 then some v else mlookup r k := rfl

theorem mlookup_mem {m : Wmap} {k : ℕ × ℕ} {v : ℚ} (h : mlookup m k = some v) :
    (k, v) ∈ m := by
  induction m with
  | nil => simp [mlookup] at h
  | cons kv r ih =>
    obtain ⟨k1, v1⟩ := kv
    rw [mlookup_cons] at h
    split at h
    · obtain rfl := (Option.some_inj).mp h
      subst_vars
      exact List.mem_cons_self _ _
    · exact List.mem_cons_of_mem _ (ih h)

theorem mlookup_isSome_iff {m : Wmap} {k : ℕ × ℕ} :
    (mlookup m k).isSome = true ↔ k ∈ m.map Prod.fst := by
  induction m with
  | nil => simp [mlookup]
  | cons kv r ih =>
    obtain ⟨k1, v1⟩ := kv
    rw [mlookup_cons]
    by_cases h : k = k1 <;> simp [h, ih]

@[simp] theorem pnodes_nil : pnodes [] = [] := rfl

@[simp] theorem pnodes_cons (v : ℕ) (w : ℚ) (p : List (ℕ × ℚ)) :
    pnodes ((v, w) :: p) = v :: pnodes p := rfl

@[simp] theorem pweight_nil : pweight [] = 0 := rfl

@[simp] theorem pweight_cons (v : ℕ) (w : ℚ) (p : List (ℕ × ℚ)) :
    pweight ((v, w) :: p) = w + pweight p := by
  simp [pweight]

@[simp] theorem pend_nil (u : ℕ) : pend u [] = u := rfl

@[simp] theorem pend_cons (u v : ℕ) (w : ℚ) (p : List (ℕ × ℚ)) :
    pend u ((v, w) :: p) = pend v p := rfl

theorem pend_mem {p : List (ℕ × ℚ)} (u : ℕ) (h : p ≠ []) : pend u p ∈ pnodes p := by
  induction p generalizing u with
  | nil => exact absurd rfl h
  | cons vw p0 ih =>
    obtain ⟨v, w⟩ := vw
    rcases eq_or_ne p0 [] with rfl | hp0
    · simp
    · simpa using Or.inr (ih v hp0)

theorem pathFrom_nodes_mem {adj : ℕ → List (ℕ × ℚ)} {ns : List ℕ}
    (hcl : ∀ x, ∀ vw ∈ adj x, vw.1 ∈ ns) :
    ∀ {u : ℕ} {p : List (ℕ × ℚ)}, PathFrom adj u p → ∀ x ∈ pnodes p, x ∈ ns := by
  intro u p hp
  induction hp with
  | nil => simp
  | cons he _ ih =>
    intro x hx
    rcases (by simpa using hx : x = _ ∨ x ∈ _) with rfl | hx
    · exact hcl _ _ he
    · exact ih x hx

theorem updMax_ge (r : ℕ → ℚ) (v : ℕ) (d : ℚ) (n : ℕ) : r n ≤ updMax r v d n := by
  unfold updMax
  by_cases h1 : n = v
  · subst h1
    by_cases h2 : r n < d
    · simp [h2, le_of_lt h2]
    · simp [h2]
  · simp [h1]

theorem updMax_ge_d (r : ℕ → ℚ) (v : ℕ) (d : ℚ) : d ≤ updMax r v d v := by
  unfold updMax
  by_cases h2 : r v < d
  · simp [h2]
  · simp [h2, le_of_not_lt h2]

theorem updMax_cases (r : ℕ → ℚ) (v : ℕ) (d : ℚ) (n : ℕ) :
    updMax r v d n = r n ∨ (n = v ∧ updMax r v d n = d) := by
  unfold updMax
  by_cases h1 : n = v
  · subst h1
    by_cases h2 : r n < d
    · exact Or.inr ⟨rfl, by simp [h2]⟩
    · exact Or.inl (by simp [h2])
  · exact Or.inl (by simp [h1])

theorem branch_spec {start : ℕ} {recurse : ℕ → SState → SState}
    (hRf : ∀ u st, (recurse u st).visited = vadd u st.visited ∧
      (recurse u st).distance = st.distance) (v : ℕ) (w : ℚ) (st : SState) :
    (if v = start then stepInto v w st else recurse v (stepInto v w st)).visited
        = vadd v st.visited ∧
    (if v = start then stepInto v w st else recurse v (stepInto v w st)).distance
        = qadd st.distance w := by
  split
  · exact ⟨rfl, rfl⟩
  · obtain ⟨h1, h2⟩ := hRf v (stepInto v w st)
    refine ⟨?_, h2⟩
    rw [h1]
    exact vadd_twice v st.visited

theorem searchLoopAux_frame {start : ℕ} {recurse : ℕ → SState → SState}
    (hRf : ∀ u st, (recurse u st).visited = vadd u st.visited ∧
      (recurse u st).distance = st.distance) :
    ∀ (l : List (ℕ × ℚ)) (st : SState),
      (searchLoopAux start recurse l st).visited = st.visited ∧
      (searchLoopAux start recurse l st).distance = st.distance := by
  intro l
  induction l with
  | nil => exact fun st => ⟨rfl, rfl⟩
  | cons vw rest ih =>
    intro st
    obtain ⟨v, w⟩ := vw
    rw [searchLoopAux]
    by_cases hv : v ∈ st.visited
    · simp only [if_pos hv]
      exact ih st
    · simp only [if_neg hv]
      obtain ⟨hXv, hXd⟩ := branch_spec hRf v w st
      have hB : stepBack v w
          (if v = start then stepInto v w st else recurse v (stepInto v w st)) =
          ⟨st.visited, st.distance,
            (if v = start then stepInto v w st else recurse v (stepInto v w st)).result⟩ := by
        unfold stepBack
        rw [hXv, hXd, vdel_vadd_of_not_mem hv, qsub_qadd_cancel]
      rw [hB]
      exact ih _

theorem searchLoopAux_mono {start : ℕ} {recurse : ℕ → SState → SState}
    (hRm : ∀ u st n, st.result n ≤ (recurse u st).result n) :
    ∀ (l : List (ℕ × ℚ)) (st : SState) (n : ℕ),
      st.result n ≤ (searchLoopAux start recurse l st).result n := by
  intro l
  induction l with
  | nil => exact fun st n => le_refl _
  | cons vw rest ih =>
    intro st n
    obtain ⟨v, w⟩ := vw
    rw [searchLoopAux]
    by_cases hv : v ∈ st.visited
    · simp only [if_pos hv]
      exact ih st n
    · simp only [if_neg hv]
      refine le_trans ?_ (ih _ n)
      show st.result n ≤ _
      have h1 : st.result n ≤ (stepInto v w st).result n := updMax_ge _ _ _ _
      refine le_trans h1 ?_
      show (stepInto v w st).result n ≤
        (if v = start then stepInto v w st else recurse v (stepInto v w st)).result n
      split
      · exact le_refl _
      · exact hRm v (stepInto v w st) n

theorem searchLoopAux_sound {adj : ℕ → List (ℕ × ℚ)} {start : ℕ}
    {recurse : ℕ → SState → SState}
    (hRf : ∀ u st, (recurse u st).visited = vadd u st.visited ∧
      (recurse u st).distance = st.distance)
    (hRs : ∀ u st n, (recurse u st).result n = st.result n ∨
      ∃ p, PathFrom adj u p ∧ p ≠ [] ∧ (pnodes p).Nodup ∧
        (∀ x ∈ pnodes p, ¬ x ∈ vadd u st.visited) ∧ pend u p = n ∧
        (recurse u st).result n = st.distance + pweight p) :
    ∀ (l : List (ℕ × ℚ)) (st : SState) (n : ℕ),
      (searchLoopAux start recurse l st).result n = st.result n ∨
      ∃ v w p, (v, w) ∈ l ∧ v ∉ st.visited ∧ PathFrom adj v p ∧
        (v :: pnodes p).Nodup ∧ (∀ x ∈ v :: pnodes p, ¬ x ∈ st.visited) ∧
        pend v p = n ∧
        (searchLoopAux start recurse l st).result n = st.distance + (w + pweight p) := by
  intro l
  induction l with
  | nil => exact fun st n => Or.inl rfl
  | cons vw rest ih =>
    intro st n
    obtain ⟨v, w⟩ := vw
    rw [searchLoopAux]
    by_cases hv : v ∈ st.visited
    · simp only [if_pos hv]
      rcases ih st n with h | ⟨v1, w1, p1, hmem, h2, h3, h4, h5, h6, h7⟩
      · exact Or.inl h
      · exact Or.inr ⟨v1, w1, p1, List.mem_cons_of_mem _ hmem, h2, h3, h4, h5, h6, h7⟩
    · simp only [if_neg hv]
      obtain ⟨hXv, hXd⟩ := branch_spec hRf v w st
      have hB : stepBack v w
          (if v = start then stepInto v w st else recurse v (stepInto v w st)) =
          ⟨st.visited, st.distance,
            (if v = start then stepInto v w st else recurse v (stepInto v w st)).result⟩ := by
        unfold stepBack
        rw [hXv, hXd, vdel_vadd_of_not_mem hv, qsub_qadd_cancel]
      rw [hB]
      -- the value written at `v` itself is the one-edge path [(v, w)]
      have base : ∀ m : ℕ,
          (stepInto v w st).result m = st.result m ∨
          (m = v ∧ (stepInto v w st).result m = st.distance + (w + pweight [])) := by
        intro m
        rcases updMax_cases st.result v (qadd st.distance w) m with h | ⟨hm, h⟩
        · exact Or.inl h
        · refine Or.inr ⟨hm, ?_⟩
          show updMax st.result v (qadd st.distance w) m = _
          rw [h, qadd_eq]
          simp
      -- all result values of the branch state are old values or path values
      have hXr : ∀ m : ℕ,
          (if v = start then stepInto v w st else recurse v (stepInto v w st)).result m
            = st.result m ∨
          ∃ p, PathFrom adj v p ∧ (v :: pnodes p).Nodup ∧
            (∀ x ∈ v :: pnodes p, ¬ x ∈ st.visited) ∧ pend v p = m ∧
            (if v = start then stepInto v w st else recurse v (stepInto v w st)).result m
              = st.distance + (w + pweight p) := by
        intro m
        have hone : (stepInto v w st).result m = st.result m ∨
            ∃ p, PathFrom adj v p ∧ (v :: pnodes p).Nodup ∧
              (∀ x ∈ v :: pnodes p, ¬ x ∈ st.visited) ∧ pend v p = m ∧
              (stepInto v w st).result m = st.distance + (w + pweight p) := by
          rcases base m with h | ⟨hm, h⟩
          · exact Or.inl h
          · refine Or.inr ⟨[], PathFrom.nil v, by simp, ?_, by simpa using hm.symm, h⟩
            intro x hx
            rcases (by simpa using hx : x = v) with rfl
            exact hv
        split
        · exact hone
        · rcases hRs v (stepInto v w st) m with h | ⟨p, hp, hne, hnd, hav, hpe, hval⟩
          · show (recurse v (stepInto v w st)).result m = _ ∨ _
            rw [h]
            exact hone
          · refine Or.inr ⟨p, hp, ?_, ?_, hpe, ?_⟩
            · refine List.nodup_cons.mpr ⟨?_, hnd⟩
              intro hmem
              exact hav v hmem (by simp)
            · intro x hx
              rcases List.mem_cons.mp hx with rfl | hx
              · exact hv
              · intro hxv
                exact hav x hx (by
                  show x ∈ vadd v (stepInto v w st).visited
                  simp only [stepInto, mem_vadd]
                  exact Or.inr (Or.inr hxv))
            · rw [hval]
              show (stepInto v w st).distance + pweight p = _
              rw [show (stepInto v w st).distance = qadd st.distance w from rfl, qadd_eq]
              ring
      rcases ih ⟨st.visited, st.distance,
          (if v = start then stepInto v w st else recurse v (stepInto v w st)).result⟩ n with
        h | ⟨v1, w1, p1, hmem, h2, h3, h4, h5, h6, h7⟩
      · rcases hXr n with h0 | ⟨p, hp, hnd, hav, hpe, hval⟩
        · exact Or.inl (by rw [h]; exact h0)
        · exact Or.inr ⟨v, w, p, List.mem_cons_self _ _, hv, hp, hnd, hav, hpe,
            by rw [h]; exact hval⟩
      · exact Or.inr ⟨v1, w1, p1, List.mem_cons_of_mem _ hmem, h2, h3, h4, h5, h6, h7⟩

theorem searchVisit_frame (adj : ℕ → List (ℕ × ℚ)) (start : ℕ) :
    ∀ (fuel : ℕ) (u : ℕ) (st : SState),
      (searchVisit adj start fuel u st).visited = vadd u st.visited ∧
      (searchVisit adj start fuel u st).distance = st.distance := by
  intro fuel
  induction fuel with
  | zero => exact fun u st => ⟨rfl, rfl⟩
  | succ fuel ih =>
    intro u st
    exact searchLoopAux_frame (fun u1 st1 => ih u1 st1) (adj u)
      ⟨vadd u st.visited, st.distance, st.result⟩

theorem searchVisit_mono (adj : ℕ → List (ℕ × ℚ)) (start : ℕ) :
    ∀ (fuel : ℕ) (u : ℕ) (st : SState) (n : ℕ),
      st.result n ≤ (searchVisit adj start fuel u st).result n := by
  intro fuel
  induction fuel with
  | zero => exact fun u st n => le_refl _
  | succ fuel ih =>
    intro u st n
    exact searchLoopAux_mono (fun u1 st1 m => ih u1 st1 m) (adj u)
      ⟨vadd u st.visited, st.distance, st.result⟩ n

theorem searchVisit_sound (adj : ℕ → List (ℕ × ℚ)) (start : ℕ) :
    ∀ (fuel : ℕ) (u : ℕ) (st : SState) (n : ℕ),
      (searchVisit adj start fuel u st).result n = st.result n ∨
      ∃ p, PathFrom adj u p ∧ p ≠ [] ∧ (pnodes p).Nodup ∧
        (∀ x ∈ pnodes p, ¬ x ∈ vadd u st.visited) ∧ pend u p = n ∧
        (searchVisit adj start fuel u st).result n = st.distance + pweight p := by
  intro fuel
  induction fuel with
  | zero => exact fun u st n => Or.inl rfl
  | succ fuel ih =>
    intro u st n
    rcases searchLoopAux_sound (fun u1 st1 => searchVisit_frame adj start fuel u1 st1)
        (fun u1 st1 m => ih u1 st1 m) (adj u)
        ⟨vadd u st.visited, st.distance, st.result⟩ n with
      h | ⟨v, w, p0, hmem, hnv, hp0, hnd, hav, hpe, hval⟩
    · exact Or.inl h
    · refine Or.inr ⟨(v, w) :: p0, PathFrom.cons hmem hp0, by simp, by simpa using hnd,
        ?_, by simpa using hpe, by simpa using hval⟩
      intro x hx
      exact hav x (by simpa using hx)

theorem searchLoopAux_complete {adj : ℕ → List (ℕ × ℚ)} {start : ℕ}
    {recurse : ℕ → SState → SState} {cap : ℕ}
    (hRf : ∀ u st, (recurse u st).visited = vadd u st.visited ∧
      (recurse u st).distance = st.distance)
    (hRm : ∀ u st n, st.result n ≤ (recurse u st).result n)
    (hRc : ∀ u st p, p ≠ [] → start ∈ vadd u st.visited → PathFrom adj u p →
      (pnodes p).Nodup → (∀ x ∈ pnodes p, ¬ x ∈ vadd u st.visited) →
      p.length ≤ cap → st.distance + pweight p ≤ (recurse u st).result (pend u p)) :
    ∀ (l : List (ℕ × ℚ)) (st : SState) (v : ℕ) (w : ℚ) (p : List (ℕ × ℚ)),
      start ∈ st.visited → (v, w) ∈ l → v ∉ st.visited →
      PathFrom adj v p → (v :: pnodes p).Nodup →
      (∀ x ∈ v :: pnodes p, ¬ x ∈ st.visited) → p.length ≤ cap →
      st.distance + (w + pweight p) ≤ (searchLoopAux start recurse l st).result (pend v p) := by
  intro l
  induction l with
  | nil =>
    intro st v w p _ hmem
    exact absurd hmem (List.not_mem_nil _)
  | cons vw rest ih =>
    intro st v w p hstart hmem hv hp hnd hav hlen
    obtain ⟨v0, w0⟩ := vw
    rw [searchLoopAux]
    by_cases hv0 : v0 ∈ st.visited
    · simp only [if_pos hv0]
      rcases List.mem_cons.mp hmem with heq | hmem1
      · cases heq
        exact absurd hv0 hv
      · exact ih st v w p hstart hmem1 hv hp hnd hav hlen
    · simp only [if_neg hv0]
      obtain ⟨hXv, hXd⟩ := branch_spec hRf v0 w0 st
      have hB : stepBack v0 w0
          (if v0 = start then stepInto v0 w0 st else recurse v0 (stepInto v0 w0 st)) =
          ⟨st.visited, st.distance,
            (if v0 = start then stepInto v0 w0 st else recurse v0 (stepInto v0 w0 st)).result⟩ := by
        unfold stepBack
        rw [hXv, hXd, vdel_vadd_of_not_mem hv0, qsub_qadd_cancel]
      rw [hB]
      have hv0start : v0 ≠ start := fun h => hv0 (h ▸ hstart)
      have hXeq : (if v0 = start then stepInto v0 w0 st else recurse v0 (stepInto v0 w0 st))
          = recurse v0 (stepInto v0 w0 st) := if_neg hv0start
      rcases List.mem_cons.mp hmem with heq | hmem1
      · -- the edge under consideration is the head edge
        cases heq
        refine le_trans ?_ (searchLoopAux_mono hRm rest _ (pend v p))
        show _ ≤ (if v = start then stepInto v w st else recurse v (stepInto v w st)).result (pend v p)
        rw [hXeq]
        rcases eq_or_ne p [] with rfl | hpne
        · -- the one-edge path: the value was just written by `updMax`
          refine le_trans ?_ (hRm v (stepInto v w st) (pend v []))
          show st.distance + (w + pweight []) ≤ updMax st.result v (qadd st.distance w) v
          refine le_trans (le_of_eq ?_) (updMax_ge_d _ _ _)
          rw [qadd_eq]
          simp
        · -- a longer path: recurse from `v`
          have h1 := hRc v (stepInto v w st) p hpne
            (by
              show start ∈ vadd v (vadd v st.visited)
              simp only [mem_vadd]
              exact Or.inr (Or.inr hstart))
            hp ((List.nodup_cons.mp hnd).2)
            (by
              intro x hx
              show ¬ x ∈ vadd v (vadd v st.visited)
              simp only [mem_vadd]
              rintro (rfl | rfl | hxs)
              · exact (List.nodup_cons.mp hnd).1 hx
              · exact (List.nodup_cons.mp hnd).1 hx
              · exact hav x (List.mem_cons_of_mem _ hx) hxs)
            hlen
          refine le_trans (le_of_eq ?_) h1
          show st.distance + (w + pweight p) = qadd st.distance w + pweight p
          rw [qadd_eq]
          ring
      · -- the edge is further along the neighbor list
        have := ih ⟨st.visited, st.distance,
            (if v0 = start then stepInto v0 w0 st else recurse v0 (stepInto v0 w0 st)).result⟩
          v w p hstart hmem1 hv hp hnd hav hlen
        exact this

theorem searchVisit_complete (adj : ℕ → List (ℕ × ℚ)) (start : ℕ) :
    ∀ (fuel : ℕ) (u : ℕ) (st : SState) (p : List (ℕ × ℚ)),
      p ≠ [] → start ∈ vadd u st.visited → PathFrom adj u p →
      (pnodes p).Nodup → (∀ x ∈ pnodes p, ¬ x ∈ vadd u st.visited) →
      p.length ≤ fuel →
      st.distance + pweight p ≤ (searchVisit adj start fuel u st).result (pend u p) := by
  intro fuel
  induction fuel with
  | zero =>
    intro u st p hne _ _ _ _ hlen
    exact absurd (List.length_eq_zero.mp (Nat.le_zero.mp hlen)) hne
  | succ fuel ih =>
    intro u st p hne hstart hp hnd hav hlen
    obtain ⟨⟨v, w⟩, p0, rfl⟩ : ∃ e p0, p = e :: p0 := by
      cases p with
      | nil => exact absurd rfl hne
      | cons e p0 => exact ⟨e, p0, rfl⟩
    cases hp with
    | cons hmem hp0 =>
      have h := searchLoopAux_complete
        (fun u1 st1 => searchVisit_frame adj start fuel u1 st1)
        (fun u1 st1 m => searchVisit_mono adj start fuel u1 st1 m)
        (fun u1 st1 q hq1 hq2 hq3 hq4 hq5 hq6 => ih u1 st1 q hq1 hq2 hq3 hq4 hq5 hq6)
        (adj u) ⟨vadd u st.visited, st.distance, st.result⟩ v w p0
        hstart hmem (hav v (by simp)) hp0 (by simpa using hnd)
        (fun x hx => hav x (by simpa using hx)) (Nat.le_of_succ_le_succ hlen)
      refine le_trans (le_of_eq ?_) h
      simp

theorem lspStart_nonneg (g : WGraph) (s t : ℕ) : 0 ≤ lspStart g s t :=
  searchVisit_mono g.adj s g.nodes.length s ⟨[], 0, fun _ => 0⟩ t

theorem lspStart_sound (g : WGraph) (s t : ℕ) :
    lspStart g s t = 0 ∨ ∃ p, SimplePath g s t p ∧ lspStart g s t = pweight p := by
  rcases searchVisit_sound g.adj s g.nodes.length s ⟨[], 0, fun _ => 0⟩ t with
    h | ⟨p, hp, hne, hnd, hav, hpe, hval⟩
  · exact Or.inl h
  · refine Or.inr ⟨p, ⟨hp, hne, hnd, ?_, hpe⟩, by rw [lspStart, hval]; simp⟩
    intro hs
    exact hav s hs (by simp)

theorem lspStart_ge (g : WGraph) (s t : ℕ) (p : List (ℕ × ℚ))
    (hcl : ∀ x : ℕ, ∀ vw ∈ g.adj x, vw.1 ∈ g.nodes) (hp : SimplePath g s t p) :
    pweight p ≤ lspStart g s t := by
  obtain ⟨hpath, hne, hnd, hns, hpe⟩ := hp
  have hsub : ∀ x ∈ pnodes p, x ∈ g.nodes := pathFrom_nodes_mem hcl hpath
  have hlen : p.length ≤ g.nodes.length := by
    have h1 : p.length = (pnodes p).length := (List.length_map _ _).symm
    have h2 : (pnodes p).length = (pnodes p).toFinset.card :=
      (List.toFinset_card_of_nodup hnd).symm
    have h3 : (pnodes p).toFinset.card ≤ g.nodes.toFinset.card :=
      Finset.card_le_card fun x hx =>
        List.mem_toFinset.mpr (hsub x (List.mem_toFinset.mp hx))
    have h4 : g.nodes.toFinset.card ≤ g.nodes.length := g.nodes.toFinset_card_le
    omega
  have h := searchVisit_complete g.adj s g.nodes.length s ⟨[], 0, fun _ => 0⟩ p hne
    (by simp) hpath hnd
    (by
      intro x hx
      simp only [mem_vadd, List.not_mem_nil, or_false]
      intro hxs
      exact hns (hxs ▸ hx))
    hlen
  rw [lspStart, ← hpe]
  calc pweight p = (0 : ℚ) + pweight p := by ring
  _ ≤ _ := h

theorem lspStart_self (g : WGraph) (s : ℕ) : lspStart g s s = 0 := by
  rcases lspStart_sound g s s with h | ⟨p, ⟨_, hne, _, hns, hpe⟩, _⟩
  · exact h
  · exact absurd (hpe ▸ pend_mem s hne) hns

theorem pweight_append (a b : List (ℕ × ℚ)) : pweight (a ++ b) = pweight a + pweight b := by
  simp [pweight]

theorem pweight_prevP : ∀ (p : List (ℕ × ℚ)) (u : ℕ), pweight (prevP u p) = pweight p := by
  intro p
  induction p with
  | nil => intro u; rfl
  | cons vw p0 ih =>
    intro u
    obtain ⟨v, w⟩ := vw
    rw [prevP, pweight_append, ih v]
    simp [add_comm]

theorem pend_getLast : ∀ (p : List (ℕ × ℚ)) (u : ℕ),
    (u :: pnodes p).getLast? = some (pend u p) := by
  intro p
  induction p with
  | nil => intro u; rfl
  | cons vw p0 ih =>
    intro u
    obtain ⟨v, w⟩ := vw
    rw [pnodes_cons, List.getLast?_cons_cons, ih v, pend_cons]

theorem pnodes_prevP : ∀ (p : List (ℕ × ℚ)) (u : ℕ),
    pend u p :: pnodes (prevP u p) = (u :: pnodes p).reverse := by
  intro p
  induction p with
  | nil => intro u; rfl
  | cons vw p0 ih =>
    intro u
    obtain ⟨v, w⟩ := vw
    rw [prevP, pend_cons, pnodes_cons]
    show pend v p0 :: pnodes (prevP v p0 ++ [(u, w)]) = _
    have : pnodes (prevP v p0 ++ [(u, w)]) = pnodes (prevP v p0) ++ [u] := by
      simp [pnodes]
    rw [this, ← List.cons_append, ih v]
    simp

theorem pend_prevP (p : List (ℕ × ℚ)) (u : ℕ) : pend (pend u p) (prevP u p) = u := by
  have h1 := pend_getLast (prevP u p) (pend u p)
  rw [pnodes_prevP, List.getLast?_reverse] at h1
  simpa using h1.symm

theorem pathFrom_append {adj : ℕ → List (ℕ × ℚ)} {x : ℕ} {w : ℚ} :
    ∀ {q : List (ℕ × ℚ)} {a : ℕ}, PathFrom adj a q → (x, w) ∈ adj (pend a q) →
    PathFrom adj a (q ++ [(x, w)]) := by
  intro q
  induction q with
  | nil =>
    intro a _ hmem
    exact PathFrom.cons hmem (PathFrom.nil x)
  | cons vw q0 ih =>
    intro a hq hmem
    obtain ⟨v, w1⟩ := vw
    cases hq with
    | cons he hq0 => exact PathFrom.cons he (ih hq0 hmem)

theorem prevP_path {adj : ℕ → List (ℕ × ℚ)}
    (hsym : ∀ u v : ℕ, ∀ w : ℚ, (v, w) ∈ adj u ↔ (u, w) ∈ adj v) :
    ∀ (p : List (ℕ × ℚ)) (u : ℕ), PathFrom adj u p →
      PathFrom adj (pend u p) (prevP u p) := by
  intro p
  induction p with
  | nil => exact fun u _ => PathFrom.nil u
  | cons vw p0 ih =>
    intro u hp
    obtain ⟨v, w⟩ := vw
    cases hp with
    | cons he hp0 =>
      rw [prevP, pend_cons]
      refine pathFrom_append (ih v hp0) ?_
      rw [pend_prevP]
      exact (hsym u v w).mp he

theorem simplePath_rev {g : WGraph}
    (hsym : ∀ u v : ℕ, ∀ w : ℚ, (v, w) ∈ g.adj u ↔ (u, w) ∈ g.adj v)
    {s t : ℕ} {p : List (ℕ × ℚ)} (hp : SimplePath g s t p) :
    SimplePath g t s (prevP s p) := by
  obtain ⟨hpath, hne, hnd, hns, hpe⟩ := hp
  have hrevnodes : t :: pnodes (prevP s p) = (s :: pnodes p).reverse := by
    rw [← hpe]
    exact pnodes_prevP p s
  have hrevnodup : (t :: pnodes (prevP s p)).Nodup := by
    rw [hrevnodes, List.nodup_reverse]
    exact List.nodup_cons.mpr ⟨hns, hnd⟩
  refine ⟨?_, ?_, ?_, ?_, ?_⟩
  · have := prevP_path hsym p s hpath
    rwa [hpe] at this
  · cases p with
    | nil => exact absurd rfl hne
    | cons e p0 =>
      obtain ⟨v, w⟩ := e
      rw [prevP]
      simp
  · exact (List.nodup_cons.mp hrevnodup).2
  · exact (List.nodup_cons.mp hrevnodup).1
  · rw [← hpe]
    exact pend_prevP p s

theorem lspStart_symm (g : WGraph)
    (hsym : ∀ u v : ℕ, ∀ w : ℚ, (v, w) ∈ g.adj u ↔ (u, w) ∈ g.adj v)
    (hcl : ∀ x : ℕ, ∀ vw ∈ g.adj x, vw.1 ∈ g.nodes) (s t : ℕ) :
    lspStart g s t = lspStart g t s := by
  have key : ∀ a b : ℕ, lspStart g a b ≤ lspStart g b a := by
    intro a b
    rcases lspStart_sound g a b with h | ⟨p, hp, hval⟩
    · rw [h]
      exact lspStart_nonneg g b a
    · rw [hval, ← pweight_prevP p a]
      exact lspStart_ge g b a (prevP a p) hcl (simplePath_rev hsym hp)
  exact le_antisymm (key s t) (key t s)

theorem foldl_cons_rep {α β : Type} (f : α → β) :
    ∀ (L : List α) (m : List β),
      L.foldl (fun acc x => f x :: acc) m = L.reverse.map f ++ m := by
  intro L
  induction L with
  | nil => intro m; rfl
  | cons x L ih =>
    intro m
    rw [List.foldl_cons, ih]
    simp

theorem lspMapA_rep (g : WGraph) :
    lspMapA g = (allPairs g.nodes).reverse.map
      (fun st => ((min st.1 st.2, max st.1 st.2), lspStart g st.1 st.2)) := by
  rw [lspMapA]
  have := foldl_cons_rep
    (fun st : ℕ × ℕ => ((min st.1 st.2, max st.1 st.2), lspStart g st.1 st.2))
    (allPairs g.nodes) []
  simpa [minsert] using this

theorem mlookup_map_sound {key : ℕ × ℕ → ℕ × ℕ} {val : ℕ × ℕ → ℚ} :
    ∀ (L : List (ℕ × ℕ)) (k : ℕ × ℕ) (v : ℚ),
      mlookup (L.map fun st => (key st, val st)) k = some v →
      ∃ st ∈ L, key st = k ∧ v = val st := by
  intro L
  induction L with
  | nil => intro k v h; simp [mlookup] at h
  | cons x L ih =>
    intro k v h
    rw [List.map_cons, mlookup_cons] at h
    split at h
    · exact ⟨x, List.mem_cons_self _ _, by simp_all⟩
    · obtain ⟨st, hst, h1, h2⟩ := ih k v h
      exact ⟨st, List.mem_cons_of_mem _ hst, h1, h2⟩

theorem mlookup_map_isSome {key : ℕ × ℕ → ℕ × ℕ} {val : ℕ × ℕ → ℚ} :
    ∀ (L : List (ℕ × ℕ)) (k : ℕ × ℕ), (∃ st ∈ L, key st = k) →
      (mlookup (L.map fun st => (key st, val st)) k).isSome = true := by
  intro L
  induction L with
  | nil => rintro k ⟨st, hst, _⟩; exact absurd hst (List.not_mem_nil _)
  | cons x L ih =>
    rintro k ⟨st, hst, hkey⟩
    rw [List.map_cons]
    rw [show (mlookup ((key x, val x) :: L.map fun st => (key st, val st)) k)
      = if k = key x then some (val x) else mlookup (L.map fun st => (key st, val st)) k
      from rfl]
    by_cases h : k = key x
    · simp [h]
    · rw [if_neg h]
      rcases List.mem_cons.mp hst with rfl | hst1
      · exact absurd hkey.symm h
      · exact ih k ⟨st, hst1, hkey⟩

theorem mem_allPairs {l : List ℕ} {s t : ℕ} : (s, t) ∈ allPairs l ↔ s ∈ l ∧ t ∈ l := by
  constructor
  · intro h
    obtain ⟨a, ha, hb⟩ := List.mem_flatMap.mp h
    obtain ⟨b, hbl, heq⟩ := List.mem_map.mp hb
    cases heq
    exact ⟨ha, hbl⟩
  · rintro ⟨hs, ht⟩
    exact List.mem_flatMap.mpr ⟨s, hs, List.mem_map.mpr ⟨t, ht, rfl⟩⟩

theorem mlookup_lspMapA_sound (g : WGraph) {a b : ℕ} {v : ℚ}
    (h : mlookup (lspMapA g) (a, b) = some v) :
    ∃ s t : ℕ, s ∈ g.nodes ∧ t ∈ g.nodes ∧ min s t = a ∧ max s t = b ∧
      v = lspStart g s t := by
  rw [lspMapA_rep] at h
  obtain ⟨st, hst, hkey, hval⟩ := mlookup_map_sound _ _ _ h
  obtain ⟨hs, ht⟩ := mem_allPairs.mp (List.mem_reverse.mp hst)
  exact ⟨st.1, st.2, hs, ht, congrArg Prod.fst hkey, congrArg Prod.snd hkey, hval⟩

theorem mlookup_lspMapA_isSome (g : WGraph) {s t : ℕ}
    (hs : s ∈ g.nodes) (ht : t ∈ g.nodes) :
    (mlookup (lspMapA g) (min s t, max s t)).isSome = true := by
  rw [lspMapA_rep]
  exact mlookup_map_isSome _ _
    ⟨(s, t), List.mem_reverse.mpr (mem_allPairs.mpr ⟨hs, ht⟩), rfl⟩

theorem minmax_swap {a b c d : ℕ} (h1 : min a b = min c d) (h2 : max a b = max c d) :
    (a = c ∧ b = d) ∨ (a = d ∧ b = c) := by
  omega

theorem mlookup_lspMapA_eq (g : WGraph)
    (hsym : ∀ u v : ℕ, ∀ w : ℚ, (v, w) ∈ g.adj u ↔ (u, w) ∈ g.adj v)
    (hcl : ∀ x : ℕ, ∀ vw ∈ g.adj x, vw.1 ∈ g.nodes) {s t : ℕ}
    (hs : s ∈ g.nodes) (ht : t ∈ g.nodes) :
    mlookup (lspMapA g) (min s t, max s t) = some (lspStart g s t) := by
  obtain ⟨v, hv⟩ := Option.isSome_iff_exists.mp (mlookup_lspMapA_isSome g hs ht)
  obtain ⟨s1, t1, _, _, hmin, hmax, hval⟩ := mlookup_lspMapA_sound g hv
  rw [hv, hval]
  rcases minmax_swap hmin hmax with ⟨rfl, rfl⟩ | ⟨rfl, rfl⟩
  · rfl
  · rw [lspStart_symm g hsym hcl]

theorem mem_foldl_vadd2 (m : Wmap) :
    ∀ (acc : List ℕ) (x : ℕ),
      x ∈ m.foldl (fun acc kv => vadd kv.1.2 (vadd kv.1.1 acc)) acc ↔
      x ∈ acc ∨ ∃ kv ∈ m, x = kv.1.1 ∨ x = kv.1.2 := by
  induction m with
  | nil => intro acc x; simp
  | cons kv m ih =>
    intro acc x
    rw [List.foldl_cons, ih]
    simp only [mem_vadd, List.mem_cons]
    constructor
    · rintro ((rfl | rfl | hx) | ⟨kv1, h1, h2⟩)
      · exact Or.inr ⟨kv, Or.inl rfl, Or.inr rfl⟩
      · exact Or.inr ⟨kv, Or.inl rfl, Or.inl rfl⟩
      · exact Or.inl hx
      · exact Or.inr ⟨kv1, Or.inr h1, h2⟩
    · rintro (hx | ⟨kv1, rfl | h1, h2⟩)
      · exact Or.inl (Or.inr (Or.inr hx))
      · rcases h2 with rfl | rfl
        · exact Or.inl (Or.inr (Or.inl rfl))
        · exact Or.inl (Or.inl rfl)
      · exact Or.inr ⟨kv1, h1, h2⟩

theorem mem_blockNodes {m : Wmap} {x : ℕ} :
    x ∈ blockNodes m ↔ ∃ kv ∈ m, x = kv.1.1 ∨ x = kv.1.2 := by
  rw [blockNodes, mem_foldl_vadd2]
  simp

theorem mem_blockNodes_lspMapA (g : WGraph) {x : ℕ} :
    x ∈ blockNodes (lspMapA g) ↔ x ∈ g.nodes := by
  rw [mem_blockNodes]
  constructor
  · rintro ⟨kv, hkv, hx⟩
    rw [lspMapA_rep] at hkv
    obtain ⟨st, hst, rfl⟩ := List.mem_map.mp hkv
    obtain ⟨hs, ht⟩ := mem_allPairs.mp (List.mem_reverse.mp hst)
    rcases hx with rfl | rfl
    · show min st.1 st.2 ∈ g.nodes
      rcases min_choice st.1 st.2 with h | h <;> rw [h] <;> assumption
    · show max st.1 st.2 ∈ g.nodes
      rcases max_choice st.1 st.2 with h | h <;> rw [h] <;> assumption
  · intro hx
    refine ⟨((min x x, max x x), lspStart g x x), ?_, Or.inl (by simp)⟩
    rw [lspMapA_rep]
    exact List.mem_map.mpr ⟨(x, x), List.mem_reverse.mpr (mem_allPairs.mpr ⟨hx, hx⟩), rfl⟩

theorem wfMap_toBlock (g : WGraph) : WFMap (toBlock g).1 (toBlock g).2 := by
  refine ⟨?_, ?_, ?_, ?_⟩
  · intro a b ha hb hab
    have ha1 := (mem_blockNodes_lspMapA g).mp ha
    have hb1 := (mem_blockNodes_lspMapA g).mp hb
    have := mlookup_lspMapA_isSome g ha1 hb1
    rwa [min_eq_left hab, max_eq_right hab] at this
  · rintro ⟨a, b⟩ v h
    obtain ⟨s, t, hs, ht, hmin, hmax, _⟩ := mlookup_lspMapA_sound g h
    refine ⟨?_, ?_, ?_⟩
    · show a ∈ blockNodes (lspMapA g)
      rw [mem_blockNodes_lspMapA, ← hmin]
      rcases min_choice s t with h1 | h1 <;> rw [h1] <;> assumption
    · show b ∈ blockNodes (lspMapA g)
      rw [mem_blockNodes_lspMapA, ← hmax]
      rcases max_choice s t with h1 | h1 <;> rw [h1] <;> assumption
    · show a ≤ b
      omega
  · intro a ha
    have ha1 := (mem_blockNodes_lspMapA g).mp ha
    obtain ⟨v, hv⟩ := Option.isSome_iff_exists.mp
      (by simpa using mlookup_lspMapA_isSome g ha1 ha1)
    obtain ⟨s, t, _, _, hmin, hmax, hval⟩ := mlookup_lspMapA_sound g hv
    have hst : s = a ∧ t = a := by omega
    show mlookup (lspMapA g) (a, a) = some 0
    rw [hv, hval, hst.1, hst.2, lspStart_self]
  · rintro k v h
    obtain ⟨s, t, _, _, _, _, hval⟩ := mlookup_lspMapA_sound g h
    rw [hval]
    exact lspStart_nonneg g s t

theorem mem_linter {a b : List ℕ} {x : ℕ} : x ∈ linter a b ↔ x ∈ a ∧ x ∈ b := by
  simp [linter]

theorem mem_lunion {ns : List ℕ} : ∀ {base : List ℕ} {x : ℕ},
    x ∈ lunion base ns ↔ x ∈ base ∨ x ∈ ns := by
  induction ns with
  | nil => intro base x; simp [lunion]
  | cons n ns ih =>
    intro base x
    show x ∈ lunion (vadd n base) ns ↔ _
    rw [ih]
    simp only [mem_vadd, List.mem_cons]
    tauto

theorem mem_pairsOf {l : List ℕ} {i j : ℕ} :
    (i, j) ∈ pairsOf l ↔ i ∈ l ∧ j ∈ l ∧ i ≤ j := by
  constructor
  · intro h
    obtain ⟨a, ha, hb⟩ := List.mem_flatMap.mp h
    obtain ⟨b, hbl, heq⟩ := List.mem_map.mp hb
    cases heq
    obtain ⟨hj, hle⟩ := List.mem_filter.mp hbl
    exact ⟨ha, hj, by simpa using hle⟩
  · rintro ⟨hi, hj, hle⟩
    exact List.mem_flatMap.mpr
      ⟨i, hi, List.mem_map.mpr ⟨j, List.mem_filter.mpr ⟨hj, by simpa using hle⟩, rfl⟩⟩

theorem mem_QNodes {Q : List Block} {x : ℕ} :
    x ∈ QNodes Q ↔ ∃ b ∈ Q, x ∈ b.1 := by
  have key : ∀ (Q : List Block) (acc : List ℕ) (x : ℕ),
      x ∈ Q.foldl (fun acc b => lunion acc b.1) acc ↔ x ∈ acc ∨ ∃ b ∈ Q, x ∈ b.1 := by
    intro Q
    induction Q with
    | nil => intro acc x; simp
    | cons b Q ih =>
      intro acc x
      rw [List.foldl_cons, ih, mem_lunion]
      simp only [List.mem_cons]
      constructor
      · rintro ((h | h) | ⟨b1, h1, h2⟩)
        · exact Or.inl h
        · exact Or.inr ⟨b, Or.inl rfl, h⟩
        · exact Or.inr ⟨b1, Or.inr h1, h2⟩
      · rintro (h | ⟨b1, rfl | h1, h2⟩)
        · exact Or.inl (Or.inl h)
        · exact Or.inl (Or.inr h2)
        · exact Or.inr ⟨b1, h1, h2⟩
  rw [QNodes, key]
  simp

theorem findRev_error {nodes : List ℕ} :
    ∀ {Q : List Block} {e : MErr}, findRev nodes Q = .error e →
      e = .multipleCommon ∨ e = .noCommon := by
  intro Q
  induction Q with
  | nil =>
    intro e h
    rw [findRev] at h
    cases h
    exact Or.inr rfl
  | cons blk rest ih =>
    intro e h
    rw [findRev] at h
    split at h
    · split at h
      · cases h
        exact ih (by assumption)
      · cases h
    · cases h
    · cases h
      exact Or.inl rfl

theorem linter_single {a b : List ℕ} {c : ℕ} (h : linter a b = [c]) :
    c ∈ a ∧ c ∈ b := by
  have : c ∈ linter a b := h ▸ List.mem_cons_self c []
  exact mem_linter.mp this

theorem findRev_ok {nodes : List ℕ} :
    ∀ {Q : List Block} {c : ℕ} {blk : Block} {rem : List Block},
      findRev nodes Q = .ok (c, blk, rem) →
      Q.Perm (blk :: rem) ∧ linter blk.1 nodes = [c] := by
  intro Q
  induction Q with
  | nil =>
    intro c blk rem h
    rw [findRev] at h
    cases h
  | cons blk0 rest ih =>
    intro c blk rem h
    rw [findRev] at h
    split at h
    · split at h
      · cases h
      · cases h
        next hrec =>
          obtain ⟨hperm, hl⟩ := ih hrec
          refine ⟨?_, hl⟩
          exact (hperm.cons blk0).trans (List.Perm.swap _ _ _)
    · cases h
      next heq => exact ⟨List.Perm.refl _, heq⟩
    · cases h

theorem findBlock_ok {nodes : List ℕ} {Q : List Block} {c : ℕ} {blk : Block}
    {rem : List Block} (h : findBlock nodes Q = .ok (c, blk, rem)) :
    Q.Perm (blk :: rem) ∧ linter blk.1 nodes = [c] := by
  rw [findBlock] at h
  split at h
  · cases h
  · cases h
    next hrev =>
      obtain ⟨hperm, hl⟩ := findRev_ok hrev
      refine ⟨?_, hl⟩
      exact (Q.reverse_perm.symm.trans hperm).trans
        (List.Perm.cons _ (List.reverse_perm _).symm)

theorem findBlock_error {nodes : List ℕ} {Q : List Block} {e : MErr}
    (h : findBlock nodes Q = .error e) : e = .multipleCommon ∨ e = .noCommon := by
  rw [findBlock] at h
  split at h
  · cases h
    next hrev => exact findRev_error hrev
  · cases h

theorem calcWeight_first {C lsp : Wmap} {c i j : ℕ} {v : ℚ}
    (h : mlookup C (i, j) = some v) : calcWeight C lsp c i j = .ok v := by
  rw [calcWeight, h]

theorem calcWeight_second {C lsp : Wmap} {c i j : ℕ} {v : ℚ}
    (h0 : mlookup C (i, j) = none) (h : mlookup lsp (i, j) = some v) :
    calcWeight C lsp c i j = .ok v := by
  rw [calcWeight, h0, h]

theorem calcWeight_cross1 {C lsp : Wmap} {c i j : ℕ} {a b : ℚ}
    (h0 : mlookup C (i, j) = none) (h1 : mlookup lsp (i, j) = none)
    (hne : ¬(i = j ∧ j = c))
    (ha : mlookup C (min i c, max i c) = some a)
    (hb : mlookup lsp (min j c, max j c) = some b) :
    calcWeight C lsp c i j = .ok (qadd a b) := by
  rw [calcWeight, h0, h1, if_neg hne, ha, hb]

theorem calcWeight_cross2 {C lsp : Wmap} {c i j : ℕ} {a b : ℚ}
    (h0 : mlookup C (i, j) = none) (h1 : mlookup lsp (i, j) = none)
    (hne : ¬(i = j ∧ j = c))
    (hfail : mlookup C (min i c, max i c) = none ∨
      mlookup lsp (min j c, max j c) = none)
    (ha : mlookup C (min j c, max j c) = some a)
    (hb : mlookup lsp (min i c, max i c) = some b) :
    calcWeight C lsp c i j = .ok (qadd a b) := by
  rcases hfail with hf | hf
  · rw [calcWeight, h0, h1, if_neg hne, hf, ha, hb]
  · cases ho1 : mlookup C (min i c, max i c) with
    | none => rw [calcWeight, h0, h1, if_neg hne, ho1, ha, hb]
    | some a1 => rw [calcWeight, h0, h1, if_neg hne, ho1, hf, ha, hb]

theorem calcWeight_ok_elim {C lsp : Wmap} {c i j : ℕ} {v : ℚ}
    (h : calcWeight C lsp c i j = .ok v) :
    mlookup C (i, j) = some v ∨
    mlookup lsp (i, j) = some v ∨
    ∃ a b : ℚ, v = qadd a b ∧
      ((mlookup C (min i c, max i c) = some a ∧
        mlookup lsp (min j c, max j c) = some b) ∨
       (mlookup C (min j c, max j c) = some a ∧
        mlookup lsp (min i c, max i c) = some b)) := by
  rw [calcWeight] at h
  split at h
  · cases h
    next heq => exact Or.inl heq
  · split at h
    · cases h
      next heq => exact Or.inr (Or.inl heq)
    · split at h
      · cases h
      · split at h
        · cases h
          next ha hb => exact Or.inr (Or.inr ⟨_, _, rfl, Or.inl ⟨ha, hb⟩⟩)
        · split at h
          · cases h
            next ha hb => exact Or.inr (Or.inr ⟨_, _, rfl, Or.inr ⟨ha, hb⟩⟩)
          · cases h

theorem wf_lookup_none_left {nd : List ℕ} {m : Wmap} {i j : ℕ}
    (h : WFMap nd m) (hi : i ∉ nd) : mlookup m (i, j) = none := by
  cases hl : mlookup m (i, j) with
  | none => rfl
  | some v => exact absurd (h.2.1 _ _ hl).1 hi

theorem wf_lookup_none_right {nd : List ℕ} {m : Wmap} {i j : ℕ}
    (h : WFMap nd m) (hj : j ∉ nd) : mlookup m (i, j) = none := by
  cases hl : mlookup m (i, j) with
  | none => rfl
  | some v => exact absurd (h.2.1 _ _ hl).2.1 hj

theorem wf_lookup_pair {nd : List ℕ} {m : Wmap} {i c : ℕ}
    (h : WFMap nd m) (hi : i ∈ nd) (hc : c ∈ nd) :
    ∃ v, mlookup m (min i c, max i c) = some v := by
  have hmin : min i c ∈ nd := by
    rcases min_choice i c with h1 | h1 <;> rw [h1] <;> assumption
  have hmax : max i c ∈ nd := by
    rcases max_choice i c with h1 | h1 <;> rw [h1] <;> assumption
  exact Option.isSome_iff_exists.mp (h.1 _ _ hmin hmax (min_le_max))

theorem wf_lookup_pair_none {nd : List ℕ} {m : Wmap} {i c : ℕ}
    (h : WFMap nd m) (hi : i ∉ nd) : mlookup m (min i c, max i c) = none := by
  cases hl : mlookup m (min i c, max i c) with
  | none => rfl
  | some v =>
    obtain ⟨h1, h2, _⟩ := h.2.1 _ _ hl
    refine absurd ?_ hi
    rcases Nat.le_total i c with hle | hle
    · rw [show ((min i c, max i c) : ℕ × ℕ).1 = min i c from rfl, min_eq_left hle] at h1
      exact h1
    · rw [show ((min i c, max i c) : ℕ × ℕ).2 = max i c from rfl, max_eq_left hle] at h2
      exact h2

theorem calcWeight_total {ndC ndB : List ℕ} {C lsp : Wmap} {c : ℕ}
    (hC : WFMap ndC C) (hB : WFMap ndB lsp) (hcC : c ∈ ndC) (hcB : c ∈ ndB)
    {i j : ℕ} (hi : i ∈ ndC ∨ i ∈ ndB) (hj : j ∈ ndC ∨ j ∈ ndB) (hij : i ≤ j) :
    ∃ v, calcWeight C lsp c i j = .ok v := by
  by_cases hCC : i ∈ ndC ∧ j ∈ ndC
  · obtain ⟨v, hv⟩ := Option.isSome_iff_exists.mp (hC.1 i j hCC.1 hCC.2 hij)
    exact ⟨v, calcWeight_first hv⟩
  · by_cases hBB : i ∈ ndB ∧ j ∈ ndB
    · cases hfst : mlookup C (i, j) with
      | some v => exact ⟨v, calcWeight_first hfst⟩
      | none =>
        obtain ⟨v, hv⟩ := Option.isSome_iff_exists.mp (hB.1 i j hBB.1 hBB.2 hij)
        exact ⟨v, calcWeight_second hfst hv⟩
    · have hmix : (i ∈ ndC ∧ i ∉ ndB ∧ j ∈ ndB ∧ j ∉ ndC) ∨
          (i ∈ ndB ∧ i ∉ ndC ∧ j ∈ ndC ∧ j ∉ ndB) := by tauto
      rcases hmix with ⟨hiC, hiB, hjB, hjC⟩ | ⟨hiB, hiC, hjC, hjB⟩
      · have hne : ¬(i = j ∧ j = c) := by
          rintro ⟨rfl, rfl⟩
          exact hjC hiC
        obtain ⟨a, ha⟩ := wf_lookup_pair hC hiC hcC
        obtain ⟨b, hb⟩ := wf_lookup_pair hB hjB hcB
        exact ⟨qadd a b, calcWeight_cross1 (wf_lookup_none_right hC hjC)
          (wf_lookup_none_left hB hiB) hne ha hb⟩
      · have hne : ¬(i = j ∧ j = c) := by
          rintro ⟨rfl, rfl⟩
          exact hiC hjC
        obtain ⟨a, ha⟩ := wf_lookup_pair hC hjC hcC
        obtain ⟨b, hb⟩ := wf_lookup_pair hB hiB hcB
        exact ⟨qadd a b, calcWeight_cross2 (wf_lookup_none_left hC hiC)
          (wf_lookup_none_right hB hjB) hne
          (Or.inl (wf_lookup_pair_none hC hiC)) ha hb⟩

theorem buildPairs_total {f : ℕ → ℕ → Except MErr ℚ} :
    ∀ {L : List (ℕ × ℕ)}, (∀ ij ∈ L, ∃ v, f ij.1 ij.2 = .ok v) →
      ∃ m, buildPairs f L = .ok m := by
  intro L
  induction L with
  | nil => exact fun _ => ⟨[], rfl⟩
  | cons ij L ih =>
    intro h
    obtain ⟨v, hv⟩ := h ij (List.mem_cons_self _ _)
    obtain ⟨m, hm⟩ := ih fun ij1 h1 => h ij1 (List.mem_cons_of_mem _ h1)
    exact ⟨(ij, v) :: m, by rw [buildPairs, hv, hm]⟩

theorem buildPairs_lookup {f : ℕ → ℕ → Except MErr ℚ} :
    ∀ {L : List (ℕ × ℕ)} {m : Wmap}, buildPairs f L = .ok m →
      ∀ ij ∈ L, ∃ v, f ij.1 ij.2 = .ok v ∧ mlookup m ij = some v := by
  intro L
  induction L with
  | nil =>
    intro m _ ij hij
    exact absurd hij (List.not_mem_nil _)
  | cons ij0 L ih =>
    intro m h ij hij
    rw [buildPairs] at h
    cases hfeq : f ij0.1 ij0.2 with
    | error e => rw [hfeq] at h; cases h
    | ok w =>
      rw [hfeq] at h
      cases hbeq : buildPairs f L with
      | error e => rw [hbeq] at h; cases h
      | ok m0 =>
        rw [hbeq] at h
        cases h
        by_cases hek : ij = ij0
        · subst hek
          exact ⟨w, hfeq, by simp [mlookup]⟩
        · rcases List.mem_cons.mp hij with rfl | hij1
          · exact absurd rfl hek
          · obtain ⟨v, hv1, hv2⟩ := ih hbeq ij hij1
            exact ⟨v, hv1, by simpa [mlookup, hek] using hv2⟩

theorem buildPairs_keys {f : ℕ → ℕ → Except MErr ℚ} :
    ∀ {L : List (ℕ × ℕ)} {m : Wmap}, buildPairs f L = .ok m →
      ∀ (k : ℕ × ℕ) (v : ℚ), mlookup m k = some v →
        k ∈ L ∧ f k.1 k.2 = .ok v := by
  intro L
  induction L with
  | nil =>
    intro m h k v hv
    rw [buildPairs] at h
    cases h
    simp [mlookup] at hv
  | cons ij0 L ih =>
    intro m h k v hv
    rw [buildPairs] at h
    cases hfeq : f ij0.1 ij0.2 with
    | error e => rw [hfeq] at h; cases h
    | ok w =>
      rw [hfeq] at h
      cases hbeq : buildPairs f L with
      | error e => rw [hbeq] at h; cases h
      | ok m0 =>
        rw [hbeq] at h
        cases h
        rw [mlookup_cons] at hv
        split at hv
        · cases hv
          subst_vars
          exact ⟨List.mem_cons_self _ _, hfeq⟩
        · obtain ⟨h1, h2⟩ := ih hbeq k v hv
          exact ⟨List.mem_cons_of_mem _ h1, h2⟩

theorem rebuildC_total (nd : List ℕ) (f : ℕ → ℕ → Except MErr ℚ)
    (h : ∀ i j : ℕ, i ∈ nd → j ∈ nd → i ≤ j → ∃ v, f i j = .ok v) :
    ∃ m, rebuildC nd f = .ok m := by
  refine buildPairs_total ?_
  rintro ⟨i, j⟩ hij
  obtain ⟨hi, hj, hle⟩ := mem_pairsOf.mp hij
  exact h i j hi hj hle

theorem rebuildC_lookup {nd : List ℕ} {f : ℕ → ℕ → Except MErr ℚ} {m : Wmap}
    (h : rebuildC nd f = .ok m) {i j : ℕ} (hi : i ∈ nd) (hj : j ∈ nd)
    (hij : i ≤ j) : ∃ v, f i j = .ok v ∧ mlookup m (i, j) = some v :=
  buildPairs_lookup h (i, j) (mem_pairsOf.mpr ⟨hi, hj, hij⟩)

theorem rebuildC_keys {nd : List ℕ} {f : ℕ → ℕ → Except MErr ℚ} {m : Wmap}
    (h : rebuildC nd f = .ok m) {k : ℕ × ℕ} {v : ℚ} (hv : mlookup m k = some v) :
    k.1 ∈ nd ∧ k.2 ∈ nd ∧ k.1 ≤ k.2 ∧ f k.1 k.2 = .ok v := by
  obtain ⟨h1, h2⟩ := buildPairs_keys h k v hv
  obtain ⟨hi, hj, hle⟩ := mem_pairsOf.mp (show (k.1, k.2) ∈ pairsOf nd from h1)
  exact ⟨hi, hj, hle, h2⟩

theorem mergeStep_spec {st st1 : MState} (hok : mergeStep st = .ok st1) :
    ∃ (c : ℕ) (blk : Block), st.Q.Perm (blk :: st1.Q) ∧
      linter blk.1 st.nodes = [c] ∧
      st1.nodes = lunion st.nodes blk.1 ∧
      rebuildC (lunion st.nodes blk.1)
        (fun i j => calcWeight st.C blk.2 c i j) = .ok st1.C := by
  rw [mergeStep] at hok
  cases hfind : findBlock st.nodes st.Q with
  | error e => rw [hfind] at hok; cases hok
  | ok p =>
    obtain ⟨c, blk, Qrem⟩ := p
    rw [hfind] at hok
    have hok2 : (match rebuildC (lunion st.nodes blk.1)
        (fun i j => calcWeight st.C blk.2 c i j) with
      | Except.error e => Except.error e
      | Except.ok Cnew =>
          Except.ok (⟨lunion st.nodes blk.1, Cnew, Qrem⟩ : MState)) = Except.ok st1 := hok
    cases hre : rebuildC (lunion st.nodes blk.1)
        (fun i j => calcWeight st.C blk.2 c i j) with
    | error e => rw [hre] at hok2; cases hok2
    | ok Cnew =>
      rw [hre] at hok2
      cases hok2
      obtain ⟨hperm, hl⟩ := findBlock_ok hfind
      exact ⟨c, blk, hperm, hl, rfl, hre⟩

theorem mergeStep_wf {st st1 : MState} (hInv : InvS st)
    (hok : mergeStep st = .ok st1) : InvS st1 := by
  obtain ⟨c, blk, hperm, hl, hnodes, hre⟩ := mergeStep_spec hok
  obtain ⟨hcB, hcC⟩ := linter_single hl
  have hblk : WFMap blk.1 blk.2 :=
    hInv.2 blk (hperm.mem_iff.mpr (List.mem_cons_self _ _))
  have hCwf := hInv.1
  constructor
  · refine ⟨?_, ?_, ?_, ?_⟩
    · -- completeness over the merged node set
      intro a b ha hb hab
      rw [hnodes] at ha hb
      obtain ⟨v, _, hv⟩ := rebuildC_lookup hre (by rwa [mem_lunion] at ha ⊢)
        (by rwa [mem_lunion] at hb ⊢) hab
      · rw [hv]; rfl
    · -- keys are normalized pairs of the merged node set
      intro k v hv
      obtain ⟨h1, h2, h3, _⟩ := rebuildC_keys hre hv
      rw [hnodes]
      exact ⟨h1, h2, h3⟩
    · -- zero diagonal
      intro a ha
      rw [hnodes, mem_lunion] at ha
      have hfza : calcWeight st.C blk.2 c a a = .ok 0 := by
        rcases Classical.em (a ∈ st.nodes) with haC | haC
        · exact calcWeight_first (hCwf.2.2.1 a haC)
        · rcases ha with h | h
          · exact absurd h haC
          · exact calcWeight_second (wf_lookup_none_left hCwf haC)
              (hblk.2.2.1 a h)
      obtain ⟨v, hv1, hv2⟩ := rebuildC_lookup hre
        (mem_lunion.mpr ha) (mem_lunion.mpr ha) (le_refl a)
      rw [hv1] at hfza
      cases hfza
      exact hv2
    · -- non-negativity
      intro k v hv
      obtain ⟨_, _, _, hf⟩ := rebuildC_keys hre hv
      rcases calcWeight_ok_elim hf with h | h | ⟨a, b, rfl, hcase⟩
      · exact hCwf.2.2.2 _ _ h
      · exact hblk.2.2.2 _ _ h
      · rw [qadd_eq]
        rcases hcase with ⟨h1, h2⟩ | ⟨h1, h2⟩
        · exact add_nonneg (hCwf.2.2.2 _ _ h1) (hblk.2.2.2 _ _ h2)
        · exact add_nonneg (hCwf.2.2.2 _ _ h1) (hblk.2.2.2 _ _ h2)
  · -- the remaining queue is still well-formed
    intro b hb
    exact hInv.2 b (hperm.mem_iff.mpr (List.mem_cons_of_mem _ hb))

theorem mergeStep_total {st : MState} (hInv : InvS st) {c : ℕ} {blk : Block}
    {rem : List Block} (hfind : findBlock st.nodes st.Q = .ok (c, blk, rem)) :
    ∃ st1, mergeStep st = .ok st1 := by
  obtain ⟨hperm, hl⟩ := findBlock_ok hfind
  obtain ⟨hcB, hcC⟩ := linter_single hl
  have hblk : WFMap blk.1 blk.2 :=
    hInv.2 blk (hperm.mem_iff.mpr (List.mem_cons_self _ _))
  obtain ⟨m, hm⟩ := rebuildC_total (lunion st.nodes blk.1)
    (fun i j => calcWeight st.C blk.2 c i j)
    (by
      intro i j hi hj hle
      exact calcWeight_total hInv.1 hblk hcC hcB
        (mem_lunion.mp hi) (mem_lunion.mp hj) hle)
  refine ⟨⟨lunion st.nodes blk.1, m, rem⟩, ?_⟩
  rw [mergeStep, hfind]
  show (match rebuildC (lunion st.nodes blk.1)
      (fun i j => calcWeight st.C blk.2 c i j) with
    | Except.error e => Except.error e
    | Except.ok Cnew =>
        Except.ok (⟨lunion st.nodes blk.1, Cnew, rem⟩ : MState)) = _
  rw [hm]

theorem mergeLoopF_ok_spec :
    ∀ {f : ℕ} {st st1 : MState}, InvS st → mergeLoopF f st = .ok st1 →
      InvS st1 ∧ st1.Q = [] ∧
      (∀ x : ℕ, x ∈ st1.nodes ↔ x ∈ st.nodes ∨ ∃ b ∈ st.Q, x ∈ b.1) := by
  intro f
  induction f with
  | zero =>
    intro st st1 hInv h
    rw [mergeLoopF] at h
    split at h
    · cases h
      next hemp =>
        refine ⟨hInv, List.isEmpty_iff.mp hemp, ?_⟩
        intro x
        rw [List.isEmpty_iff.mp hemp]
        simp
    · cases h
  | succ f ih =>
    intro st st1 hInv h
    rw [mergeLoopF] at h
    split at h
    · cases h
      next hemp =>
        refine ⟨hInv, List.isEmpty_iff.mp hemp, ?_⟩
        intro x
        rw [List.isEmpty_iff.mp hemp]
        simp
    · cases hms : mergeStep st with
      | error e => rw [hms] at h; cases h
      | ok st2 =>
        rw [hms] at h
        obtain ⟨hInv2, hQ1, hnodes1⟩ := ih (mergeStep_wf hInv hms) h
        obtain ⟨c, blk, hperm, _, hnd2, _⟩ := mergeStep_spec hms
        refine ⟨hInv2, hQ1, ?_⟩
        intro x
        rw [hnodes1 x, hnd2, mem_lunion]
        have hmemQ : (∃ b ∈ st.Q, x ∈ b.1) ↔ x ∈ blk.1 ∨ ∃ b ∈ st2.Q, x ∈ b.1 := by
          constructor
          · rintro ⟨b, hb, hxb⟩
            rcases List.mem_cons.mp (hperm.mem_iff.mp hb) with rfl | hb2
            · exact Or.inl hxb
            · exact Or.inr ⟨b, hb2, hxb⟩
          · rintro (hx | ⟨b, hb, hxb⟩)
            · exact ⟨blk, hperm.mem_iff.mpr (List.mem_cons_self _ _), hx⟩
            · exact ⟨b, hperm.mem_iff.mpr (List.mem_cons_of_mem _ hb), hxb⟩
        rw [hmemQ]
        tauto

theorem mergeLoopF_cases :
    ∀ {f : ℕ} {st : MState}, InvS st → f = st.Q.length →
      (∃ st1, mergeLoopF f st = .ok st1) ∨
      mergeLoopF f st = .error .multipleCommon ∨
      mergeLoopF f st = .error .noCommon := by
  intro f
  induction f with
  | zero =>
    intro st _ hlen
    have hemp : st.Q.isEmpty = true :=
      List.isEmpty_iff.mpr (List.length_eq_zero.mp hlen.symm)
    exact Or.inl ⟨st, by rw [mergeLoopF, if_pos hemp]⟩
  | succ f ih =>
    intro st hInv hlen
    have hne : st.Q ≠ [] := by
      intro h
      rw [h] at hlen
      simp at hlen
    have hnemp : st.Q.isEmpty = false := by
      cases hQ : st.Q with
      | nil => exact absurd hQ hne
      | cons b rest => rfl
    cases hfind : findBlock st.nodes st.Q with
    | error e =>
      have hms : mergeStep st = .error e := by rw [mergeStep, hfind]
      have hloop : mergeLoopF (f + 1) st = .error e := by
        rw [mergeLoopF, if_neg (by rw [hnemp]; exact Bool.false_ne_true), hms]
      rcases findBlock_error hfind with rfl | rfl
      · exact Or.inr (Or.inl hloop)
      · exact Or.inr (Or.inr hloop)
    | ok p =>
      obtain ⟨c, blk, rem⟩ := p
      obtain ⟨st2, hms⟩ := mergeStep_total hInv hfind
      have hloop : mergeLoopF (f + 1) st = mergeLoopF f st2 := by
        rw [mergeLoopF, if_neg (by rw [hnemp]; exact Bool.false_ne_true), hms]
      obtain ⟨_, blk2, hperm, _, _, _⟩ := mergeStep_spec hms
      have hlen2 : f = st2.Q.length := by
        have := hperm.length_eq
        rw [← hlen] at this
        simpa using this
      rcases ih (mergeStep_wf hInv hms) hlen2 with ⟨st1, h1⟩ | h1 | h1
      · exact Or.inl ⟨st1, by rw [hloop]; exact h1⟩
      · exact Or.inr (Or.inl (by rw [hloop]; exact h1))
      · exact Or.inr (Or.inr (by rw [hloop]; exact h1))

theorem calcDetour_ok_spec {N : ℕ} {Q : List Block} {M : ℕ → ℕ → ℚ}
    (hwf : ∀ b ∈ Q, WFMap b.1 b.2) (hok : calcDetour N Q = .ok M) :
    (N = 1 ∧ ∀ i j : ℕ, M i j = 0) ∨
    ∃ (nd : List ℕ) (C : Wmap), WFMap nd C ∧
      M = fun i j => (mlookup C (min i j, max i j)).getD 0 := by
  rw [calcDetour] at hok
  by_cases hN : N = 1
  · rw [if_pos hN] at hok
    cases hok
    exact Or.inl ⟨hN, fun i j => rfl⟩
  · rw [if_neg hN] at hok
    cases hgl : Q.getLast? with
    | none => rw [hgl] at hok; cases hok
    | some blk =>
      rw [hgl] at hok
      have happ : Q.dropLast ++ [blk] = Q := List.dropLast_append_getLast? blk hgl
      have hseed : InvS ⟨blk.1, blk.2, Q.dropLast⟩ := by
        constructor
        · exact hwf blk (by rw [← happ]; simp)
        · intro b hb
          exact hwf b (by rw [← happ]; exact List.mem_append_left _ hb)
      have hok2 : (match mergeLoopF Q.dropLast.length ⟨blk.1, blk.2, Q.dropLast⟩ with
        | Except.error e => Except.error e
        | Except.ok st => assemble N st.C) = Except.ok M := hok
      cases hml : mergeLoopF Q.dropLast.length ⟨blk.1, blk.2, Q.dropLast⟩ with
      | error e => rw [hml] at hok2; cases hok2
      | ok st1 =>
        rw [hml] at hok2
        have hok3 : assemble N st1.C = .ok M := hok2
        obtain ⟨hInv1, _, _⟩ := mergeLoopF_ok_spec hseed hml
        unfold assemble at hok3
        by_cases hcond : ∀ i ∈ List.range N, ∀ j ∈ List.range N,
            i ≤ j → (mlookup st1.C (i, j)).isSome = true
        · rw [if_pos hcond] at hok3
          cases hok3
          exact Or.inr ⟨st1.nodes, st1.C, hInv1.1, rfl⟩
        · rw [if_neg hcond] at hok3
          cases hok3

theorem matrix_props_of_wf {nd : List ℕ} {C : Wmap} {M : ℕ → ℕ → ℚ}
    (hwf : WFMap nd C)
    (hM : M = fun i j => (mlookup C (min i j, max i j)).getD 0) :
    (∀ i j : ℕ, M i j = M j i) ∧ (∀ i : ℕ, M i i = 0) ∧ (∀ i j : ℕ, 0 ≤ M i j) := by
  subst hM
  refine ⟨?_, ?_, ?_⟩
  · intro i j
    simp only [min_comm i j, max_comm i j]
  · intro i
    simp only [min_self, max_self]
    cases hl : mlookup C (i, i) with
    | none => rfl
    | some v =>
      have hi : i ∈ nd := (hwf.2.1 _ _ hl).1
      have := hwf.2.2.1 i hi
      rw [this] at hl
      cases hl
      rfl
  · intro i j
    show 0 ≤ (mlookup C (min i j, max i j)).getD 0
    cases hl : mlookup C (min i j, max i j) with
    | none => exact le_refl 0
    | some v => exact hwf.2.2.2 _ _ hl

theorem calcDetourG_wf (blocks : List WGraph) :
    ∀ b ∈ blocks.map toBlock, WFMap b.1 b.2 := by
  intro b hb
  obtain ⟨g, _, rfl⟩ := List.mem_map.mp hb
  exact wfMap_toBlock g

theorem calcDetourG_props {N : ℕ} {blocks : List WGraph} {M : ℕ → ℕ → ℚ}
    (hok : calcDetourG N blocks = .ok M) :
    (∀ i j : ℕ, M i j = M j i) ∧ (∀ i : ℕ, M i i = 0) ∧ (∀ i j : ℕ, 0 ≤ M i j) := by
  rcases calcDetour_ok_spec (calcDetourG_wf blocks) hok with ⟨_, hM⟩ | ⟨nd, C, hwf, hM⟩
  · exact ⟨fun i j => by rw [hM, hM], fun i => hM i i, fun i j => le_of_eq (hM i j).symm⟩
  · exact matrix_props_of_wf hwf hM

theorem qsum_nonneg {l : List ℚ} (h : ∀ x ∈ l, 0 ≤ x) : 0 ≤ qsum l := by
  rw [qsum_eq]
  exact List.sum_nonneg h

theorem matrixSum_nonneg {N : ℕ} {M : ℕ → ℕ → ℚ} (h : ∀ i j : ℕ, 0 ≤ M i j) :
    0 ≤ matrixSum N M := by
  rw [matrixSum]
  refine qsum_nonneg ?_
  intro x hx
  obtain ⟨i, _, rfl⟩ := List.mem_map.mp hx
  refine qsum_nonneg ?_
  intro y hy
  obtain ⟨j, _, rfl⟩ := List.mem_map.mp hy
  exact h i j

theorem ratFloor_eq_floor (q : ℚ) : q.floor = ⌊q⌋ :=
  (Rat.floor_def' q).trans Rat.floor_def.symm

theorem pyInt_of_nonneg {q : ℚ} (h : 0 ≤ q) : pyInt q = ⌊q⌋ := by
  rw [pyInt, if_neg, ratFloor_eq_floor]
  simp only [not_lt]
  exact Rat.num_nonneg.mpr h

theorem mkRat_one_two : mkRat 1 2 = (1 / 2 : ℚ) := by
  rw [Rat.mkRat_eq_div]
  norm_num

/-- C2: for every run of the core that returns a matrix, the returned
matrix is symmetric (`M[i][j] = M[j][i]`), has zero diagonal
(`M[i][i] = 0`), and every entry is non-negative. -/
theorem detour_matrix_symmetric_zeroDiag_nonneg (N : ℕ) (blocks : List WGraph)
    (M : ℕ → ℕ → ℚ) (h : calcDetourG N blocks = .ok M) :
    (∀ i j : ℕ, M i j = M j i) ∧ (∀ i : ℕ, M i i = 0) ∧ (∀ i j : ℕ, 0 ≤ M i j) :=
  calcDetourG_props h

/-- Witness for C2: the unweighted 4-cycle. -/
theorem detour_matrix_symmetric_zeroDiag_nonneg_witness :
    calcDetourG 4 [cycle4] =
      .ok (fun i j => (mlookup (lspMapA cycle4) (min i j, max i j)).getD 0) ∧
    ((∀ i j : ℕ, (mlookup (lspMapA cycle4) (min i j, max i j)).getD 0 =
        (mlookup (lspMapA cycle4) (min j i, max j i)).getD 0) ∧
     (∀ i : ℕ, (mlookup (lspMapA cycle4) (min i i, max i i)).getD 0 = 0) ∧
     (∀ i j : ℕ, 0 ≤ (mlookup (lspMapA cycle4) (min i j, max i j)).getD 0)) :=
  ⟨rfl, detour_matrix_symmetric_zeroDiag_nonneg 4 [cycle4] _ rfl⟩

/-- C3: the detour index of every matrix produced by the core equals
`floor((1/2) * (sum of all entries))` and is non-negative (for the
non-negative matrices the core produces, truncation toward zero and
floor agree). -/
theorem detour_index_floor_halfSum (N : ℕ) (blocks : List WGraph)
    (M : ℕ → ℕ → ℚ) (h : calcDetourG N blocks = .ok M) :
    detourIndex N M = ⌊(1 / 2 : ℚ) * matrixSum N M⌋ ∧ 0 ≤ detourIndex N M := by
  have hnn : ∀ i j : ℕ, 0 ≤ M i j := (calcDetourG_props h).2.2
  have hq : 0 ≤ (1 / 2 : ℚ) * matrixSum N M :=
    mul_nonneg (by norm_num) (matrixSum_nonneg hnn)
  have heq : detourIndex N M = ⌊(1 / 2 : ℚ) * matrixSum N M⌋ := by
    rw [detourIndex, qmul_eq, mkRat_one_two, pyInt_of_nonneg hq]
  exact ⟨heq, heq ▸ Int.le_floor.mpr (by exact_mod_cast hq)⟩

/-- Witness for C3: the unweighted 4-cycle. -/
theorem detour_index_floor_halfSum_witness :
    calcDetourG 4 [cycle4] =
      .ok (fun i j => (mlookup (lspMapA cycle4) (min i j, max i j)).getD 0) ∧
    (detourIndex 4 (fun i j => (mlookup (lspMapA cycle4) (min i j, max i j)).getD 0) =
      ⌊(1 / 2 : ℚ) * matrixSum 4
        (fun i j => (mlookup (lspMapA cycle4) (min i j, max i j)).getD 0)⌋ ∧
     0 ≤ detourIndex 4 (fun i j => (mlookup (lspMapA cycle4) (min i j, max i j)).getD 0)) :=
  ⟨rfl, detour_index_floor_halfSum 4 [cycle4] _ rfl⟩

/-- C4: on the unweighted 4-cycle 0-1-2-3-0 the core returns the matrix
with zero diagonal, 3 for adjacent pairs and 2 for opposite pairs, and
the detour index is 16. -/
theorem cycle4_matrix_and_index :
    (calcDetourG 4 [cycle4]).map (matRows 4) =
      .ok [[0, 3, 2, 3], [3, 0, 3, 2], [2, 3, 0, 3], [3, 2, 3, 0]] ∧
    (calcDetourG 4 [cycle4]).map (fun M => detourIndex 4 M) = .ok 16 :=
  ⟨rfl, rfl⟩

/-- C5: for an undirected block, the per-block map stores under the key
`(min(s,g), max(s,g))` the maximum of the two directional search values,
and the two directions agree (so the stored value equals both). -/
theorem lsp_map_stores_max_of_directions (g : WGraph)
    (hsym : ∀ u v : ℕ, ∀ w : ℚ, (v, w) ∈ g.adj u ↔ (u, w) ∈ g.adj v)
    (hcl : ∀ x : ℕ, ∀ vw ∈ g.adj x, vw.1 ∈ g.nodes)
    (s t : ℕ) (hs : s ∈ g.nodes) (ht : t ∈ g.nodes) :
    lspStart g s t = lspStart g t s ∧
    mlookup (lspMapA g) (min s t, max s t) =
      some (max (lspStart g s t) (lspStart g t s)) := by
  have h := lspStart_symm g hsym hcl s t
  refine ⟨h, ?_⟩
  rw [mlookup_lspMapA_eq g hsym hcl hs ht, ← h, max_self]

/-- Witness for C5: the weighted edge block 0-1. -/
theorem lsp_map_stores_max_of_directions_witness :
    lspStart pathA 0 1 = lspStart pathA 1 0 ∧
    mlookup (lspMapA pathA) (min 0 1, max 0 1) =
      some (max (lspStart pathA 0 1) (lspStart pathA 1 0)) :=
  lsp_map_stores_max_of_directions pathA
    (by
      intro u v w
      simp only [pathA]
      split_ifs <;> simp_all [Prod.ext_iff])
    (by
      intro x vw h
      simp only [pathA] at h ⊢
      split_ifs at h <;> simp_all)
    0 1 (by simp [pathA]) (by simp [pathA])

theorem mergeStep_ok_of_find {st st1 : MState} {c : ℕ} {blk : Block}
    {rem : List Block} (hfind : findBlock st.nodes st.Q = .ok (c, blk, rem))
    (hok : mergeStep st = .ok st1) :
    st1.nodes = lunion st.nodes blk.1 ∧ st1.Q = rem ∧
    rebuildC (lunion st.nodes blk.1)
      (fun i j => calcWeight st.C blk.2 c i j) = .ok st1.C := by
  rw [mergeStep, hfind] at hok
  have hok2 : (match rebuildC (lunion st.nodes blk.1)
      (fun i j => calcWeight st.C blk.2 c i j) with
    | Except.error e => Except.error e
    | Except.ok Cnew =>
        Except.ok (⟨lunion st.nodes blk.1, Cnew, rem⟩ : MState)) = Except.ok st1 := hok
  cases hre : rebuildC (lunion st.nodes blk.1)
      (fun i j => calcWeight st.C blk.2 c i j) with
  | error e => rw [hre] at hok2; cases hok2
  | ok Cnew =>
    rw [hre] at hok2
    cases hok2
    exact ⟨rfl, rfl, hre ▸ rfl⟩

/-- C6: during a merge with cut vertex `c`, a pair with one node `i`
only on the merged side and the other node `j` only in the new block is
recorded with weight `merged[(i,c)] + newblock[(c,j)]` (keys are
unordered). -/
theorem merge_cross_pair_weight (st st1 : MState) (c : ℕ) (blk : Block)
    (rem : List Block) (i j : ℕ) (a b : ℚ)
    (hInv : InvS st)
    (hfind : findBlock st.nodes st.Q = .ok (c, blk, rem))
    (hok : mergeStep st = .ok st1)
    (hiC : i ∈ st.nodes) (hiB : i ∉ blk.1)
    (hjB : j ∈ blk.1) (hjC : j ∉ st.nodes)
    (ha : mlookup st.C (min i c, max i c) = some a)
    (hb : mlookup blk.2 (min j c, max j c) = some b) :
    mlookup st1.C (min i j, max i j) = some (a + b) := by
  obtain ⟨hnd, hQ, hre⟩ := mergeStep_ok_of_find hfind hok
  have hblk : WFMap blk.1 blk.2 :=
    hInv.2 blk ((findBlock_ok hfind).1.mem_iff.mpr (List.mem_cons_self _ _))
  have hCwf := hInv.1
  have hij : i ≠ j := fun h => hjC (h ▸ hiC)
  rcases Nat.lt_or_ge i j with hlt | hge
  · have hmin : min i j = i := min_eq_left (le_of_lt hlt)
    have hmax : max i j = j := max_eq_right (le_of_lt hlt)
    obtain ⟨v, hv1, hv2⟩ := rebuildC_lookup hre (mem_lunion.mpr (Or.inl hiC))
      (mem_lunion.mpr (Or.inr hjB)) (le_of_lt hlt)
    have hcw : calcWeight st.C blk.2 c i j = .ok (qadd a b) :=
      calcWeight_cross1 (wf_lookup_none_right hCwf hjC)
        (wf_lookup_none_left hblk hiB)
        (by rintro ⟨rfl, _⟩; exact hij rfl) ha hb
    rw [hv1] at hcw
    cases hcw
    rw [hmin, hmax, hv2, qadd_eq]
  · have hlt2 : j < i := lt_of_le_of_ne hge (Ne.symm hij)
    have hmin : min i j = j := min_eq_right (le_of_lt hlt2)
    have hmax : max i j = i := max_eq_left (le_of_lt hlt2)
    obtain ⟨v, hv1, hv2⟩ := rebuildC_lookup hre (mem_lunion.mpr (Or.inr hjB))
      (mem_lunion.mpr (Or.inl hiC)) (le_of_lt hlt2)
    have hcw : calcWeight st.C blk.2 c j i = .ok (qadd a b) :=
      calcWeight_cross2 (wf_lookup_none_left hCwf hjC)
        (wf_lookup_none_right hblk hiB)
        (by rintro ⟨rfl, _⟩; exact hij rfl)
        (Or.inl (wf_lookup_pair_none hCwf hjC)) ha hb
    rw [hv1] at hcw
    cases hcw
    rw [hmin, hmax, hv2, qadd_eq]

/-- Witness for C6: merging the block 0-1 (weight 2) into the merged
block 1-2 (weight 3) across the cut vertex 1 records weight 3 + 2 for
the pair (0, 2). -/
theorem merge_cross_pair_weight_witness :
    mlookup (⟨[0, 1, 2],
      [((0, 0), 0), ((0, 1), 2), ((0, 2), 5), ((1, 1), 0), ((1, 2), 3), ((2, 2), 0)],
      []⟩ : MState).C (min 2 0, max 2 0) = some (3 + 2) :=
  merge_cross_pair_weight seedSt _ 1 (toBlock pathA) [] 2 0 3 2
    ⟨wfMap_toBlock pathB, by
      intro b hb
      rcases List.mem_singleton.mp hb with rfl
      exact wfMap_toBlock pathA⟩
    rfl rfl (by decide) (by decide) (by decide) (by decide) rfl rfl

/-- Counterexample to C7: the pair `(c, c)` of the cut vertex is NOT
skipped: merging the block 0-1 into the merged block 1-2 across the cut
vertex 1 stores an entry for the pair (1, 1) in the merged map. -/
theorem merge_cut_pair_not_skipped :
    mergeStep seedSt = .ok ⟨[0, 1, 2],
      [((0, 0), 0), ((0, 1), 2), ((0, 2), 5), ((1, 1), 0), ((1, 2), 3), ((2, 2), 0)],
      []⟩ ∧
    mlookup [((0, 0), (0 : ℚ)), ((0, 1), 2), ((0, 2), 5), ((1, 1), 0), ((1, 2), 3),
      ((2, 2), 0)] (1, 1) = some 0 :=
  ⟨rfl, rfl⟩

/-- C7 (amended): the pair `(c, c)` of the cut vertex is not skipped:
it is recorded through the first lookup case with the previously merged
value, which is 0; the dedicated `max(lsp, C)` branch is unreachable
because `(c, c)` is always a key of the merged map.  A pair of the cut
vertex with another node takes the local value of whichever side
contains the other node. -/
theorem merge_cut_vertex_pair_weights (st st1 : MState) (c : ℕ) (blk : Block)
    (rem : List Block)
    (hInv : InvS st)
    (hfind : findBlock st.nodes st.Q = .ok (c, blk, rem))
    (hok : mergeStep st = .ok st1) :
    mlookup st1.C (c, c) = some 0 ∧
    (∀ j ∈ st.nodes,
      mlookup st1.C (min c j, max c j) = mlookup st.C (min c j, max c j)) ∧
    (∀ j ∈ blk.1, j ∉ st.nodes →
      mlookup st1.C (min c j, max c j) = mlookup blk.2 (min c j, max c j)) := by
  obtain ⟨hnd, hQ, hre⟩ := mergeStep_ok_of_find hfind hok
  obtain ⟨hperm, hl⟩ := findBlock_ok hfind
  obtain ⟨hcB, hcC⟩ := linter_single hl
  have hblk : WFMap blk.1 blk.2 :=
    hInv.2 blk (hperm.mem_iff.mpr (List.mem_cons_self _ _))
  have hCwf := hInv.1
  refine ⟨?_, ?_, ?_⟩
  · obtain ⟨v, hv1, hv2⟩ := rebuildC_lookup hre (mem_lunion.mpr (Or.inl hcC))
      (mem_lunion.mpr (Or.inl hcC)) (le_refl c)
    have hcw : calcWeight st.C blk.2 c c c = .ok 0 :=
      calcWeight_first (hCwf.2.2.1 c hcC)
    rw [hv1] at hcw
    cases hcw
    exact hv2
  · intro j hj
    have hminC : min c j ∈ st.nodes := by
      rcases min_choice c j with h1 | h1 <;> rw [h1] <;> assumption
    have hmaxC : max c j ∈ st.nodes := by
      rcases max_choice c j with h1 | h1 <;> rw [h1] <;> assumption
    obtain ⟨w, hw⟩ := Option.isSome_iff_exists.mp
      (hCwf.1 _ _ hminC hmaxC min_le_max)
    obtain ⟨v, hv1, hv2⟩ := rebuildC_lookup hre (mem_lunion.mpr (Or.inl hminC))
      (mem_lunion.mpr (Or.inl hmaxC)) min_le_max
    have hcw : calcWeight st.C blk.2 c (min c j) (max c j) = .ok w :=
      calcWeight_first hw
    rw [hv1] at hcw
    cases hcw
    rw [hv2, hw]
  · intro j hjB hjC
    have hminB : min c j ∈ blk.1 := by
      rcases min_choice c j with h1 | h1 <;> rw [h1] <;> assumption
    have hmaxB : max c j ∈ blk.1 := by
      rcases max_choice c j with h1 | h1 <;> rw [h1] <;> assumption
    have h0 : mlookup st.C (min c j, max c j) = none := by
      have := wf_lookup_pair_none (c := c) hCwf hjC
      rwa [min_comm j c, max_comm j c] at this
    obtain ⟨w, hw⟩ := Option.isSome_iff_exists.mp
      (hblk.1 _ _ hminB hmaxB min_le_max)
    obtain ⟨v, hv1, hv2⟩ := rebuildC_lookup hre (mem_lunion.mpr (Or.inr hminB))
      (mem_lunion.mpr (Or.inr hmaxB)) min_le_max
    have hcw : calcWeight st.C blk.2 c (min c j) (max c j) = .ok w :=
      calcWeight_second h0 hw
    rw [hv1] at hcw
    cases hcw
    rw [hv2, hw]

/-- Witness for the amended C7: the concrete two-block merge across cut
vertex 1. -/
theorem merge_cut_vertex_pair_weights_witness :
    mlookup (⟨[0, 1, 2],
      [((0, 0), 0), ((0, 1), 2), ((0, 2), 5), ((1, 1), 0), ((1, 2), 3), ((2, 2), 0)],
      []⟩ : MState).C (1, 1) = some 0 ∧
    (∀ j ∈ seedSt.nodes,
      mlookup (⟨[0, 1, 2],
        [((0, 0), 0), ((0, 1), 2), ((0, 2), 5), ((1, 1), 0), ((1, 2), 3), ((2, 2), 0)],
        []⟩ : MState).C (min 1 j, max 1 j) = mlookup seedSt.C (min 1 j, max 1 j)) ∧
    (∀ j ∈ (toBlock pathA).1, j ∉ seedSt.nodes →
      mlookup (⟨[0, 1, 2],
        [((0, 0), 0), ((0, 1), 2), ((0, 2), 5), ((1, 1), 0), ((1, 2), 3), ((2, 2), 0)],
        []⟩ : MState).C (min 1 j, max 1 j) = mlookup (toBlock pathA).2 (min 1 j, max 1 j)) :=
  merge_cut_vertex_pair_weights seedSt _ 1 (toBlock pathA) []
    ⟨wfMap_toBlock pathB, by
      intro b hb
      rcases List.mem_singleton.mp hb with rfl
      exact wfMap_toBlock pathA⟩
    rfl rfl

theorem findRev_skip_error {nodes : List ℕ} {e : MErr} {rest : List Block} :
    ∀ {pre : List Block}, (∀ b ∈ pre, linter b.1 nodes = []) →
      findRev nodes rest = .error e → findRev nodes (pre ++ rest) = .error e := by
  intro pre
  induction pre with
  | nil => exact fun _ h => h
  | cons b pre ih =>
    intro hpre hrest
    rw [List.cons_append, findRev, hpre b (List.mem_cons_self _ _),
      ih (fun b1 h1 => hpre b1 (List.mem_cons_of_mem _ h1)) hrest]

theorem findRev_skip_ok {nodes : List ℕ} {c : ℕ} {blk : Block}
    {rem rest : List Block} :
    ∀ {pre : List Block}, (∀ b ∈ pre, linter b.1 nodes = []) →
      findRev nodes rest = .ok (c, blk, rem) →
      findRev nodes (pre ++ rest) = .ok (c, blk, pre ++ rem) := by
  intro pre
  induction pre with
  | nil => exact fun _ h => h
  | cons b pre ih =>
    intro hpre hrest
    rw [List.cons_append, findRev, hpre b (List.mem_cons_self _ _),
      ih (fun b1 h1 => hpre b1 (List.mem_cons_of_mem _ h1)) hrest]
    rfl

/-- C8: scanning the queue from the end, if the first block whose node
set intersects the merged set shares more than one node, the merge
raises the multiple-common-nodes fatal error and does not produce a new
state; if it shares exactly one node, the merge proceeds without
error. -/
theorem merge_multiple_common_nodes (st : MState) (pre post : List Block)
    (blk : Block)
    (hdec : st.Q.reverse = pre ++ blk :: post)
    (hpre : ∀ b ∈ pre, linter b.1 st.nodes = []) :
    (2 ≤ (linter blk.1 st.nodes).length →
      mergeStep st = .error .multipleCommon ∧ ∀ st1, mergeStep st ≠ .ok st1) ∧
    (∀ c : ℕ, linter blk.1 st.nodes = [c] → InvS st →
      ∃ st1, mergeStep st = .ok st1) := by
  constructor
  · intro hlen
    have hrev : findRev st.nodes (blk :: post) = .error .multipleCommon := by
      cases hli : linter blk.1 st.nodes with
      | nil => rw [hli] at hlen; simp at hlen
      | cons x tail =>
        cases tail with
        | nil => rw [hli] at hlen; simp at hlen
        | cons y l => rw [findRev, hli]
    have hfind : findBlock st.nodes st.Q = .error .multipleCommon := by
      rw [findBlock, hdec, findRev_skip_error hpre hrev]
    have hms : mergeStep st = .error .multipleCommon := by rw [mergeStep, hfind]
    exact ⟨hms, fun st1 h => by rw [hms] at h; cases h⟩
  · intro c hli hInv
    have hrev : findRev st.nodes (blk :: post) = .ok (c, blk, post) := by
      rw [findRev, hli]
    have hfind : findBlock st.nodes st.Q = .ok (c, blk, (pre ++ post).reverse) := by
      rw [findBlock, hdec, findRev_skip_ok hpre hrev]
    exact mergeStep_total hInv hfind

/-- Witness for C8: a queued block sharing the two nodes 1 and 2 with
the merged set makes the merge fail with the multiple-common-nodes
error. -/
theorem merge_multiple_common_nodes_witness :
    mergeStep badSt = .error .multipleCommon ∧
    ∀ st1, mergeStep badSt ≠ .ok st1 :=
  (merge_multiple_common_nodes badSt [] [] ([1, 2], [((1, 2), 1)]) rfl
    (fun b hb => absurd hb (List.not_mem_nil b))).1 (by decide)

/-- C10: for a block decomposition covering all nodes `0..N-1` (N ≥ 2),
the pipeline can only fail in block selection (no intersecting block, or
more than one common node); the unknown-weight branch of `calc_weight`
and the matrix-assembly lookups never fail: any other outcome is a
successfully assembled matrix. -/
theorem merge_pipeline_safety (N : ℕ) (blocks : List WGraph)
    (hN : 2 ≤ N) (hbl : blocks ≠ [])
    (hcover : ∀ i : ℕ, i < N → i ∈ QNodes (blocks.map toBlock)) :
    (∃ M, calcDetourG N blocks = .ok M) ∨
    calcDetourG N blocks = .error .multipleCommon ∨
    calcDetourG N blocks = .error .noCommon := by
  have hQne : blocks.map toBlock ≠ [] := by
    intro h
    exact hbl (List.map_eq_nil_iff.mp h)
  have hN1 : N ≠ 1 := by omega
  obtain ⟨blk, hgl⟩ : ∃ blk, (blocks.map toBlock).getLast? = some blk := by
    cases hQ : blocks.map toBlock with
    | nil => exact absurd hQ hQne
    | cons a l =>
      exact ⟨(a :: l).getLast (by simp), List.getLast?_eq_getLast _ _⟩
  have hcd : calcDetourG N blocks =
      (match mergeLoopF (blocks.map toBlock).dropLast.length
          ⟨blk.1, blk.2, (blocks.map toBlock).dropLast⟩ with
        | Except.error e => Except.error e
        | Except.ok st => assemble N st.C) := by
    rw [calcDetourG, calcDetour, if_neg hN1, hgl]
  have happ : (blocks.map toBlock).dropLast ++ [blk] = blocks.map toBlock :=
    List.dropLast_append_getLast? blk hgl
  have hseed : InvS ⟨blk.1, blk.2, (blocks.map toBlock).dropLast⟩ := by
    constructor
    · exact calcDetourG_wf blocks blk (by rw [← happ]; simp)
    · intro b hb
      exact calcDetourG_wf blocks b (by rw [← happ]; exact List.mem_append_left _ hb)
  rcases mergeLoopF_cases (f := (blocks.map toBlock).dropLast.length) hseed rfl
    with ⟨st1, hml⟩ | hml | hml
  · obtain ⟨hInv1, hQ1, hnodes⟩ := mergeLoopF_ok_spec hseed hml
    rw [hml] at hcd
    have hcd2 : calcDetourG N blocks = assemble N st1.C := hcd
    left
    have hcond : ∀ i ∈ List.range N, ∀ j ∈ List.range N,
        i ≤ j → (mlookup st1.C (i, j)).isSome = true := by
      intro i hi j hj hij
      have hmem : ∀ x : ℕ, x < N → x ∈ st1.nodes := by
        intro x hx
        rw [hnodes x]
        obtain ⟨b, hb, hxb⟩ := mem_QNodes.mp (hcover x hx)
        rw [← happ] at hb
        rcases List.mem_append.mp hb with hb1 | hb1
        · exact Or.inr ⟨b, hb1, hxb⟩
        · rcases List.mem_singleton.mp hb1 with rfl
          exact Or.inl hxb
      exact hInv1.1.1 i j (hmem i (List.mem_range.mp hi))
        (hmem j (List.mem_range.mp hj)) hij
    refine ⟨fun i j => (mlookup st1.C (min i j, max i j)).getD 0, ?_⟩
    rw [hcd2]
    unfold assemble
    rw [if_pos hcond]
  · rw [hml] at hcd
    exact Or.inr (Or.inl hcd)
  · rw [hml] at hcd
    exact Or.inr (Or.inr hcd)

/-- Witness for C10: the two-block path graph covers nodes 0..2 and the
pipeline succeeds. -/
theorem merge_pipeline_safety_witness :
    (∃ M, calcDetourG 3 [pathA, pathB] = .ok M) ∨
    calcDetourG 3 [pathA, pathB] = .error .multipleCommon ∨
    calcDetourG 3 [pathA, pathB] = .error .noCommon :=
  merge_pipeline_safety 3 [pathA, pathB] (by omega) (by simp)
    (by decide)

theorem pval_comm (m : Wmap) (x y : ℕ) : pval m x y = pval m y x := by
  rw [pval, pval, min_comm, max_comm]

theorem pval_sorted {m : Wmap} {x y : ℕ} (h : x ≤ y) :
    pval m x y = mlookup m (x, y) := by
  rw [pval, min_eq_left h, max_eq_right h]

theorem wf_pval_some {nd : List ℕ} {m : Wmap} {x y : ℕ}
    (h : WFMap nd m) (hx : x ∈ nd) (hy : y ∈ nd) : ∃ v, pval m x y = some v := by
  refine Option.isSome_iff_exists.mp (h.1 _ _ ?_ ?_ min_le_max)
  · rcases min_choice x y with h1 | h1 <;> rw [h1] <;> assumption
  · rcases max_choice x y with h1 | h1 <;> rw [h1] <;> assumption

theorem wf_pval_none_left {nd : List ℕ} {m : Wmap} {x y : ℕ}
    (h : WFMap nd m) (hx : x ∉ nd) : pval m x y = none := by
  cases hl : pval m x y with
  | none => rfl
  | some v =>
    rw [pval] at hl
    obtain ⟨h1, h2, _⟩ := h.2.1 _ _ hl
    refine absurd ?_ hx
    rcases Nat.le_total x y with hle | hle
    · rw [show ((min x y, max x y) : ℕ × ℕ).1 = min x y from rfl,
        min_eq_left hle] at h1
      exact h1
    · rw [show ((min x y, max x y) : ℕ × ℕ).2 = max x y from rfl,
        max_eq_left hle] at h2
      exact h2

theorem wf_pval_none_right {nd : List ℕ} {m : Wmap} {x y : ℕ}
    (h : WFMap nd m) (hy : y ∉ nd) : pval m x y = none := by
  rw [pval_comm]
  exact wf_pval_none_left h hy

theorem wf_pval_diag {nd : List ℕ} {m : Wmap} {x : ℕ}
    (h : WFMap nd m) (hx : x ∈ nd) : pval m x x = some 0 := by
  rw [pval, min_self, max_self]
  exact h.2.2.1 x hx

theorem wf_pval_nonneg {nd : List ℕ} {m : Wmap} {x y : ℕ} {v : ℚ}
    (h : WFMap nd m) (hv : pval m x y = some v) : 0 ≤ v := by
  rw [pval] at hv
  exact h.2.2.2 _ _ hv

theorem linter_single_mem {l ns : List ℕ} {c : ℕ} (h : linter l ns = [c]) :
    ∀ z ∈ l, z ∈ ns → z = c := by
  intro z hz hzns
  have : z ∈ linter l ns := mem_linter.mpr ⟨hz, hzns⟩
  rw [h] at this
  exact List.mem_singleton.mp this

theorem linter_eq_single {l ns : List ℕ} {c : ℕ} (hnd : l.Nodup)
    (hc : c ∈ l) (hcns : c ∈ ns) (h : ∀ z ∈ l, z ∈ ns → z = c) :
    linter l ns = [c] := by
  induction l with
  | nil => exact absurd hc (List.not_mem_nil c)
  | cons x l ih =>
    obtain ⟨hxl, hndl⟩ := List.nodup_cons.mp hnd
    by_cases hx : x ∈ ns
    · have hxc : x = c := h x (List.mem_cons_self _ _) hx
      subst hxc
      have hfl : linter l ns = [] := by
        rw [linter, List.filter_eq_nil_iff]
        intro z hz
        simp only [decide_eq_true_eq]
        intro hzns
        exact hxl ((h z (List.mem_cons_of_mem _ hz) hzns) ▸ hz)
      show linter (x :: l) ns = [x]
      rw [linter, List.filter_cons]
      have hd : (decide (x ∈ ns)) = true := by simp [hx]
      rw [hd, if_pos rfl, ← linter, hfl]
    · have hcl : c ∈ l := by
        rcases List.mem_cons.mp hc with rfl | hcl
        · exact absurd hcns hx
        · exact hcl
      have := ih hndl hcl fun z hz => h z (List.mem_cons_of_mem _ hz)
      show linter (x :: l) ns = [c]
      rw [linter, List.filter_cons]
      have hd : (decide (x ∈ ns)) = false := by simp [hx]
      rw [hd, if_neg (by simp), ← linter, this]

theorem rebuild_wf {nd : List ℕ} {C : Wmap} {blk : Block} {c : ℕ} {C1 : Wmap}
    (hC : WFMap nd C) (hblk : WFMap blk.1 blk.2)
    (hre : rebuildC (lunion nd blk.1)
      (fun i j => calcWeight C blk.2 c i j) = .ok C1) :
    WFMap (lunion nd blk.1) C1 := by
  refine ⟨?_, ?_, ?_, ?_⟩
  · intro a b ha hb hab
    obtain ⟨v, _, hv⟩ := rebuildC_lookup hre ha hb hab
    rw [hv]
    rfl
  · intro k v hv
    obtain ⟨h1, h2, h3, _⟩ := rebuildC_keys hre hv
    exact ⟨h1, h2, h3⟩
  · intro a ha
    have hfza : calcWeight C blk.2 c a a = .ok 0 := by
      rcases Classical.em (a ∈ nd) with haC | haC
      · exact calcWeight_first (hC.2.2.1 a haC)
      · rcases mem_lunion.mp ha with h | h
        · exact absurd h haC
        · exact calcWeight_second (wf_lookup_none_left hC haC) (hblk.2.2.1 a h)
    obtain ⟨v, hv1, hv2⟩ := rebuildC_lookup hre ha ha (le_refl a)
    rw [hv1] at hfza
    cases hfza
    exact hv2
  · intro k v hv
    obtain ⟨_, _, _, hf⟩ := rebuildC_keys hre hv
    rcases calcWeight_ok_elim hf with h | h | ⟨a, b, rfl, hcase⟩
    · exact hC.2.2.2 _ _ h
    · exact hblk.2.2.2 _ _ h
    · rw [qadd_eq]
      rcases hcase with ⟨h1, h2⟩ | ⟨h1, h2⟩
      · exact add_nonneg (hC.2.2.2 _ _ h1) (hblk.2.2.2 _ _ h2)
      · exact add_nonneg (hC.2.2.2 _ _ h1) (hblk.2.2.2 _ _ h2)

theorem merged_pval_old {nd : List ℕ} {C : Wmap} {blk : Block} {c : ℕ} {C1 : Wmap}
    (hC : WFMap nd C)
    (hre : rebuildC (lunion nd blk.1)
      (fun i j => calcWeight C blk.2 c i j) = .ok C1)
    {x y : ℕ} (hx : x ∈ nd) (hy : y ∈ nd) :
    pval C1 x y = pval C x y := by
  obtain ⟨w, hw⟩ := wf_pval_some hC hx hy
  have hminN : min x y ∈ lunion nd blk.1 := by
    refine mem_lunion.mpr (Or.inl ?_)
    rcases min_choice x y with h1 | h1 <;> rw [h1] <;> assumption
  have hmaxN : max x y ∈ lunion nd blk.1 := by
    refine mem_lunion.mpr (Or.inl ?_)
    rcases max_choice x y with h1 | h1 <;> rw [h1] <;> assumption
  obtain ⟨v, hv1, hv2⟩ := rebuildC_lookup hre hminN hmaxN min_le_max
  have hcw : calcWeight C blk.2 c (min x y) (max x y) = .ok w := by
    refine calcWeight_first ?_
    rw [pval] at hw
    exact hw
  rw [hv1] at hcw
  cases hcw
  rw [pval, hv2]
  exact hw.symm

theorem merged_pval_new {nd : List ℕ} {C : Wmap} {blk : Block} {c : ℕ} {C1 : Wmap}
    (hC : WFMap nd C) (hblk : WFMap blk.1 blk.2)
    (hsing : ∀ z ∈ blk.1, z ∈ nd → z = c) (hcC : c ∈ nd) (hcB : c ∈ blk.1)
    (hre : rebuildC (lunion nd blk.1)
      (fun i j => calcWeight C blk.2 c i j) = .ok C1)
    {x y : ℕ} (hx : x ∈ blk.1) (hy : y ∈ blk.1) :
    pval C1 x y = pval blk.2 x y := by
  by_cases hxy : x ∈ nd ∧ y ∈ nd
  · obtain rfl := hsing x hx hxy.1
    obtain rfl := hsing y hy hxy.2
    rw [merged_pval_old hC hre hxy.1 hxy.1, wf_pval_diag hC hxy.1,
      wf_pval_diag hblk hcB]
  · have h0 : mlookup C (min x y, max x y) = none := by
      rcases not_and_or.mp hxy with h | h
      · have := wf_pval_none_left hC (x := x) (y := y) h
        rwa [pval] at this
      · have := wf_pval_none_right hC (x := x) (y := y) h
        rwa [pval] at this
    obtain ⟨w, hw⟩ := wf_pval_some hblk hx hy
    have hminN : min x y ∈ lunion nd blk.1 := by
      refine mem_lunion.mpr (Or.inr ?_)
      rcases min_choice x y with h1 | h1 <;> rw [h1] <;> assumption
    have hmaxN : max x y ∈ lunion nd blk.1 := by
      refine mem_lunion.mpr (Or.inr ?_)
      rcases max_choice x y with h1 | h1 <;> rw [h1] <;> assumption
    obtain ⟨v, hv1, hv2⟩ := rebuildC_lookup hre hminN hmaxN min_le_max
    have hcw : calcWeight C blk.2 c (min x y) (max x y) = .ok w := by
      refine calcWeight_second h0 ?_
      rw [pval] at hw
      exact hw
    rw [hv1] at hcw
    cases hcw
    rw [pval, hv2]
    exact hw.symm

theorem merged_pval_cross {nd : List ℕ} {C : Wmap} {blk : Block} {c : ℕ} {C1 : Wmap}
    (hC : WFMap nd C) (hblk : WFMap blk.1 blk.2)
    (hre : rebuildC (lunion nd blk.1)
      (fun i j => calcWeight C blk.2 c i j) = .ok C1)
    {x y : ℕ} {u v : ℚ} (hx : x ∈ nd) (hxB : x ∉ blk.1)
    (hy : y ∈ blk.1) (hyC : y ∉ nd)
    (hu : pval C x c = some u) (hv : pval blk.2 y c = some v) :
    pval C1 x y = some (qadd u v) := by
  rw [pval] at hu hv
  have hxy : x ≠ y := fun h => hyC (h ▸ hx)
  rcases Nat.lt_or_ge x y with hlt | hge
  · rw [pval, min_eq_left (le_of_lt hlt), max_eq_right (le_of_lt hlt)]
    obtain ⟨w, hv1, hv2⟩ := rebuildC_lookup hre (mem_lunion.mpr (Or.inl hx))
      (mem_lunion.mpr (Or.inr hy)) (le_of_lt hlt)
    have hcw : calcWeight C blk.2 c x y = .ok (qadd u v) :=
      calcWeight_cross1 (wf_lookup_none_right hC hyC)
        (wf_lookup_none_left hblk hxB)
        (by rintro ⟨rfl, _⟩; exact hxy rfl) hu hv
    rw [hv1] at hcw
    cases hcw
    exact hv2
  · have hlt2 : y < x := lt_of_le_of_ne hge (Ne.symm hxy)
    rw [pval, min_eq_right (le_of_lt hlt2), max_eq_left (le_of_lt hlt2)]
    obtain ⟨w, hv1, hv2⟩ := rebuildC_lookup hre (mem_lunion.mpr (Or.inr hy))
      (mem_lunion.mpr (Or.inl hx)) (le_of_lt hlt2)
    have hcw : calcWeight C blk.2 c y x = .ok (qadd u v) :=
      calcWeight_cross2 (wf_lookup_none_left hC hyC)
        (wf_lookup_none_right hblk hxB)
        (by rintro ⟨rfl, _⟩; exact hxy rfl)
        (Or.inl (wf_lookup_pair_none hC hyC)) hu hv
    rw [hv1] at hcw
    cases hcw
    exact hv2

theorem calcWeight_congr {C C1 lsp : Wmap}
    (h : ∀ k : ℕ × ℕ, mlookup C k = mlookup C1 k) (c i j : ℕ) :
    calcWeight C lsp c i j = calcWeight C1 lsp c i j := by
  unfold calcWeight
  simp only [h]

theorem linter_congr {l ns ns1 : List ℕ} (h : ∀ x : ℕ, x ∈ ns ↔ x ∈ ns1) :
    linter l ns = linter l ns1 := by
  unfold linter
  refine List.filter_congr ?_
  intro x _
  simp [h x]

theorem rebuild_ext {nd1 nd2 : List ℕ} {f f1 : ℕ → ℕ → Except MErr ℚ} {m1 : Wmap}
    (hnd : ∀ x : ℕ, x ∈ nd1 ↔ x ∈ nd2) (hf : ∀ i j : ℕ, f i j = f1 i j)
    (h1 : rebuildC nd1 f = .ok m1) :
    ∃ m2, rebuildC nd2 f1 = .ok m2 ∧ ∀ k : ℕ × ℕ, mlookup m1 k = mlookup m2 k := by
  obtain ⟨m2, h2⟩ := rebuildC_total nd2 f1 (fun i j hi hj hij => by
    obtain ⟨v, hv, _⟩ := rebuildC_lookup h1 ((hnd i).mpr hi) ((hnd j).mpr hj) hij
    exact ⟨v, (hf i j) ▸ hv⟩)
  refine ⟨m2, h2, ?_⟩
  intro k
  cases hk : mlookup m1 k with
  | some v =>
    obtain ⟨hi, hj, hij, hfk⟩ := rebuildC_keys h1 hk
    obtain ⟨w, hw1, hw2⟩ := rebuildC_lookup h2 ((hnd _).mp hi) ((hnd _).mp hj) hij
    rw [hf] at hfk
    rw [hfk] at hw1
    cases hw1
    exact (hw2 : mlookup m2 k = some v).symm
  | none =>
    cases hk2 : mlookup m2 k with
    | none => rfl
    | some v =>
      obtain ⟨hi, hj, hij, _⟩ := rebuildC_keys h2 hk2
      obtain ⟨w, _, hw2⟩ := rebuildC_lookup h1 ((hnd _).mpr hi) ((hnd _).mpr hj) hij
      exact Option.noConfusion (hk.symm.trans (hw2 : mlookup m1 k = some w))

theorem wf_congr {nd1 nd2 : List ℕ} {C1 C2 : Wmap} (h : WFMap nd1 C1)
    (hnd : ∀ x : ℕ, x ∈ nd1 ↔ x ∈ nd2)
    (hC : ∀ k : ℕ × ℕ, mlookup C1 k = mlookup C2 k) : WFMap nd2 C2 := by
  refine ⟨?_, ?_, ?_, ?_⟩
  · intro a b ha hb hab
    rw [← hC]
    exact h.1 a b ((hnd a).mpr ha) ((hnd b).mpr hb) hab
  · intro k v hv
    rw [← hC] at hv
    obtain ⟨h1, h2, h3⟩ := h.2.1 k v hv
    exact ⟨(hnd _).mp h1, (hnd _).mp h2, h3⟩
  · intro a ha
    rw [← hC]
    exact h.2.2.1 a ((hnd a).mpr ha)
  · intro k v hv
    rw [← hC] at hv
    exact h.2.2.2 k v hv

theorem mergeB_some_spec {s : List ℕ × Wmap} {blk : Block} {t : List ℕ × Wmap}
    (h : mergeB s blk = some t) :
    ∃ c : ℕ, linter blk.1 s.1 = [c] ∧
      rebuildC (lunion s.1 blk.1)
        (fun i j => calcWeight s.2 blk.2 c i j) = .ok t.2 ∧
      t.1 = lunion s.1 blk.1 := by
  cases hli : linter blk.1 s.1 with
  | nil =>
    rw [mergeB, hli] at h
    exact Option.noConfusion (h : (none : Option (List ℕ × Wmap)) = some t)
  | cons c tail =>
    cases tail with
    | nil =>
      rw [mergeB, hli] at h
      have h2 : (match rebuildC (lunion s.1 blk.1)
          (fun i j => calcWeight s.2 blk.2 c i j) with
        | .ok C1 => some (lunion s.1 blk.1, C1)
        | .error _ => none) = some t := h
      cases hre : rebuildC (lunion s.1 blk.1)
          (fun i j => calcWeight s.2 blk.2 c i j) with
      | error e =>
        rw [hre] at h2
        exact Option.noConfusion h2
      | ok C1 =>
        rw [hre] at h2
        cases h2
        exact ⟨c, rfl, hre, rfl⟩
    | cons d tail2 =>
      rw [mergeB, hli] at h
      exact Option.noConfusion (h : (none : Option (List ℕ × Wmap)) = some t)

theorem mergeB_mk {s : List ℕ × Wmap} {blk : Block} {c : ℕ} {C1 : Wmap}
    (hli : linter blk.1 s.1 = [c])
    (hre : rebuildC (lunion s.1 blk.1)
      (fun i j => calcWeight s.2 blk.2 c i j) = .ok C1) :
    mergeB s blk = some (lunion s.1 blk.1, C1) := by
  rw [mergeB, hli]
  show (match rebuildC (lunion s.1 blk.1)
      (fun i j => calcWeight s.2 blk.2 c i j) with
    | .ok C2 => some (lunion s.1 blk.1, C2)
    | .error _ => none) = some (lunion s.1 blk.1, C1)
  rw [hre]

theorem mergeB_congr {s s1 : List ℕ × Wmap} {blk : Block} {t : List ℕ × Wmap}
    (hs : SEq s s1) (h : mergeB s blk = some t) :
    ∃ t1, mergeB s1 blk = some t1 ∧ SEq t t1 := by
  obtain ⟨c, hli, hre, hnd⟩ := mergeB_some_spec h
  have hli1 : linter blk.1 s1.1 = [c] := (linter_congr hs.1).symm.trans hli
  have hndiff : ∀ x : ℕ, x ∈ lunion s.1 blk.1 ↔ x ∈ lunion s1.1 blk.1 := by
    intro x
    rw [mem_lunion, mem_lunion, hs.1 x]
  obtain ⟨m2, hre2, hm⟩ := rebuild_ext hndiff
    (fun i j => calcWeight_congr hs.2 c i j) hre
  refine ⟨(lunion s1.1 blk.1, m2), mergeB_mk hli1 hre2, ?_, hm⟩
  intro x
  rw [hnd]
  exact hndiff x

theorem runBlocks_congr :
    ∀ (L : List Block) {s s1 t : List ℕ × Wmap}, SEq s s1 →
      runBlocks s L = some t →
      ∃ t1, runBlocks s1 L = some t1 ∧ SEq t t1 := by
  intro L
  induction L with
  | nil =>
    intro s s1 t hs h
    rw [runBlocks] at h
    cases h
    exact ⟨s1, rfl, hs⟩
  | cons blk L ih =>
    intro s s1 t hs h
    rw [runBlocks] at h
    cases hmb : mergeB s blk with
    | none => rw [hmb] at h; cases h
    | some s2 =>
      rw [hmb] at h
      obtain ⟨s2a, hmb1, hs2⟩ := mergeB_congr hs hmb
      obtain ⟨t1, ht1, hteq⟩ := ih hs2 h
      exact ⟨t1, by rw [runBlocks, hmb1]; exact ht1, hteq⟩

theorem runBlocks_nodes_mono :
    ∀ (L : List Block) {s t : List ℕ × Wmap}, runBlocks s L = some t →
      ∀ x ∈ s.1, x ∈ t.1 := by
  intro L
  induction L with
  | nil =>
    intro s t h
    rw [runBlocks] at h
    cases h
    exact fun x hx => hx
  | cons blk L ih =>
    intro s t h x hx
    rw [runBlocks] at h
    cases hmb : mergeB s blk with
    | none => rw [hmb] at h; cases h
    | some s2 =>
      rw [hmb] at h
      obtain ⟨c, _, _, hnd⟩ := mergeB_some_spec hmb
      exact ih h x (by rw [hnd]; exact mem_lunion.mpr (Or.inl hx))

theorem runBlocks_pending_inter :
    ∀ (L : List Block) {s t : List ℕ × Wmap}, runBlocks s L = some t →
      ∀ blk ∈ L, ∀ x y : ℕ, x ∈ blk.1 → y ∈ blk.1 →
        x ∈ s.1 → y ∈ s.1 → x = y := by
  intro L
  induction L with
  | nil =>
    intro s t _ blk hblk
    exact absurd hblk (List.not_mem_nil _)
  | cons b0 L ih =>
    intro s t h blk hblk x y hxb hyb hxs hys
    rw [runBlocks] at h
    cases hmb : mergeB s b0 with
    | none => rw [hmb] at h; cases h
    | some s2 =>
      rw [hmb] at h
      rcases List.mem_cons.mp hblk with rfl | hblk1
      · obtain ⟨c, hli, _, _⟩ := mergeB_some_spec hmb
        have hx := linter_single_mem hli x hxb hxs
        have hy := linter_single_mem hli y hyb hys
        rw [hx, hy]
      · obtain ⟨c, _, _, hnd⟩ := mergeB_some_spec hmb
        refine ih h blk hblk1 x y hxb hyb ?_ ?_
        · rw [hnd]; exact mem_lunion.mpr (Or.inl hxs)
        · rw [hnd]; exact mem_lunion.mpr (Or.inl hys)

theorem runBlocks_wf :
    ∀ (L : List Block) {s t : List ℕ × Wmap}, WFMap s.1 s.2 →
      (∀ blk ∈ L, WFMap blk.1 blk.2) → runBlocks s L = some t →
      WFMap t.1 t.2 := by
  intro L
  induction L with
  | nil =>
    intro s t hs _ h
    rw [runBlocks] at h
    cases h
    exact hs
  | cons blk L ih =>
    intro s t hs hL h
    rw [runBlocks] at h
    cases hmb : mergeB s blk with
    | none => rw [hmb] at h; cases h
    | some s2 =>
      rw [hmb] at h
      obtain ⟨c, hli, hre, hnd⟩ := mergeB_some_spec hmb
      have hwf2 : WFMap s2.1 s2.2 := by
        rw [hnd]
        exact rebuild_wf hs (hL blk (List.mem_cons_self _ _)) hre
      exact ih hwf2 (fun b hb => hL b (List.mem_cons_of_mem _ hb)) h

theorem merged_pval_mixed {nd : List ℕ} {C : Wmap} {blk : Block} {c : ℕ} {C1 : Wmap}
    (hC : WFMap nd C) (hblk : WFMap blk.1 blk.2)
    (hsing : ∀ z ∈ blk.1, z ∈ nd → z = c) (hcC : c ∈ nd) (hcB : c ∈ blk.1)
    (hre : rebuildC (lunion nd blk.1)
      (fun i j => calcWeight C blk.2 c i j) = .ok C1)
    {x y : ℕ} {u v : ℚ} (hx : x ∈ nd) (hy : y ∈ blk.1) (hyC : y ∉ nd)
    (hu : pval C x c = some u) (hv : pval blk.2 y c = some v) :
    pval C1 x y = some (qadd u v) := by
  by_cases hxB : x ∈ blk.1
  · obtain rfl := hsing x hxB hx
    rw [merged_pval_new hC hblk hsing hcC hcB hre hxB hy, pval_comm, hv]
    have h0 : u = 0 := by
      have hd := wf_pval_diag hC hcC
      rw [hu] at hd
      exact Option.some.inj hd
    rw [h0, qadd_eq, zero_add]
  · exact merged_pval_cross hC hblk hre hx hxB hy hyC hu hv

theorem wf_lookup_ext {nd1 nd2 : List ℕ} {m1 m2 : Wmap}
    (h1 : WFMap nd1 m1) (h2 : WFMap nd2 m2)
    (hnd : ∀ x : ℕ, x ∈ nd1 ↔ x ∈ nd2)
    (hp : ∀ x y : ℕ, x ∈ nd1 → y ∈ nd1 → pval m1 x y = pval m2 x y) :
    ∀ k : ℕ × ℕ, mlookup m1 k = mlookup m2 k := by
  intro k
  by_cases hk : k.1 ∈ nd1 ∧ k.2 ∈ nd1 ∧ k.1 ≤ k.2
  · have e1 : mlookup m1 k = pval m1 k.1 k.2 := (pval_sorted hk.2.2).symm
    have e2 : mlookup m2 k = pval m2 k.1 k.2 := (pval_sorted hk.2.2).symm
    rw [e1, e2]
    exact hp k.1 k.2 hk.1 hk.2.1
  · have n1 : mlookup m1 k = none := by
      cases hv : mlookup m1 k with
      | none => rfl
      | some v =>
        obtain ⟨ha, hb, hc⟩ := h1.2.1 k v hv
        exact absurd ⟨ha, hb, hc⟩ hk
    have n2 : mlookup m2 k = none := by
      cases hv : mlookup m2 k with
      | none => rfl
      | some v =>
        obtain ⟨ha, hb, hc⟩ := h2.2.1 k v hv
        exact absurd ⟨(hnd _).mpr ha, (hnd _).mpr hb, hc⟩ hk
    rw [n1, n2]

theorem mergeB_swap {s sX sXB : List ℕ × Wmap} {X B : Block} {b : ℕ}
    (hwfs : WFMap s.1 s.2) (hwfX : WFMap X.1 X.2) (hwfB : WFMap B.1 B.2)
    (hndX : X.1.Nodup)
    (hliB : linter B.1 s.1 = [b])
    (h1 : mergeB s X = some sX) (h2 : mergeB sX B = some sXB) :
    ∃ sB sBX, mergeB s B = some sB ∧ mergeB sB X = some sBX ∧ SEq sXB sBX := by
  obtain ⟨c, hliX, hre1, hnd1⟩ := mergeB_some_spec h1
  obtain ⟨b2, hliB2, hre2, hnd2⟩ := mergeB_some_spec h2
  obtain ⟨hcX, hcs⟩ := linter_single hliX
  obtain ⟨hbB, hbs⟩ := linter_single hliB
  have hbsX : b ∈ sX.1 := by rw [hnd1]; exact mem_lunion.mpr (Or.inl hbs)
  have hb2 : b = b2 := linter_single_mem hliB2 b hbB hbsX
  subst hb2
  have singX : ∀ z ∈ X.1, z ∈ s.1 → z = c := linter_single_mem hliX
  have singB : ∀ z ∈ B.1, z ∈ s.1 → z = b := linter_single_mem hliB
  have singB2 : ∀ z ∈ B.1, z ∈ sX.1 → z = b := linter_single_mem hliB2
  have hXB : ∀ z : ℕ, z ∈ X.1 → z ∈ B.1 → z ∈ s.1 ∧ z = b ∧ b = c := by
    intro z hzX hzB
    have hzb : z = b := singB2 z hzB
      (by rw [hnd1]; exact mem_lunion.mpr (Or.inr hzX))
    subst hzb
    exact ⟨hbs, rfl, singX z hzX hbs⟩
  have hwfsX : WFMap sX.1 sX.2 := by
    rw [hnd1]
    exact rebuild_wf hwfs hwfX hre1
  obtain ⟨CB, hreB⟩ := rebuildC_total (lunion s.1 B.1)
    (fun i j => calcWeight s.2 B.2 b i j) (by
      intro i j hi hj hij
      exact calcWeight_total hwfs hwfB hbs hbB
        (mem_lunion.mp hi) (mem_lunion.mp hj) hij)
  have hsB : mergeB s B = some (lunion s.1 B.1, CB) := mergeB_mk hliB hreB
  have hwfsB : WFMap (lunion s.1 B.1) CB := rebuild_wf hwfs hwfB hreB
  have hcsB : c ∈ lunion s.1 B.1 := mem_lunion.mpr (Or.inl hcs)
  have hliX2 : linter X.1 (lunion s.1 B.1) = [c] := by
    refine linter_eq_single hndX hcX hcsB ?_
    intro z hz hzm
    rcases mem_lunion.mp hzm with hzs | hzB
    · exact singX z hz hzs
    · obtain ⟨_, hzb, hbc⟩ := hXB z hz hzB
      exact hzb.trans hbc
  obtain ⟨CBX, hreX2⟩ := rebuildC_total (lunion (lunion s.1 B.1) X.1)
    (fun i j => calcWeight CB X.2 c i j) (by
      intro i j hi hj hij
      exact calcWeight_total hwfsB hwfX hcsB hcX
        (mem_lunion.mp hi) (mem_lunion.mp hj) hij)
  have hsBX : mergeB (lunion s.1 B.1, CB) X =
      some (lunion (lunion s.1 B.1) X.1, CBX) :=
    @mergeB_mk (lunion s.1 B.1, CB) X c CBX hliX2 hreX2
  have hwfsXB : WFMap sXB.1 sXB.2 := by
    rw [hnd2]
    exact rebuild_wf hwfsX hwfB hre2
  have hwfsBX : WFMap (lunion (lunion s.1 B.1) X.1) CBX :=
    rebuild_wf hwfsB hwfX hreX2
  have hmem : ∀ x : ℕ, x ∈ sXB.1 ↔ (x ∈ s.1 ∨ x ∈ X.1 ∨ x ∈ B.1) := by
    intro x
    rw [hnd2, mem_lunion, hnd1, mem_lunion]
    tauto
  have hmem2 : ∀ x : ℕ,
      x ∈ lunion (lunion s.1 B.1) X.1 ↔ (x ∈ s.1 ∨ x ∈ X.1 ∨ x ∈ B.1) := by
    intro x
    rw [mem_lunion, mem_lunion]
    tauto
  have hMsX : ∀ z : ℕ, z ∈ s.1 → z ∈ sX.1 := fun z hz => by
    rw [hnd1]; exact mem_lunion.mpr (Or.inl hz)
  have hXsX : ∀ z : ℕ, z ∈ X.1 → z ∈ sX.1 := fun z hz => by
    rw [hnd1]; exact mem_lunion.mpr (Or.inr hz)
  have hMsB : ∀ z : ℕ, z ∈ s.1 → z ∈ lunion s.1 B.1 := fun z hz =>
    mem_lunion.mpr (Or.inl hz)
  have hBsB : ∀ z : ℕ, z ∈ B.1 → z ∈ lunion s.1 B.1 := fun z hz =>
    mem_lunion.mpr (Or.inr hz)
  have i1old : ∀ {x y : ℕ}, x ∈ s.1 → y ∈ s.1 →
      pval sX.2 x y = pval s.2 x y :=
    fun hx hy => merged_pval_old hwfs hre1 hx hy
  have i1new : ∀ {x y : ℕ}, x ∈ X.1 → y ∈ X.1 →
      pval sX.2 x y = pval X.2 x y :=
    fun hx hy => merged_pval_new hwfs hwfX singX hcs hcX hre1 hx hy
  have i1mix : ∀ {x y : ℕ} {u v : ℚ}, x ∈ s.1 → y ∈ X.1 → y ∉ s.1 →
      pval s.2 x c = some u → pval X.2 y c = some v →
      pval sX.2 x y = some (qadd u v) :=
    fun hx hy hyC hu hv =>
      merged_pval_mixed hwfs hwfX singX hcs hcX hre1 hx hy hyC hu hv
  have o1old : ∀ {x y : ℕ}, x ∈ sX.1 → y ∈ sX.1 →
      pval sXB.2 x y = pval sX.2 x y :=
    fun hx hy => merged_pval_old hwfsX hre2 hx hy
  have o1new : ∀ {x y : ℕ}, x ∈ B.1 → y ∈ B.1 →
      pval sXB.2 x y = pval B.2 x y :=
    fun hx hy => merged_pval_new hwfsX hwfB singB2 hbsX hbB hre2 hx hy
  have o1mix : ∀ {x y : ℕ} {u v : ℚ}, x ∈ sX.1 → y ∈ B.1 → y ∉ sX.1 →
      pval sX.2 x b = some u → pval B.2 y b = some v →
      pval sXB.2 x y = some (qadd u v) :=
    fun hx hy hyC hu hv =>
      merged_pval_mixed hwfsX hwfB singB2 hbsX hbB hre2 hx hy hyC hu hv
  have i2old : ∀ {x y : ℕ}, x ∈ s.1 → y ∈ s.1 →
      pval CB x y = pval s.2 x y :=
    fun hx hy => merged_pval_old hwfs hreB hx hy
  have i2new : ∀ {x y : ℕ}, x ∈ B.1 → y ∈ B.1 →
      pval CB x y = pval B.2 x y :=
    fun hx hy => merged_pval_new hwfs hwfB singB hbs hbB hreB hx hy
  have i2mix : ∀ {x y : ℕ} {u v : ℚ}, x ∈ s.1 → y ∈ B.1 → y ∉ s.1 →
      pval s.2 x b = some u → pval B.2 y b = some v →
      pval CB x y = some (qadd u v) :=
    fun hx hy hyC hu hv =>
      merged_pval_mixed hwfs hwfB singB hbs hbB hreB hx hy hyC hu hv
  have singX2 : ∀ z ∈ X.1, z ∈ lunion s.1 B.1 → z = c := linter_single_mem hliX2
  have o2old : ∀ {x y : ℕ}, x ∈ lunion s.1 B.1 → y ∈ lunion s.1 B.1 →
      pval CBX x y = pval CB x y :=
    fun hx hy => merged_pval_old hwfsB hreX2 hx hy
  have o2new : ∀ {x y : ℕ}, x ∈ X.1 → y ∈ X.1 →
      pval CBX x y = pval X.2 x y :=
    fun hx hy => merged_pval_new hwfsB hwfX singX2 hcsB hcX hreX2 hx hy
  have o2mix : ∀ {x y : ℕ} {u v : ℚ}, x ∈ lunion s.1 B.1 → y ∈ X.1 →
      y ∉ lunion s.1 B.1 →
      pval CB x c = some u → pval X.2 y c = some v →
      pval CBX x y = some (qadd u v) :=
    fun hx hy hyC hu hv =>
      merged_pval_mixed hwfsB hwfX singX2 hcsB hcX hreX2 hx hy hyC hu hv
  have hMM : ∀ x y : ℕ, x ∈ s.1 → y ∈ s.1 →
      pval sXB.2 x y = pval CBX x y := by
    intro x y hx hy
    rw [o1old (hMsX x hx) (hMsX y hy), i1old hx hy,
      o2old (hMsB x hx) (hMsB y hy), i2old hx hy]
  have hXX : ∀ x y : ℕ, x ∈ X.1 → y ∈ X.1 →
      pval sXB.2 x y = pval CBX x y := by
    intro x y hx hy
    rw [o1old (hXsX x hx) (hXsX y hy), i1new hx hy, o2new hx hy]
  have hBB : ∀ x y : ℕ, x ∈ B.1 → y ∈ B.1 →
      pval sXB.2 x y = pval CBX x y := by
    intro x y hx hy
    rw [o1new hx hy, o2old (hBsB x hx) (hBsB y hy), i2new hx hy]
  have hMX : ∀ x y : ℕ, x ∈ s.1 → y ∈ X.1 → y ∉ s.1 →
      pval sXB.2 x y = pval CBX x y := by
    intro x y hx hy hyns
    obtain ⟨u, hu⟩ := wf_pval_some hwfs hx hcs
    obtain ⟨v, hv⟩ := wf_pval_some hwfX hy hcX
    have e1 : pval sXB.2 x y = some (qadd u v) := by
      rw [o1old (hMsX x hx) (hXsX y hy)]
      exact i1mix hx hy hyns hu hv
    have hyB : y ∉ B.1 := fun hyB => hyns (hXB y hy hyB).1
    have hynsB : y ∉ lunion s.1 B.1 := fun hm => by
      rcases mem_lunion.mp hm with h | h
      · exact hyns h
      · exact hyB h
    have hCBxc : pval CB x c = some u := by
      rw [i2old hx hcs]; exact hu
    have e2 : pval CBX x y = some (qadd u v) :=
      o2mix (hMsB x hx) hy hynsB hCBxc hv
    rw [e1, e2]
  have hMB : ∀ x y : ℕ, x ∈ s.1 → y ∈ B.1 → y ∉ s.1 →
      pval sXB.2 x y = pval CBX x y := by
    intro x y hx hy hyns
    obtain ⟨u, hu⟩ := wf_pval_some hwfs hx hbs
    obtain ⟨w, hw⟩ := wf_pval_some hwfB hy hbB
    have hyX : y ∉ X.1 := fun hyX => hyns (hXB y hyX hy).1
    have hynsX : y ∉ sX.1 := by
      rw [hnd1]
      intro hm
      rcases mem_lunion.mp hm with h | h
      · exact hyns h
      · exact hyX h
    have hsXxb : pval sX.2 x b = some u := by
      rw [i1old hx hbs]; exact hu
    have e1 : pval sXB.2 x y = some (qadd u w) :=
      o1mix (hMsX x hx) hy hynsX hsXxb hw
    have e2 : pval CBX x y = some (qadd u w) := by
      rw [o2old (hMsB x hx) (hBsB y hy)]
      exact i2mix hx hy hyns hu hw
    rw [e1, e2]
  have hXB0 : ∀ x y : ℕ, x ∈ X.1 → x ∉ s.1 → y ∈ B.1 → y ∉ s.1 →
      pval sXB.2 x y = pval CBX x y := by
    intro x y hxX hxns hyB hyns
    have hyX : y ∉ X.1 := fun h => hyns (hXB y h hyB).1
    obtain ⟨p, hp⟩ := wf_pval_some hwfs hbs hcs
    obtain ⟨q, hq⟩ := wf_pval_some hwfX hxX hcX
    obtain ⟨w, hw⟩ := wf_pval_some hwfB hyB hbB
    have hynsX : y ∉ sX.1 := by
      rw [hnd1]
      intro hm
      rcases mem_lunion.mp hm with h | h
      · exact hyns h
      · exact hyX h
    have hsXxb : pval sX.2 x b = some (qadd p q) := by
      rw [pval_comm]
      exact i1mix hbs hxX hxns hp hq
    have e1 : pval sXB.2 x y = some (qadd (qadd p q) w) :=
      o1mix (hXsX x hxX) hyB hynsX hsXxb hw
    have hxB : x ∉ B.1 := fun h => hxns (hXB x hxX h).1
    have hxnsB : x ∉ lunion s.1 B.1 := fun hm => by
      rcases mem_lunion.mp hm with h | h
      · exact hxns h
      · exact hxB h
    have hCByc : pval CB y c = some (qadd p w) := by
      rw [pval_comm]
      have hp2 : pval s.2 c b = some p := by
        rw [pval_comm]; exact hp
      exact i2mix hcs hyB hyns hp2 hw
    have e2 : pval CBX x y = some (qadd (qadd p w) q) := by
      rw [pval_comm]
      exact o2mix (hBsB y hyB) hxX hxnsB hCByc hq
    rw [e1, e2]
    have heq : qadd (qadd p q) w = qadd (qadd p w) q := by
      simp only [qadd_eq]; ring
    rw [heq]
  have hcore : ∀ x y : ℕ, (x ∈ s.1 ∨ x ∈ X.1 ∨ x ∈ B.1) →
      (y ∈ s.1 ∨ y ∈ X.1 ∨ y ∈ B.1) → pval sXB.2 x y = pval CBX x y := by
    intro x y hx hy
    have zx : x ∈ s.1 ∨ (x ∈ X.1 ∧ x ∉ s.1) ∨ (x ∈ B.1 ∧ x ∉ s.1) := by
      by_cases h : x ∈ s.1
      · exact Or.inl h
      · rcases hx with h1 | h1 | h1
        exacts [absurd h1 h, Or.inr (Or.inl ⟨h1, h⟩), Or.inr (Or.inr ⟨h1, h⟩)]
    have zy : y ∈ s.1 ∨ (y ∈ X.1 ∧ y ∉ s.1) ∨ (y ∈ B.1 ∧ y ∉ s.1) := by
      by_cases h : y ∈ s.1
      · exact Or.inl h
      · rcases hy with h1 | h1 | h1
        exacts [absurd h1 h, Or.inr (Or.inl ⟨h1, h⟩), Or.inr (Or.inr ⟨h1, h⟩)]
    rcases zx with hx1 | ⟨hx1, hx2⟩ | ⟨hx1, hx2⟩ <;>
      rcases zy with hy1 | ⟨hy1, hy2⟩ | ⟨hy1, hy2⟩
    · exact hMM x y hx1 hy1
    · exact hMX x y hx1 hy1 hy2
    · exact hMB x y hx1 hy1 hy2
    · rw [pval_comm sXB.2, pval_comm CBX]
      exact hMX y x hy1 hx1 hx2
    · exact hXX x y hx1 hy1
    · exact hXB0 x y hx1 hx2 hy1 hy2
    · rw [pval_comm sXB.2, pval_comm CBX]
      exact hMB y x hy1 hx1 hx2
    · rw [pval_comm sXB.2, pval_comm CBX]
      exact hXB0 y x hy1 hy2 hx1 hx2
    · exact hBB x y hx1 hy1
  refine ⟨(lunion s.1 B.1, CB), (lunion (lunion s.1 B.1) X.1, CBX),
    hsB, hsBX, ?_, ?_⟩
  · intro x
    show x ∈ sXB.1 ↔ x ∈ lunion (lunion s.1 B.1) X.1
    rw [hmem x, hmem2 x]
  · intro k
    exact wf_lookup_ext hwfsXB hwfsBX
      (fun x => (hmem x).trans (hmem2 x).symm)
      (fun x y hx hy => hcore x y ((hmem x).mp hx) ((hmem y).mp hy)) k

theorem SEq_refl (s : List ℕ × Wmap) : SEq s s :=
  ⟨fun _ => Iff.rfl, fun _ => rfl⟩

theorem SEq_symm {s t : List ℕ × Wmap} (h : SEq s t) : SEq t s :=
  ⟨fun x => (h.1 x).symm, fun k => (h.2 k).symm⟩

theorem SEq_trans {s t u : List ℕ × Wmap} (h1 : SEq s t) (h2 : SEq t u) :
    SEq s u :=
  ⟨fun x => (h1.1 x).trans (h2.1 x), fun k => (h1.2 k).trans (h2.2 k)⟩

theorem vadd_nodup {v : ℕ} {l : List ℕ} (h : l.Nodup) : (vadd v l).Nodup := by
  unfold vadd
  split
  · exact h
  · exact List.nodup_cons.mpr ⟨by assumption, h⟩

theorem lunion_nodup {ns : List ℕ} :
    ∀ {base : List ℕ}, base.Nodup → (lunion base ns).Nodup := by
  induction ns with
  | nil => exact fun h => h
  | cons n ns ih =>
    intro base h
    show (lunion (vadd n base) ns).Nodup
    exact ih (vadd_nodup h)

theorem linter_nodup {l ns : List ℕ} (h : l.Nodup) : (linter l ns).Nodup :=
  List.Nodup.filter _ h

theorem linter_nil_or_single {l ns : List ℕ} (hnd : l.Nodup)
    (hp : ∀ x y : ℕ, x ∈ l → y ∈ l → x ∈ ns → y ∈ ns → x = y) :
    linter l ns = [] ∨ ∃ b : ℕ, linter l ns = [b] := by
  cases hli : linter l ns with
  | nil => exact Or.inl rfl
  | cons b tail =>
    cases htl : tail with
    | nil => exact Or.inr ⟨b, rfl⟩
    | cons d tail2 =>
      subst htl
      have hnd2 : (linter l ns).Nodup := linter_nodup hnd
      rw [hli] at hnd2
      have hb : b ∈ linter l ns := by rw [hli]; exact List.mem_cons_self _ _
      have hd : d ∈ linter l ns := by
        rw [hli]
        exact List.mem_cons_of_mem _ (List.mem_cons_self _ _)
      obtain ⟨hbl, hbns⟩ := mem_linter.mp hb
      obtain ⟨hdl, hdns⟩ := mem_linter.mp hd
      have hbd : b = d := hp b d hbl hdl hbns hdns
      have : b ∉ (d :: tail2) := (List.nodup_cons.mp hnd2).1
      exact absurd (hbd ▸ List.mem_cons_self d tail2) this

theorem runBlocks_append_elim :
    ∀ (P : List Block) {Q : List Block} {s t : List ℕ × Wmap},
      runBlocks s (P ++ Q) = some t →
      ∃ m, runBlocks s P = some m ∧ runBlocks m Q = some t := by
  intro P
  induction P with
  | nil =>
    intro Q s t h
    exact ⟨s, rfl, h⟩
  | cons blk P ih =>
    intro Q s t h
    rw [List.cons_append, runBlocks] at h
    cases hmb : mergeB s blk with
    | none => rw [hmb] at h; cases h
    | some s1 =>
      rw [hmb] at h
      obtain ⟨m, hm1, hm2⟩ := ih h
      exact ⟨m, by rw [runBlocks, hmb]; exact hm1, hm2⟩

theorem runBlocks_append_intro :
    ∀ (P : List Block) {Q : List Block} {s m t : List ℕ × Wmap},
      runBlocks s P = some m → runBlocks m Q = some t →
      runBlocks s (P ++ Q) = some t := by
  intro P
  induction P with
  | nil =>
    intro Q s m t h1 h2
    rw [runBlocks] at h1
    cases h1
    exact h2
  | cons blk P ih =>
    intro Q s m t h1 h2
    rw [runBlocks] at h1
    cases hmb : mergeB s blk with
    | none => rw [hmb] at h1; cases h1
    | some s1 =>
      rw [hmb] at h1
      rw [List.cons_append, runBlocks, hmb]
      exact ih h1 h2

theorem mergeB_seed_exchange {A B : Block} {Z : List ℕ × Wmap}
    (hwfA : WFMap A.1 A.2) (hwfB : WFMap B.1 B.2) (hndA : A.1.Nodup)
    (h : mergeB (A.1, A.2) B = some Z) :
    ∃ Z', mergeB (B.1, B.2) A = some Z' ∧ SEq Z Z' := by
  obtain ⟨c, hli0, hre0, hndZ0⟩ := mergeB_some_spec h
  have hli : linter B.1 A.1 = [c] := hli0
  have hre1 : rebuildC (lunion A.1 B.1)
      (fun i j => calcWeight A.2 B.2 c i j) = .ok Z.2 := hre0
  have hndZ : Z.1 = lunion A.1 B.1 := hndZ0
  obtain ⟨hcB, hcA⟩ := linter_single hli
  have singBA : ∀ z ∈ B.1, z ∈ A.1 → z = c := linter_single_mem hli
  have singAB : ∀ z ∈ A.1, z ∈ B.1 → z = c := fun z hz hzB => singBA z hzB hz
  have hliAB : linter A.1 B.1 = [c] := linter_eq_single hndA hcA hcB singAB
  obtain ⟨CZ2, hre2⟩ := rebuildC_total (lunion B.1 A.1)
    (fun i j => calcWeight B.2 A.2 c i j) (by
      intro i j hi hj hij
      exact calcWeight_total hwfB hwfA hcB hcA
        (mem_lunion.mp hi) (mem_lunion.mp hj) hij)
  have hZ2 : mergeB (B.1, B.2) A = some (lunion B.1 A.1, CZ2) :=
    @mergeB_mk (B.1, B.2) A c CZ2 hliAB hre2
  have hwfZ : WFMap (lunion A.1 B.1) Z.2 := rebuild_wf hwfA hwfB hre1
  have hwfZ2 : WFMap (lunion B.1 A.1) CZ2 := rebuild_wf hwfB hwfA hre2
  have aOld : ∀ {x y : ℕ}, x ∈ A.1 → y ∈ A.1 →
      pval Z.2 x y = pval A.2 x y :=
    fun hx hy => merged_pval_old hwfA hre1 hx hy
  have aNew : ∀ {x y : ℕ}, x ∈ B.1 → y ∈ B.1 →
      pval Z.2 x y = pval B.2 x y :=
    fun hx hy => merged_pval_new hwfA hwfB singBA hcA hcB hre1 hx hy
  have aMix : ∀ {x y : ℕ} {u v : ℚ}, x ∈ A.1 → y ∈ B.1 → y ∉ A.1 →
      pval A.2 x c = some u → pval B.2 y c = some v →
      pval Z.2 x y = some (qadd u v) :=
    fun hx hy hyC hu hv =>
      merged_pval_mixed hwfA hwfB singBA hcA hcB hre1 hx hy hyC hu hv
  have bOld : ∀ {x y : ℕ}, x ∈ B.1 → y ∈ B.1 →
      pval CZ2 x y = pval B.2 x y :=
    fun hx hy => merged_pval_old hwfB hre2 hx hy
  have bNew : ∀ {x y : ℕ}, x ∈ A.1 → y ∈ A.1 →
      pval CZ2 x y = pval A.2 x y :=
    fun hx hy => merged_pval_new hwfB hwfA singAB hcB hcA hre2 hx hy
  have bMix : ∀ {x y : ℕ} {u v : ℚ}, x ∈ B.1 → y ∈ A.1 → y ∉ B.1 →
      pval B.2 x c = some u → pval A.2 y c = some v →
      pval CZ2 x y = some (qadd u v) :=
    fun hx hy hyC hu hv =>
      merged_pval_mixed hwfB hwfA singAB hcB hcA hre2 hx hy hyC hu hv
  have hAB : ∀ x y : ℕ, x ∈ A.1 → y ∈ B.1 → y ∉ A.1 →
      pval Z.2 x y = pval CZ2 x y := by
    intro x y hx hy hyA
    by_cases hxB : x ∈ B.1
    · rw [aNew hxB hy, bOld hxB hy]
    · obtain ⟨u, hu⟩ := wf_pval_some hwfA hx hcA
      obtain ⟨v, hv⟩ := wf_pval_some hwfB hy hcB
      have e1 : pval Z.2 x y = some (qadd u v) := aMix hx hy hyA hu hv
      have e2 : pval CZ2 x y = some (qadd v u) := by
        rw [pval_comm]
        exact bMix hy hx hxB hv hu
      rw [e1, e2]
      have : qadd u v = qadd v u := by
        simp only [qadd_eq]; ring
      rw [this]
  have hcore : ∀ x y : ℕ, (x ∈ A.1 ∨ x ∈ B.1) → (y ∈ A.1 ∨ y ∈ B.1) →
      pval Z.2 x y = pval CZ2 x y := by
    intro x y hx hy
    have zx : x ∈ A.1 ∨ (x ∈ B.1 ∧ x ∉ A.1) := by
      by_cases h1 : x ∈ A.1
      · exact Or.inl h1
      · rcases hx with h2 | h2
        exacts [absurd h2 h1, Or.inr ⟨h2, h1⟩]
    have zy : y ∈ A.1 ∨ (y ∈ B.1 ∧ y ∉ A.1) := by
      by_cases h1 : y ∈ A.1
      · exact Or.inl h1
      · rcases hy with h2 | h2
        exacts [absurd h2 h1, Or.inr ⟨h2, h1⟩]
    rcases zx with hx1 | ⟨hx1, hx2⟩ <;> rcases zy with hy1 | ⟨hy1, hy2⟩
    · rw [aOld hx1 hy1, bNew hx1 hy1]
    · exact hAB x y hx1 hy1 hy2
    · rw [pval_comm Z.2, pval_comm CZ2]
      exact hAB y x hy1 hx1 hx2
    · rw [aNew hx1 hy1, bOld hx1 hy1]
  refine ⟨(lunion B.1 A.1, CZ2), hZ2, ?_, ?_⟩
  · intro x
    show x ∈ Z.1 ↔ x ∈ lunion B.1 A.1
    rw [hndZ, mem_lunion, mem_lunion]
    tauto
  · intro k
    have hwfZ1 : WFMap Z.1 Z.2 := by rw [hndZ]; exact hwfZ
    refine wf_lookup_ext hwfZ1 hwfZ2 ?_ ?_ k
    · intro x
      rw [hndZ, mem_lunion, mem_lunion]
      tauto
    · intro x y hx hy
      rw [hndZ] at hx hy
      exact hcore x y (mem_lunion.mp hx) (mem_lunion.mp hy)

theorem mergeB_assoc {s s1 s2 : List ℕ × Wmap} {Y B : Block}
    (hwfs : WFMap s.1 s.2) (hwfY : WFMap Y.1 Y.2) (hwfB : WFMap B.1 B.2)
    (hndY : Y.1.Nodup) (hndB : B.1.Nodup)
    (hY : mergeB s Y = some s1) (hB : mergeB s1 B = some s2)
    (hBs : linter B.1 s.1 = []) :
    ∃ CZ sZ, mergeB (Y.1, Y.2) B = some (lunion Y.1 B.1, CZ) ∧
      mergeB s (lunion Y.1 B.1, CZ) = some sZ ∧ SEq s2 sZ := by
  obtain ⟨c, hliY, hre1, hnd1⟩ := mergeB_some_spec hY
  obtain ⟨b, hliB, hre2, hnd2⟩ := mergeB_some_spec hB
  obtain ⟨hcY, hcs⟩ := linter_single hliY
  obtain ⟨hbB, hbs1⟩ := linter_single hliB
  have hBsE : ∀ z : ℕ, z ∈ B.1 → z ∉ s.1 := by
    intro z hz hzs
    have : z ∈ linter B.1 s.1 := mem_linter.mpr ⟨hz, hzs⟩
    rw [hBs] at this
    exact absurd this (List.not_mem_nil z)
  have hbY : b ∈ Y.1 := by
    rw [hnd1] at hbs1
    rcases mem_lunion.mp hbs1 with h | h
    · exact absurd h (hBsE b hbB)
    · exact h
  have singYs : ∀ z ∈ Y.1, z ∈ s.1 → z = c := linter_single_mem hliY
  have singBs1 : ∀ z ∈ B.1, z ∈ s1.1 → z = b := linter_single_mem hliB
  have singBY : ∀ z ∈ B.1, z ∈ Y.1 → z = b := fun z hz hzY =>
    singBs1 z hz (by rw [hnd1]; exact mem_lunion.mpr (Or.inr hzY))
  have hliBY : linter B.1 Y.1 = [b] := linter_eq_single hndB hbB hbY singBY
  obtain ⟨CZ, hreZ⟩ := rebuildC_total (lunion Y.1 B.1)
    (fun i j => calcWeight Y.2 B.2 b i j) (by
      intro i j hi hj hij
      exact calcWeight_total hwfY hwfB hbY hbB
        (mem_lunion.mp hi) (mem_lunion.mp hj) hij)
  have hZ : mergeB (Y.1, Y.2) B = some (lunion Y.1 B.1, CZ) :=
    @mergeB_mk (Y.1, Y.2) B b CZ hliBY hreZ
  have hwfZ : WFMap (lunion Y.1 B.1) CZ := rebuild_wf hwfY hwfB hreZ
  have hcZ : c ∈ lunion Y.1 B.1 := mem_lunion.mpr (Or.inl hcY)
  have singZs : ∀ z ∈ lunion Y.1 B.1, z ∈ s.1 → z = c := by
    intro z hz hzs
    rcases mem_lunion.mp hz with h | h
    · exact singYs z h hzs
    · exact absurd hzs (hBsE z h)
  have hliZ : linter (lunion Y.1 B.1) s.1 = [c] :=
    linter_eq_single (lunion_nodup hndY) hcZ hcs singZs
  obtain ⟨CsZ, hreSZ⟩ := rebuildC_total (lunion s.1 (lunion Y.1 B.1))
    (fun i j => calcWeight s.2 CZ c i j) (by
      intro i j hi hj hij
      exact calcWeight_total hwfs hwfZ hcs hcZ
        (mem_lunion.mp hi) (mem_lunion.mp hj) hij)
  have hsZ : mergeB s (lunion Y.1 B.1, CZ) =
      some (lunion s.1 (lunion Y.1 B.1), CsZ) :=
    @mergeB_mk s (lunion Y.1 B.1, CZ) c CsZ hliZ hreSZ
  have hwfs1 : WFMap s1.1 s1.2 := by
    rw [hnd1]
    exact rebuild_wf hwfs hwfY hre1
  have hwfs2 : WFMap s2.1 s2.2 := by
    rw [hnd2]
    exact rebuild_wf hwfs1 hwfB hre2
  have hwfsZ : WFMap (lunion s.1 (lunion Y.1 B.1)) CsZ :=
    @rebuild_wf s.1 s.2 (lunion Y.1 B.1, CZ) c CsZ hwfs hwfZ hreSZ
  have hMs1 : ∀ z : ℕ, z ∈ s.1 → z ∈ s1.1 := fun z hz => by
    rw [hnd1]; exact mem_lunion.mpr (Or.inl hz)
  have hYs1 : ∀ z : ℕ, z ∈ Y.1 → z ∈ s1.1 := fun z hz => by
    rw [hnd1]; exact mem_lunion.mpr (Or.inr hz)
  have iold : ∀ {x y : ℕ}, x ∈ s.1 → y ∈ s.1 →
      pval s1.2 x y = pval s.2 x y :=
    fun hx hy => merged_pval_old hwfs hre1 hx hy
  have inew : ∀ {x y : ℕ}, x ∈ Y.1 → y ∈ Y.1 →
      pval s1.2 x y = pval Y.2 x y :=
    fun hx hy => merged_pval_new hwfs hwfY singYs hcs hcY hre1 hx hy
  have imix : ∀ {x y : ℕ} {u v : ℚ}, x ∈ s.1 → y ∈ Y.1 → y ∉ s.1 →
      pval s.2 x c = some u → pval Y.2 y c = some v →
      pval s1.2 x y = some (qadd u v) :=
    fun hx hy hyC hu hv =>
      merged_pval_mixed hwfs hwfY singYs hcs hcY hre1 hx hy hyC hu hv
  have lold : ∀ {x y : ℕ}, x ∈ s1.1 → y ∈ s1.1 →
      pval s2.2 x y = pval s1.2 x y :=
    fun hx hy => merged_pval_old hwfs1 hre2 hx hy
  have lnew : ∀ {x y : ℕ}, x ∈ B.1 → y ∈ B.1 →
      pval s2.2 x y = pval B.2 x y :=
    fun hx hy => merged_pval_new hwfs1 hwfB singBs1 hbs1 hbB hre2 hx hy
  have lmix : ∀ {x y : ℕ} {u v : ℚ}, x ∈ s1.1 → y ∈ B.1 → y ∉ s1.1 →
      pval s1.2 x b = some u → pval B.2 y b = some v →
      pval s2.2 x y = some (qadd u v) :=
    fun hx hy hyC hu hv =>
      merged_pval_mixed hwfs1 hwfB singBs1 hbs1 hbB hre2 hx hy hyC hu hv
  have zold : ∀ {x y : ℕ}, x ∈ Y.1 → y ∈ Y.1 →
      pval CZ x y = pval Y.2 x y :=
    fun hx hy => merged_pval_old hwfY hreZ hx hy
  have znew : ∀ {x y : ℕ}, x ∈ B.1 → y ∈ B.1 →
      pval CZ x y = pval B.2 x y :=
    fun hx hy => merged_pval_new hwfY hwfB singBY hbY hbB hreZ hx hy
  have zmix : ∀ {x y : ℕ} {u v : ℚ}, x ∈ Y.1 → y ∈ B.1 → y ∉ Y.1 →
      pval Y.2 x b = some u → pval B.2 y b = some v →
      pval CZ x y = some (qadd u v) :=
    fun hx hy hyC hu hv =>
      merged_pval_mixed hwfY hwfB singBY hbY hbB hreZ hx hy hyC hu hv
  have rold : ∀ {x y : ℕ}, x ∈ s.1 → y ∈ s.1 →
      pval CsZ x y = pval s.2 x y :=
    fun {x y} hx hy =>
      @merged_pval_old s.1 s.2 (lunion Y.1 B.1, CZ) c CsZ hwfs hreSZ x y hx hy
  have rnew : ∀ {x y : ℕ}, x ∈ lunion Y.1 B.1 → y ∈ lunion Y.1 B.1 →
      pval CsZ x y = pval CZ x y :=
    fun {x y} hx hy =>
      @merged_pval_new s.1 s.2 (lunion Y.1 B.1, CZ) c CsZ hwfs hwfZ singZs
        hcs hcZ hreSZ x y hx hy
  have rmix : ∀ {x y : ℕ} {u v : ℚ}, x ∈ s.1 → y ∈ lunion Y.1 B.1 →
      y ∉ s.1 → pval s.2 x c = some u → pval CZ y c = some v →
      pval CsZ x y = some (qadd u v) :=
    fun {x y u v} hx hy hyC hu hv =>
      @merged_pval_mixed s.1 s.2 (lunion Y.1 B.1, CZ) c CsZ hwfs hwfZ singZs
        hcs hcZ hreSZ x y u v hx hy hyC hu hv
  have hMM : ∀ x y : ℕ, x ∈ s.1 → y ∈ s.1 →
      pval s2.2 x y = pval CsZ x y := by
    intro x y hx hy
    rw [lold (hMs1 x hx) (hMs1 y hy), iold hx hy, rold hx hy]
  have hYY : ∀ x y : ℕ, x ∈ Y.1 → y ∈ Y.1 →
      pval s2.2 x y = pval CsZ x y := by
    intro x y hx hy
    rw [lold (hYs1 x hx) (hYs1 y hy), inew hx hy,
      rnew (mem_lunion.mpr (Or.inl hx)) (mem_lunion.mpr (Or.inl hy)),
      zold hx hy]
  have hBB : ∀ x y : ℕ, x ∈ B.1 → y ∈ B.1 →
      pval s2.2 x y = pval CsZ x y := by
    intro x y hx hy
    rw [lnew hx hy,
      rnew (mem_lunion.mpr (Or.inr hx)) (mem_lunion.mpr (Or.inr hy)),
      znew hx hy]
  have hMY : ∀ x y : ℕ, x ∈ s.1 → y ∈ Y.1 → y ∉ s.1 →
      pval s2.2 x y = pval CsZ x y := by
    intro x y hx hy hyns
    obtain ⟨u, hu⟩ := wf_pval_some hwfs hx hcs
    obtain ⟨v, hv⟩ := wf_pval_some hwfY hy hcY
    have e1 : pval s2.2 x y = some (qadd u v) := by
      rw [lold (hMs1 x hx) (hYs1 y hy)]
      exact imix hx hy hyns hu hv
    have hcz : pval CZ y c = some v := by
      rw [zold hy hcY]; exact hv
    have e2 : pval CsZ x y = some (qadd u v) :=
      rmix hx (mem_lunion.mpr (Or.inl hy)) hyns hu hcz
    rw [e1, e2]
  have hMB : ∀ x y : ℕ, x ∈ s.1 → y ∈ B.1 → y ∉ Y.1 →
      pval s2.2 x y = pval CsZ x y := by
    intro x y hx hy hyY
    have hyns : y ∉ s.1 := hBsE y hy
    have hyns1 : y ∉ s1.1 := by
      rw [hnd1]
      intro hm
      rcases mem_lunion.mp hm with h | h
      · exact hyns h
      · exact hyY h
    obtain ⟨u, hu⟩ := wf_pval_some hwfs hx hcs
    obtain ⟨p, hp⟩ := wf_pval_some hwfY hbY hcY
    obtain ⟨w, hw⟩ := wf_pval_some hwfB hy hbB
    have hbns : b ∉ s.1 := hBsE b hbB
    have hs1xb : pval s1.2 x b = some (qadd u p) := by
      have hp2 : pval Y.2 b c = some p := hp
      exact imix hx hbY hbns hu hp2
    have e1 : pval s2.2 x y = some (qadd (qadd u p) w) :=
      lmix (hMs1 x hx) hy hyns1 hs1xb hw
    have hcz : pval CZ y c = some (qadd p w) := by
      rw [pval_comm]
      have hp3 : pval Y.2 c b = some p := by
        rw [pval_comm]; exact hp
      exact zmix hcY hy hyY hp3 hw
    have e2 : pval CsZ x y = some (qadd u (qadd p w)) :=
      rmix hx (mem_lunion.mpr (Or.inr hy)) hyns hu hcz
    rw [e1, e2]
    have : qadd (qadd u p) w = qadd u (qadd p w) := by
      simp only [qadd_eq]; ring
    rw [this]
  have hYB : ∀ x y : ℕ, x ∈ Y.1 → y ∈ B.1 → y ∉ Y.1 →
      pval s2.2 x y = pval CsZ x y := by
    intro x y hx hy hyY
    have hyns : y ∉ s.1 := hBsE y hy
    have hyns1 : y ∉ s1.1 := by
      rw [hnd1]
      intro hm
      rcases mem_lunion.mp hm with h | h
      · exact hyns h
      · exact hyY h
    obtain ⟨q, hq⟩ := wf_pval_some hwfY hx hbY
    obtain ⟨w, hw⟩ := wf_pval_some hwfB hy hbB
    have hs1xb : pval s1.2 x b = some q := by
      rw [inew hx hbY]; exact hq
    have e1 : pval s2.2 x y = some (qadd q w) :=
      lmix (hYs1 x hx) hy hyns1 hs1xb hw
    have e2 : pval CsZ x y = some (qadd q w) := by
      rw [rnew (mem_lunion.mpr (Or.inl hx)) (mem_lunion.mpr (Or.inr hy))]
      exact zmix hx hy hyY hq hw
    rw [e1, e2]
  have hcore : ∀ x y : ℕ,
      (x ∈ s.1 ∨ x ∈ Y.1 ∨ x ∈ B.1) → (y ∈ s.1 ∨ y ∈ Y.1 ∨ y ∈ B.1) →
      pval s2.2 x y = pval CsZ x y := by
    intro x y hx hy
    have zx : x ∈ s.1 ∨ (x ∈ Y.1 ∧ x ∉ s.1) ∨
        (x ∈ B.1 ∧ x ∉ s.1 ∧ x ∉ Y.1) := by
      by_cases h1 : x ∈ s.1
      · exact Or.inl h1
      · by_cases h2 : x ∈ Y.1
        · exact Or.inr (Or.inl ⟨h2, h1⟩)
        · rcases hx with h3 | h3 | h3
          exacts [absurd h3 h1, absurd h3 h2, Or.inr (Or.inr ⟨h3, h1, h2⟩)]
    have zy : y ∈ s.1 ∨ (y ∈ Y.1 ∧ y ∉ s.1) ∨
        (y ∈ B.1 ∧ y ∉ s.1 ∧ y ∉ Y.1) := by
      by_cases h1 : y ∈ s.1
      · exact Or.inl h1
      · by_cases h2 : y ∈ Y.1
        · exact Or.inr (Or.inl ⟨h2, h1⟩)
        · rcases hy with h3 | h3 | h3
          exacts [absurd h3 h1, absurd h3 h2, Or.inr (Or.inr ⟨h3, h1, h2⟩)]
    rcases zx with hx1 | ⟨hx1, hx2⟩ | ⟨hx1, hx2, hx3⟩ <;>
      rcases zy with hy1 | ⟨hy1, hy2⟩ | ⟨hy1, hy2, hy3⟩
    · exact hMM x y hx1 hy1
    · exact hMY x y hx1 hy1 hy2
    · exact hMB x y hx1 hy1 hy3
    · rw [pval_comm s2.2, pval_comm CsZ]
      exact hMY y x hy1 hx1 hx2
    · exact hYY x y hx1 hy1
    · exact hYB x y hx1 hy1 hy3
    · rw [pval_comm s2.2, pval_comm CsZ]
      exact hMB y x hy1 hx1 hx3
    · rw [pval_comm s2.2, pval_comm CsZ]
      exact hYB y x hy1 hx1 hx3
    · exact hBB x y hx1 hy1
  have hmemL : ∀ x : ℕ, x ∈ s2.1 ↔ (x ∈ s.1 ∨ x ∈ Y.1 ∨ x ∈ B.1) := by
    intro x
    rw [hnd2, mem_lunion, hnd1, mem_lunion]
    tauto
  have hmemR : ∀ x : ℕ,
      x ∈ lunion s.1 (lunion Y.1 B.1) ↔ (x ∈ s.1 ∨ x ∈ Y.1 ∨ x ∈ B.1) := by
    intro x
    rw [mem_lunion, mem_lunion]
  refine ⟨CZ, (lunion s.1 (lunion Y.1 B.1), CsZ), hZ, hsZ, ?_, ?_⟩
  · intro x
    show x ∈ s2.1 ↔ x ∈ lunion s.1 (lunion Y.1 B.1)
    rw [hmemL x, hmemR x]
  · intro k
    exact wf_lookup_ext hwfs2 hwfsZ
      (fun x => (hmemL x).trans (hmemR x).symm)
      (fun x y hx hy => hcore x y ((hmemL x).mp hx) ((hmemL y).mp hy)) k

theorem runBlocks_bubble :
    ∀ (P : List Block) {s : List ℕ × Wmap} {B : Block} {R : List Block}
      {t : List ℕ × Wmap} {b : ℕ},
      WFMap s.1 s.2 →
      (∀ blk ∈ P ++ B :: R, WFMap blk.1 blk.2 ∧ blk.1.Nodup) →
      linter B.1 s.1 = [b] →
      runBlocks s (P ++ B :: R) = some t →
      ∃ t', runBlocks s (B :: (P ++ R)) = some t' ∧ SEq t t' := by
  intro P
  induction P with
  | nil =>
    intro s B R t b _ _ _ h
    exact ⟨t, h, SEq_refl t⟩
  | cons X P ih =>
    intro s B R t b hwfs hall hli h
    obtain ⟨hwfX, hndX⟩ := hall X (List.mem_cons_self _ _)
    obtain ⟨hwfB, hndB⟩ := hall B
      (List.mem_cons_of_mem X (List.mem_append.mpr (Or.inr (List.mem_cons_self _ _))))
    obtain ⟨hbB, hbs⟩ := linter_single hli
    rw [List.cons_append, runBlocks] at h
    cases hmb : mergeB s X with
    | none => rw [hmb] at h; cases h
    | some s1 =>
      rw [hmb] at h
      obtain ⟨c, hliX, hreX, hnds1⟩ := mergeB_some_spec hmb
      have hwfs1 : WFMap s1.1 s1.2 := by
        rw [hnds1]
        exact rebuild_wf hwfs hwfX hreX
      have hbs1 : b ∈ s1.1 := by
        rw [hnds1]
        exact mem_lunion.mpr (Or.inl hbs)
      have hpend := runBlocks_pending_inter (P ++ B :: R) h B
        (List.mem_append.mpr (Or.inr (List.mem_cons_self _ _)))
      have hliB1 : linter B.1 s1.1 = [b] :=
        linter_eq_single hndB hbB hbs1
          (fun z hz hzs => hpend z b hz hbB hzs hbs1)
      have hallsub : ∀ blk ∈ P ++ B :: R, WFMap blk.1 blk.2 ∧ blk.1.Nodup :=
        fun blk hblk => hall blk (List.mem_cons_of_mem X hblk)
      obtain ⟨t1, ht1, hseq1⟩ := ih hwfs1 hallsub hliB1 h
      rw [runBlocks] at ht1
      cases hmbB : mergeB s1 B with
      | none => rw [hmbB] at ht1; cases ht1
      | some s12 =>
        rw [hmbB] at ht1
        obtain ⟨sB, sBX, hsB, hsBX, hseq2⟩ :=
          mergeB_swap hwfs hwfX hwfB hndX hli hmb hmbB
        obtain ⟨t2, ht2, hseq3⟩ := runBlocks_congr (P ++ R) hseq2 ht1
        refine ⟨t2, ?_, SEq_trans hseq1 hseq3⟩
        show runBlocks s (B :: X :: (P ++ R)) = some t2
        rw [runBlocks, hsB]
        show runBlocks sB (X :: (P ++ R)) = some t2
        rw [runBlocks, hsBX]
        exact ht2

theorem runBlocks_perm :
    ∀ (L1 : List Block) {L2 : List Block} {s t1 t2 : List ℕ × Wmap},
      L1.Perm L2 → WFMap s.1 s.2 →
      (∀ blk ∈ L1, WFMap blk.1 blk.2 ∧ blk.1.Nodup) →
      runBlocks s L1 = some t1 → runBlocks s L2 = some t2 →
      SEq t1 t2 := by
  intro L1
  induction L1 with
  | nil =>
    intro L2 s t1 t2 hp _ _ h1 h2
    have hL2 : L2 = [] := hp.symm.eq_nil
    subst hL2
    rw [runBlocks] at h1 h2
    cases h1
    cases h2
    exact SEq_refl _
  | cons A L1 ih =>
    intro L2 s t1 t2 hp hwfs hall h1 h2
    rw [runBlocks] at h1
    cases hmb : mergeB s A with
    | none => rw [hmb] at h1; cases h1
    | some sA =>
      rw [hmb] at h1
      have hA2 : A ∈ L2 := hp.subset (List.mem_cons_self _ _)
      obtain ⟨P, R, rfl⟩ := List.append_of_mem hA2
      obtain ⟨a, hliA, hreA, hndA⟩ := mergeB_some_spec hmb
      have hall2 : ∀ blk ∈ P ++ A :: R, WFMap blk.1 blk.2 ∧ blk.1.Nodup :=
        fun blk hblk => hall blk (hp.symm.subset hblk)
      obtain ⟨t2a, ht2a, hseq2⟩ := runBlocks_bubble P hwfs hall2 hliA h2
      rw [runBlocks, hmb] at ht2a
      have ht2b : runBlocks sA (P ++ R) = some t2a := ht2a
      have hptail : L1.Perm (P ++ R) :=
        (hp.trans List.perm_middle).cons_inv
      have hwfsA : WFMap sA.1 sA.2 := by
        rw [hndA]
        exact rebuild_wf hwfs (hall A (List.mem_cons_self _ _)).1 hreA
      have hallsub : ∀ blk ∈ L1, WFMap blk.1 blk.2 ∧ blk.1.Nodup :=
        fun blk hblk => hall blk (List.mem_cons_of_mem _ hblk)
      exact SEq_trans (ih hptail hwfsA hallsub h1 ht2b) (SEq_symm hseq2)

theorem runBlocks_fuse :
    ∀ (P : List Block) {s : List ℕ × Wmap} {B : Block} {R : List Block}
      {t : List ℕ × Wmap},
      WFMap s.1 s.2 →
      (∀ blk ∈ P ++ B :: R, WFMap blk.1 blk.2 ∧ blk.1.Nodup) →
      linter B.1 s.1 = [] →
      runBlocks s (P ++ B :: R) = some t →
      ∃ (Y : Block) (P1 R1 : List Block) (CZ : Wmap) (t' : List ℕ × Wmap),
        (P1 ++ Y :: R1).Perm (P ++ R) ∧
        mergeB (Y.1, Y.2) B = some (lunion Y.1 B.1, CZ) ∧
        runBlocks s (P1 ++ (lunion Y.1 B.1, CZ) :: R1) = some t' ∧
        SEq t t' := by
  intro P
  induction P with
  | nil =>
    intro s B R t _ _ hBs h
    rw [List.nil_append, runBlocks] at h
    cases hmb : mergeB s B with
    | none => rw [hmb] at h; cases h
    | some s1 =>
      obtain ⟨b, hli, _, _⟩ := mergeB_some_spec hmb
      rw [hBs] at hli
      cases hli
  | cons X P ih =>
    intro s B R t hwfs hall hBs h
    obtain ⟨hwfX, hndX⟩ := hall X (List.mem_cons_self _ _)
    obtain ⟨hwfB, hndB⟩ := hall B
      (List.mem_cons_of_mem X (List.mem_append.mpr (Or.inr (List.mem_cons_self _ _))))
    rw [List.cons_append, runBlocks] at h
    cases hmb : mergeB s X with
    | none => rw [hmb] at h; cases h
    | some s1 =>
      rw [hmb] at h
      obtain ⟨c, hliX, hreX, hnds1⟩ := mergeB_some_spec hmb
      have hwfs1 : WFMap s1.1 s1.2 := by
        rw [hnds1]
        exact rebuild_wf hwfs hwfX hreX
      have hallsub : ∀ blk ∈ P ++ B :: R, WFMap blk.1 blk.2 ∧ blk.1.Nodup :=
        fun blk hblk => hall blk (List.mem_cons_of_mem X hblk)
      have hpend := runBlocks_pending_inter (P ++ B :: R) h B
        (List.mem_append.mpr (Or.inr (List.mem_cons_self _ _)))
      rcases linter_nil_or_single hndB
        (fun x y hx hy hxs hys => hpend x y hx hy hxs hys) with hnil | ⟨b, hsing⟩
      · obtain ⟨Y, P1, R1, CZ, t1, hperm, hZ, hrunF, hseqF⟩ :=
          ih hwfs1 hallsub hnil h
        refine ⟨Y, X :: P1, R1, CZ, t1, ?_, hZ, ?_, hseqF⟩
        · show (X :: (P1 ++ Y :: R1)).Perm ((X :: P) ++ R)
          exact (hperm.cons X)
        · show runBlocks s (X :: (P1 ++ (lunion Y.1 B.1, CZ) :: R1)) = some t1
          rw [runBlocks, hmb]
          exact hrunF
      · obtain ⟨t1, ht1, hseq1⟩ := runBlocks_bubble P hwfs1 hallsub hsing h
        rw [runBlocks] at ht1
        cases hmbB : mergeB s1 B with
        | none => rw [hmbB] at ht1; cases ht1
        | some s12 =>
          rw [hmbB] at ht1
          obtain ⟨CZ, sZ, hZ, hsZ, hseqA⟩ :=
            mergeB_assoc hwfs hwfX hwfB hndX hndB hmb hmbB hBs
          obtain ⟨t2, ht2, hseq2⟩ := runBlocks_congr (P ++ R) hseqA ht1
          refine ⟨X, [], P ++ R, CZ, t2, ?_, hZ, ?_, SEq_trans hseq1 hseq2⟩
          · exact List.Perm.refl _
          · show runBlocks s ((lunion X.1 B.1, CZ) :: (P ++ R)) = some t2
            rw [runBlocks, hsZ]
            exact ht2

theorem runAll_reseed :
    ∀ (n : ℕ) {L : List Block} {t : List ℕ × Wmap} {B : Block},
      L.length ≤ n →
      (∀ blk ∈ L, WFMap blk.1 blk.2 ∧ blk.1.Nodup) →
      runAll L = some t → B ∈ L →
      ∃ (R : List Block) (t' : List ℕ × Wmap),
        (B :: R).Perm L ∧ runAll (B :: R) = some t' ∧ SEq t t' := by
  intro n
  induction n with
  | zero =>
    intro L t B hlen _ _ hB
    rw [Nat.le_zero] at hlen
    rw [List.length_eq_zero.mp hlen] at hB
    exact absurd hB (List.not_mem_nil B)
  | succ n ih =>
    intro L t B hlen hall hrun hB
    cases L with
    | nil => exact absurd hB (List.not_mem_nil B)
    | cons A L0 =>
      rcases List.mem_cons.mp hB with rfl | hBL0
      · exact ⟨L0, t, List.Perm.refl _, hrun, SEq_refl t⟩
      · obtain ⟨P, R, rfl⟩ := List.append_of_mem hBL0
        obtain ⟨hwfA, hndA⟩ := hall A (List.mem_cons_self _ _)
        obtain ⟨hwfB, hndB⟩ := hall B (List.mem_cons_of_mem A
          (List.mem_append.mpr (Or.inr (List.mem_cons_self _ _))))
        have hPR2L : ∀ blk ∈ P ++ R, WFMap blk.1 blk.2 ∧ blk.1.Nodup := by
          intro blk hblk
          rcases List.mem_append.mp hblk with h1 | h1
          · exact hall blk (List.mem_cons_of_mem A (List.mem_append.mpr (Or.inl h1)))
          · exact hall blk (List.mem_cons_of_mem A
              (List.mem_append.mpr (Or.inr (List.mem_cons_of_mem B h1))))
        have hallsub : ∀ blk ∈ P ++ B :: R, WFMap blk.1 blk.2 ∧ blk.1.Nodup :=
          fun blk hblk => hall blk (List.mem_cons_of_mem A hblk)
        have hrun2 : runBlocks (A.1, A.2) (P ++ B :: R) = some t := hrun
        have hpend := runBlocks_pending_inter (P ++ B :: R) hrun2 B
          (List.mem_append.mpr (Or.inr (List.mem_cons_self _ _)))
        rcases linter_nil_or_single hndB
          (fun x y hx hy hxs hys => hpend x y hx hy hxs hys) with hnil | ⟨b, hsing⟩
        · obtain ⟨Y, P1, R1, CZ, t1, hperm, hZ, hrunF, hseqF⟩ :=
            runBlocks_fuse P hwfA hallsub hnil hrun2
          have hYPR : Y ∈ P ++ R := hperm.subset
            (List.mem_append.mpr (Or.inr (List.mem_cons_self _ _)))
          obtain ⟨hwfY, hndY⟩ := hPR2L Y hYPR
          obtain ⟨b2, hli2, hre2, _⟩ := mergeB_some_spec hZ
          have hreY : rebuildC (lunion Y.1 B.1)
              (fun i j => calcWeight Y.2 B.2 b2 i j) = .ok CZ := hre2
          have hwfZ : WFMap (lunion Y.1 B.1) CZ := rebuild_wf hwfY hwfB hreY
          have hlenF : (A :: (P1 ++ (lunion Y.1 B.1, CZ) :: R1)).length ≤ n := by
            have hle := hperm.length_eq
            simp only [List.length_cons, List.length_append] at hle hlen ⊢
            omega
          have hallF : ∀ blk ∈ A :: (P1 ++ (lunion Y.1 B.1, CZ) :: R1),
              WFMap blk.1 blk.2 ∧ blk.1.Nodup := by
            intro blk hblk
            rcases List.mem_cons.mp hblk with rfl | hblk1
            · exact ⟨hwfA, hndA⟩
            · rcases List.mem_append.mp hblk1 with h1 | h1
              · exact hPR2L blk (hperm.subset (List.mem_append.mpr (Or.inl h1)))
              · rcases List.mem_cons.mp h1 with rfl | h2
                · exact ⟨hwfZ, lunion_nodup hndY⟩
                · exact hPR2L blk (hperm.subset (List.mem_append.mpr
                    (Or.inr (List.mem_cons_of_mem Y h2))))
          have hrunF2 : runAll (A :: (P1 ++ (lunion Y.1 B.1, CZ) :: R1)) =
              some t1 := hrunF
          obtain ⟨R2, t2, hperm2, hrun3, hseq2⟩ := ih hlenF hallF hrunF2
            (List.mem_cons_of_mem A (List.mem_append.mpr
              (Or.inr (List.mem_cons_self _ _))))
          have hrun4 : runBlocks (lunion Y.1 B.1, CZ) R2 = some t2 := hrun3
          have hYB : runAll (Y :: B :: R2) = some t2 := by
            show runBlocks (Y.1, Y.2) (B :: R2) = some t2
            rw [runBlocks, hZ]
            exact hrun4
          obtain ⟨Z2, hZ2, hseqZ⟩ := mergeB_seed_exchange hwfY hwfB hndY hZ
          obtain ⟨t3, hrun5, hseq3⟩ := runBlocks_congr R2 hseqZ hrun4
          have hfinal : runAll (B :: Y :: R2) = some t3 := by
            show runBlocks (B.1, B.2) (Y :: R2) = some t3
            rw [runBlocks, hZ2]
            exact hrun5
          refine ⟨Y :: R2, t3, ?_, hfinal,
            SEq_trans hseqF (SEq_trans hseq2 hseq3)⟩
          have q1 : (A :: (P1 ++ (lunion Y.1 B.1, CZ) :: R1)).Perm
              ((lunion Y.1 B.1, CZ) :: (A :: (P1 ++ R1))) :=
            (List.perm_middle.cons A).trans (List.Perm.swap _ A _)
          have hR2 : R2.Perm (A :: (P1 ++ R1)) := (hperm2.trans q1).cons_inv
          have hY1 : (Y :: (P1 ++ R1)).Perm (P ++ R) :=
            List.perm_middle.symm.trans hperm
          exact (((hR2.cons Y).cons B).trans
            ((((List.Perm.swap A Y (P1 ++ R1)).cons B).trans
              (((hY1.cons A).cons B).trans
                ((List.Perm.swap A B (P ++ R)).trans
                  (List.perm_middle.symm.cons A))))))
        · obtain ⟨t1, ht1, hseq1⟩ := runBlocks_bubble P hwfA hallsub hsing hrun2
          rw [runBlocks] at ht1
          cases hmbB : mergeB (A.1, A.2) B with
          | none => rw [hmbB] at ht1; cases ht1
          | some sAB =>
            rw [hmbB] at ht1
            obtain ⟨Z2, hZ2, hseqZ⟩ := mergeB_seed_exchange hwfA hwfB hndA hmbB
            obtain ⟨t2, ht2, hseq2⟩ := runBlocks_congr (P ++ R) hseqZ ht1
            have hfinal : runAll (B :: A :: (P ++ R)) = some t2 := by
              show runBlocks (B.1, B.2) (A :: (P ++ R)) = some t2
              rw [runBlocks, hZ2]
              exact ht2
            refine ⟨A :: (P ++ R), t2, ?_, hfinal, SEq_trans hseq1 hseq2⟩
            exact (List.Perm.swap A B _).trans (List.perm_middle.symm.cons A)

theorem runAll_perm {L1 L2 : List Block} (hp : L1.Perm L2)
    (hall : ∀ blk ∈ L1, WFMap blk.1 blk.2 ∧ blk.1.Nodup)
    {t1 t2 : List ℕ × Wmap}
    (h1 : runAll L1 = some t1) (h2 : runAll L2 = some t2) : SEq t1 t2 := by
  cases L2 with
  | nil => rw [runAll] at h2; cases h2
  | cons B R2 =>
    have hB1 : B ∈ L1 := hp.symm.subset (List.mem_cons_self _ _)
    obtain ⟨R, t1a, hperm, hrun, hseq⟩ :=
      runAll_reseed L1.length (le_refl _) hall h1 hB1
    have htail : R.Perm R2 := (hperm.trans hp).cons_inv
    have hwfB := (hall B hB1).1
    have hallR : ∀ blk ∈ R, WFMap blk.1 blk.2 ∧ blk.1.Nodup := fun blk hblk =>
      hall blk (hperm.subset (List.mem_cons_of_mem B hblk))
    have hrunB : runBlocks (B.1, B.2) R = some t1a := hrun
    have hrunB2 : runBlocks (B.1, B.2) R2 = some t2 := h2
    exact SEq_trans hseq (runBlocks_perm R htail hwfB hallR hrunB hrunB2)

theorem blockNodes_nodup (m : Wmap) : (blockNodes m).Nodup := by
  suffices h : ∀ (l : Wmap) (acc : List ℕ), acc.Nodup →
      (l.foldl (fun acc kv => vadd kv.1.2 (vadd kv.1.1 acc)) acc).Nodup by
    exact h m [] List.nodup_nil
  intro l
  induction l with
  | nil => exact fun _ h => h
  | cons kv l ih =>
    intro acc h
    exact ih _ (vadd_nodup (vadd_nodup h))

theorem mergeLoopF_to_run :
    ∀ {f : ℕ} {st st1 : MState}, mergeLoopF f st = .ok st1 →
      ∃ L : List Block, st.Q.Perm L ∧
        runBlocks (st.nodes, st.C) L = some (st1.nodes, st1.C) := by
  intro f
  induction f with
  | zero =>
    intro st st1 h
    rw [mergeLoopF] at h
    split at h
    · cases h
      next hemp =>
        refine ⟨[], ?_, rfl⟩
        rw [List.isEmpty_iff.mp hemp]
    · cases h
  | succ f ih =>
    intro st st1 h
    rw [mergeLoopF] at h
    split at h
    · cases h
      next hemp =>
        refine ⟨[], ?_, rfl⟩
        rw [List.isEmpty_iff.mp hemp]
    · cases hms : mergeStep st with
      | error e => rw [hms] at h; cases h
      | ok st2 =>
        rw [hms] at h
        obtain ⟨L2, hp2, hrun2⟩ := ih h
        obtain ⟨c, blk, hperm, hli, hnd2, hre⟩ := mergeStep_spec hms
        refine ⟨blk :: L2, hperm.trans (hp2.cons blk), ?_⟩
        have hmb : mergeB (st.nodes, st.C) blk =
            some (lunion st.nodes blk.1, st2.C) :=
          @mergeB_mk (st.nodes, st.C) blk c st2.C hli hre
        rw [runBlocks, hmb]
        show runBlocks (lunion st.nodes blk.1, st2.C) L2 = some (st1.nodes, st1.C)
        rw [← hnd2]
        exact hrun2

theorem getLast_cons_perm {Q : List Block} {blk : Block}
    (h : Q.getLast? = some blk) : Q.Perm (blk :: Q.dropLast) := by
  have happ : Q.dropLast ++ [blk] = Q := List.dropLast_append_getLast? blk h
  have : (Q.dropLast ++ [blk]).Perm (blk :: (Q.dropLast ++ [])) :=
    List.perm_middle
  rw [happ, List.append_nil] at this
  exact this

theorem calcDetour_perm {N : ℕ} {Q1 Q2 : List Block} (hperm : Q1.Perm Q2)
    (hall : ∀ b ∈ Q1, WFMap b.1 b.2 ∧ b.1.Nodup)
    {M1 M2 : ℕ → ℕ → ℚ}
    (h1 : calcDetour N Q1 = .ok M1) (h2 : calcDetour N Q2 = .ok M2) :
    ∀ i j : ℕ, M1 i j = M2 i j := by
  rw [calcDetour] at h1 h2
  by_cases hN : N = 1
  · rw [if_pos hN] at h1 h2
    cases h1
    cases h2
    intro i j
    rfl
  · rw [if_neg hN] at h1 h2
    cases hq1 : Q1.getLast? with
    | none => rw [hq1] at h1; cases h1
    | some blk1 =>
      rw [hq1] at h1
      cases hq2 : Q2.getLast? with
      | none => rw [hq2] at h2; cases h2
      | some blk2 =>
        rw [hq2] at h2
        have h1b : (match mergeLoopF Q1.dropLast.length
            ⟨blk1.1, blk1.2, Q1.dropLast⟩ with
          | Except.error e => Except.error e
          | Except.ok st => assemble N st.C) = Except.ok M1 := h1
        have h2b : (match mergeLoopF Q2.dropLast.length
            ⟨blk2.1, blk2.2, Q2.dropLast⟩ with
          | Except.error e => Except.error e
          | Except.ok st => assemble N st.C) = Except.ok M2 := h2
        cases hml1 : mergeLoopF Q1.dropLast.length
            ⟨blk1.1, blk1.2, Q1.dropLast⟩ with
        | error e => rw [hml1] at h1b; cases h1b
        | ok st1 =>
          rw [hml1] at h1b
          cases hml2 : mergeLoopF Q2.dropLast.length
              ⟨blk2.1, blk2.2, Q2.dropLast⟩ with
          | error e => rw [hml2] at h2b; cases h2b
          | ok st2 =>
            rw [hml2] at h2b
            have ha1 : assemble N st1.C = .ok M1 := h1b
            have ha2 : assemble N st2.C = .ok M2 := h2b
            obtain ⟨L1, hpL1, hrun1⟩ := mergeLoopF_to_run hml1
            obtain ⟨L2, hpL2, hrun2⟩ := mergeLoopF_to_run hml2
            have hr1 : runAll (blk1 :: L1) = some (st1.nodes, st1.C) := hrun1
            have hr2 : runAll (blk2 :: L2) = some (st2.nodes, st2.C) := hrun2
            have hq1p : Q1.Perm (blk1 :: Q1.dropLast) := getLast_cons_perm hq1
            have hq2p : Q2.Perm (blk2 :: Q2.dropLast) := getLast_cons_perm hq2
            have hLp : (blk1 :: L1).Perm (blk2 :: L2) :=
              ((hpL1.cons blk1).symm.trans (hq1p.symm.trans
                (hperm.trans (hq2p.trans (hpL2.cons blk2)))))
            have hall1 : ∀ blk ∈ blk1 :: L1, WFMap blk.1 blk.2 ∧ blk.1.Nodup :=
              fun blk hblk =>
                hall blk (hq1p.symm.subset ((hpL1.cons blk1).symm.subset hblk))
            have hseq := runAll_perm hLp hall1 hr1 hr2
            have hmaps : ∀ k : ℕ × ℕ, mlookup st1.C k = mlookup st2.C k := hseq.2
            intro i j
            unfold assemble at ha1 ha2
            by_cases hc1 : ∀ a ∈ List.range N, ∀ b ∈ List.range N,
                a ≤ b → (mlookup st1.C (a, b)).isSome = true
            · rw [if_pos hc1] at ha1
              cases ha1
              by_cases hc2 : ∀ a ∈ List.range N, ∀ b ∈ List.range N,
                  a ≤ b → (mlookup st2.C (a, b)).isSome = true
              · rw [if_pos hc2] at ha2
                cases ha2
                show (mlookup st1.C (min i j, max i j)).getD 0 =
                  (mlookup st2.C (min i j, max i j)).getD 0
                rw [hmaps]
              · rw [if_neg hc2] at ha2
                cases ha2
            · rw [if_neg hc1] at ha1
              cases ha1

/-- **C9.** Permuting the order of the per-block pairwise maps in the
block collection before the merge loop yields an identical final matrix
from `CalcDetour.__call__`: whenever two permuted block collections both
produce a matrix, the two matrices agree at every position — the result
depends neither on which block seeds the merge nor on the order in which
the remaining blocks are consumed. -/
theorem merge_order_independence (N : ℕ) (blocks1 blocks2 : List WGraph)
    (hperm : blocks1.Perm blocks2) {M1 M2 : ℕ → ℕ → ℚ}
    (h1 : calcDetourG N blocks1 = .ok M1) (h2 : calcDetourG N blocks2 = .ok M2) :
    ∀ i j : ℕ, M1 i j = M2 i j := by
  rw [calcDetourG] at h1 h2
  refine calcDetour_perm (hperm.map toBlock) ?_ h1 h2
  intro b hb
  obtain ⟨g, _, rfl⟩ := List.mem_map.mp hb
  exact ⟨wfMap_toBlock g, blockNodes_nodup _⟩

/-- Witness for C9: the two block orders of the weighted path graph both
succeed and give pointwise-equal matrices. -/
theorem merge_order_independence_witness :
    ∃ M1 M2 : ℕ → ℕ → ℚ, calcDetourG 3 [pathA, pathB] = .ok M1 ∧
      calcDetourG 3 [pathB, pathA] = .ok M2 ∧ ∀ i j : ℕ, M1 i j = M2 i j := by
  refine ⟨_, _, rfl, rfl, ?_⟩
  exact merge_order_independence 3 [pathA, pathB] [pathB, pathA]
    (List.Perm.swap pathB pathA []) rfl rfl

theorem mem_unionGraph_nodes {bs : List WGraph} {x : ℕ} :
    x ∈ (unionGraph bs).nodes ↔ ∃ g ∈ bs, x ∈ g.nodes := by
  simp [unionGraph]

theorem mem_unionGraph_adj {bs : List WGraph} {u : ℕ} {vw : ℕ × ℚ} :
    vw ∈ (unionGraph bs).adj u ↔ ∃ g ∈ bs, vw ∈ g.adj u := by
  simp [unionGraph]

theorem pathFrom_mono {a1 a2 : ℕ → List (ℕ × ℚ)}
    (h : ∀ u : ℕ, ∀ vw ∈ a1 u, vw ∈ a2 u) :
    ∀ {u : ℕ} {p : List (ℕ × ℚ)}, PathFrom a1 u p → PathFrom a2 u p := by
  intro u p hp
  induction hp with
  | nil => exact PathFrom.nil _
  | cons he _ ih => exact PathFrom.cons (h _ _ he) ih

theorem simplePath_mono {g1 g2 : WGraph}
    (h : ∀ u : ℕ, ∀ vw ∈ g1.adj u, vw ∈ g2.adj u) {s t : ℕ}
    {p : List (ℕ × ℚ)} (hp : SimplePath g1 s t p) : SimplePath g2 s t p :=
  ⟨pathFrom_mono h hp.1, hp.2.1, hp.2.2.1, hp.2.2.2.1, hp.2.2.2.2⟩

theorem unionGraph_single_adj (g : WGraph) (u : ℕ) (vw : ℕ × ℚ) :
    vw ∈ (unionGraph [g]).adj u ↔ vw ∈ g.adj u := by
  simp [unionGraph]

theorem unionGraph_sym {bs : List WGraph} (h : ∀ g ∈ bs, GoodBlock g) :
    ∀ u v : ℕ, ∀ w : ℚ,
      (v, w) ∈ (unionGraph bs).adj u ↔ (u, w) ∈ (unionGraph bs).adj v := by
  intro u v w
  rw [mem_unionGraph_adj, mem_unionGraph_adj]
  constructor
  · rintro ⟨g, hg, he⟩
    exact ⟨g, hg, ((h g hg).1 u v w).mp he⟩
  · rintro ⟨g, hg, he⟩
    exact ⟨g, hg, ((h g hg).1 v u w).mp he⟩

theorem unionGraph_closed {bs : List WGraph} (h : ∀ g ∈ bs, GoodBlock g) :
    ∀ x : ℕ, ∀ vw ∈ (unionGraph bs).adj x, vw.1 ∈ (unionGraph bs).nodes := by
  intro x vw hvw
  obtain ⟨g, hg, he⟩ := mem_unionGraph_adj.mp hvw
  exact mem_unionGraph_nodes.mpr ⟨g, hg, (h g hg).2.1 x vw he⟩

theorem unionGraph_src {bs : List WGraph} (h : ∀ g ∈ bs, GoodBlock g) :
    ∀ x : ℕ, ∀ vw ∈ (unionGraph bs).adj x, x ∈ (unionGraph bs).nodes := by
  intro x vw hvw
  obtain ⟨g, hg, he⟩ := mem_unionGraph_adj.mp hvw
  refine mem_unionGraph_nodes.mpr ⟨g, hg, ?_⟩
  by_contra hx
  rw [(h g hg).2.2.1 x hx] at he
  exact absurd he (List.not_mem_nil vw)

theorem unionGraph_wnonneg {bs : List WGraph} (h : ∀ g ∈ bs, GoodBlock g) :
    ∀ x : ℕ, ∀ vw ∈ (unionGraph bs).adj x, 0 ≤ vw.2 := by
  intro x vw hvw
  obtain ⟨g, hg, he⟩ := mem_unionGraph_adj.mp hvw
  exact (h g hg).2.2.2.1 x vw he

theorem pweight_nonneg {adj : ℕ → List (ℕ × ℚ)}
    (hw : ∀ x : ℕ, ∀ vw ∈ adj x, 0 ≤ vw.2) :
    ∀ {u : ℕ} {p : List (ℕ × ℚ)}, PathFrom adj u p → 0 ≤ pweight p := by
  intro u p hp
  induction hp with
  | nil => exact le_refl 0
  | cons he hp2 ih =>
    rw [pweight_cons]
    have := hw _ _ he
    linarith

theorem path_trapped {adjA adjO adjN : ℕ → List (ℕ × ℚ)} {oldN gN : List ℕ}
    {c : ℕ}
    (hsplit : ∀ u : ℕ, ∀ vw ∈ adjA u, vw ∈ adjO u ∨ vw ∈ adjN u)
    (hO : ∀ u : ℕ, ∀ vw ∈ adjO u, u ∈ oldN ∧ vw.1 ∈ oldN)
    (hN : ∀ u : ℕ, ∀ vw ∈ adjN u, u ∈ gN ∧ vw.1 ∈ gN)
    (hI : ∀ z : ℕ, z ∈ oldN → z ∈ gN → z = c) :
    ∀ (p : List (ℕ × ℚ)) (u : ℕ), PathFrom adjA u p → u ∈ oldN → u ≠ c →
      c ∉ pnodes p → pend u p ∈ oldN := by
  intro p
  induction p with
  | nil =>
    intro u _ hu _ _
    exact hu
  | cons vw p ih =>
    intro u hp hu huc hc
    obtain ⟨v, w⟩ := vw
    cases hp with
    | cons he hp2 =>
      rcases hsplit u _ he with hedge | hedge
      · have hv : v ∈ oldN := (hO u _ hedge).2
        have hvc : v ≠ c := by
          intro h
          exact hc (by rw [pnodes_cons, h]; exact List.mem_cons_self _ _)
        have hc2 : c ∉ pnodes p := fun h =>
          hc (by rw [pnodes_cons]; exact List.mem_cons_of_mem _ h)
        rw [pend_cons]
        exact ih v hp2 hv hvc hc2
      · exact absurd (hI u hu (hN u _ hedge).1) huc

theorem path_stay {adjA adjO adjN : ℕ → List (ℕ × ℚ)} {oldN gN : List ℕ}
    {c : ℕ}
    (hsplit : ∀ u : ℕ, ∀ vw ∈ adjA u, vw ∈ adjO u ∨ vw ∈ adjN u)
    (hO : ∀ u : ℕ, ∀ vw ∈ adjO u, u ∈ oldN ∧ vw.1 ∈ oldN)
    (hN : ∀ u : ℕ, ∀ vw ∈ adjN u, u ∈ gN ∧ vw.1 ∈ gN)
    (hI : ∀ z : ℕ, z ∈ oldN → z ∈ gN → z = c) :
    ∀ (p : List (ℕ × ℚ)) (u : ℕ), PathFrom adjA u p → (pnodes p).Nodup →
      u ∉ pnodes p → u ∈ gN → pend u p ∈ gN → PathFrom adjN u p := by
  intro p
  induction p with
  | nil =>
    intro u _ _ _ _ _
    exact PathFrom.nil u
  | cons vw p ih =>
    intro u hp hnd hup hug hpe
    obtain ⟨v, w⟩ := vw
    cases hp with
    | cons he hp2 =>
      have hvp : v ∉ pnodes p := by
        have := hnd
        rw [pnodes_cons] at this
        exact (List.nodup_cons.mp this).1
      have hndp : (pnodes p).Nodup := by
        have := hnd
        rw [pnodes_cons] at this
        exact (List.nodup_cons.mp this).2
      rcases hsplit u _ he with hedge | hedge
      · have huold : u ∈ oldN := (hO u _ hedge).1
        have huc : u = c := hI u huold hug
        have hvold : v ∈ oldN := (hO u _ hedge).2
        have hvc : v ≠ c := by
          intro h
          rw [← huc] at h
          exact hup (by rw [pnodes_cons, h]; exact List.mem_cons_self _ _)
        have hcp : c ∉ pnodes p := by
          rw [← huc]
          intro h
          exact hup (by rw [pnodes_cons]; exact List.mem_cons_of_mem _ h)
        have htr := path_trapped hsplit hO hN hI p v hp2 hvold hvc hcp
        rw [pend_cons] at hpe
        have hpc : pend v p = c := hI _ htr hpe
        cases hpn : p with
        | nil =>
          rw [hpn] at hpc
          exact absurd hpc hvc
        | cons q qs =>
          have : pend v p ∈ pnodes p := pend_mem v (by rw [hpn]; simp)
          rw [hpc] at this
          exact absurd this hcp
      · have hv : v ∈ gN := (hN u _ hedge).2
        rw [pend_cons] at hpe
        exact PathFrom.cons hedge (ih v hp2 hndp hvp hv hpe)

theorem path_split {adjA adjO adjN : ℕ → List (ℕ × ℚ)} {oldN gN : List ℕ}
    {c : ℕ}
    (hsplit : ∀ u : ℕ, ∀ vw ∈ adjA u, vw ∈ adjO u ∨ vw ∈ adjN u)
    (hO : ∀ u : ℕ, ∀ vw ∈ adjO u, u ∈ oldN ∧ vw.1 ∈ oldN)
    (hN : ∀ u : ℕ, ∀ vw ∈ adjN u, u ∈ gN ∧ vw.1 ∈ gN)
    (hI : ∀ z : ℕ, z ∈ oldN → z ∈ gN → z = c) (hcg : c ∈ gN) :
    ∀ (p : List (ℕ × ℚ)) (a : ℕ), PathFrom adjA a p → (pnodes p).Nodup →
      a ∉ pnodes p → a ∈ oldN → a ≠ c → pend a p ∈ gN → pend a p ∉ oldN →
      ∃ p1 p2 : List (ℕ × ℚ), p = p1 ++ p2 ∧ p1 ≠ [] ∧
        PathFrom adjO a p1 ∧ pend a p1 = c ∧
        PathFrom adjN c p2 ∧ pend c p2 = pend a p := by
  intro p
  induction p with
  | nil =>
    intro a _ _ _ ha _ _ hpo
    exact absurd ha hpo
  | cons vw p ih =>
    intro a hp hnd hap ha hac hpe hpo
    obtain ⟨v, w⟩ := vw
    cases hp with
    | cons he hp2 =>
      have hvp : v ∉ pnodes p := by
        have := hnd
        rw [pnodes_cons] at this
        exact (List.nodup_cons.mp this).1
      have hndp : (pnodes p).Nodup := by
        have := hnd
        rw [pnodes_cons] at this
        exact (List.nodup_cons.mp this).2
      rcases hsplit a _ he with hedge | hedge
      · have hv : v ∈ oldN := (hO a _ hedge).2
        by_cases hvc : v = c
        · subst hvc
          refine ⟨[(v, w)], p, rfl, by simp, PathFrom.cons hedge (PathFrom.nil v),
            rfl, ?_, ?_⟩
          · refine path_stay hsplit hO hN hI p v hp2 hndp hvp hcg ?_
            rw [pend_cons] at hpe
            exact hpe
          · rw [pend_cons]
        · rw [pend_cons] at hpe hpo
          obtain ⟨p1, p2, heq, hne, hO1, hpe1, hN2, hpe2⟩ :=
            ih v hp2 hndp hvp hv hvc hpe hpo
          refine ⟨(v, w) :: p1, p2, by rw [heq, List.cons_append], by simp,
            PathFrom.cons hedge hO1, ?_, hN2, ?_⟩
          · rw [pend_cons]
            exact hpe1
          · rw [pend_cons]
            exact hpe2
      · exact absurd (hI a ha (hN a _ hedge).1) hac

theorem pnodes_append (a b : List (ℕ × ℚ)) :
    pnodes (a ++ b) = pnodes a ++ pnodes b := by
  simp [pnodes]

theorem pend_append : ∀ (a b : List (ℕ × ℚ)) (u : ℕ),
    pend u (a ++ b) = pend (pend u a) b := by
  intro a
  induction a with
  | nil => intro b u; rfl
  | cons vw a ih =>
    intro b u
    obtain ⟨v, w⟩ := vw
    rw [List.cons_append, pend_cons, pend_cons, ih]

theorem pathFrom_concat {adj : ℕ → List (ℕ × ℚ)} :
    ∀ {p q : List (ℕ × ℚ)} {a : ℕ}, PathFrom adj a p →
      PathFrom adj (pend a p) q → PathFrom adj a (p ++ q) := by
  intro p
  induction p with
  | nil =>
    intro q a _ hq
    exact hq
  | cons vw p ih =>
    intro q a hp hq
    obtain ⟨v, w⟩ := vw
    cases hp with
    | cons he hp2 =>
      rw [pend_cons] at hq
      exact PathFrom.cons he (ih hp2 hq)

theorem lspStart_achieved (g : WGraph) (hg : GoodBlock g) {x y : ℕ}
    (hx : x ∈ g.nodes) (hy : y ∈ g.nodes) (hne : x ≠ y) :
    ∃ p, SimplePath g x y p ∧ pweight p = lspStart g x y := by
  obtain ⟨p0, hp0⟩ := hg.2.2.2.2 x y hx hy hne
  rcases lspStart_sound g x y with h0 | ⟨p, hp, hval⟩
  · refine ⟨p0, hp0, ?_⟩
    have hub := lspStart_ge g x y p0 hg.2.1 hp0
    have hnn : 0 ≤ pweight p0 := pweight_nonneg hg.2.2.2.1 hp0.1
    rw [h0] at hub ⊢
    linarith
  · exact ⟨p, hp, hval.symm⟩

theorem char_flip {G : WGraph}
    (hsym : ∀ u v : ℕ, ∀ w : ℚ, (v, w) ∈ G.adj u ↔ (u, w) ∈ G.adj v)
    {x y : ℕ} {v : ℚ}
    (hub : ∀ p, SimplePath G x y p → pweight p ≤ v)
    (hach : (x = y ∧ v = 0) ∨ ∃ p, SimplePath G x y p ∧ pweight p = v) :
    (∀ p, SimplePath G y x p → pweight p ≤ v) ∧
    ((y = x ∧ v = 0) ∨ ∃ p, SimplePath G y x p ∧ pweight p = v) := by
  constructor
  · intro p hp
    have := hub (prevP y p) (simplePath_rev hsym hp)
    rwa [pweight_prevP] at this
  · rcases hach with ⟨rfl, h0⟩ | ⟨p, hp, hw⟩
    · exact Or.inl ⟨rfl, h0⟩
    · exact Or.inr ⟨prevP x p, simplePath_rev hsym hp,
        by rw [pweight_prevP]; exact hw⟩

theorem lspInv_base (g : WGraph) (hg : GoodBlock g) :
    LspInv [g] ((toBlock g).1, (toBlock g).2) := by
  constructor
  · intro x
    show x ∈ (toBlock g).1 ↔ _
    rw [mem_unionGraph_nodes]
    constructor
    · intro h
      exact ⟨g, List.mem_singleton.mpr rfl, (mem_blockNodes_lspMapA g).mp h⟩
    · rintro ⟨g2, hg2, hx⟩
      rw [List.mem_singleton] at hg2
      subst hg2
      exact (mem_blockNodes_lspMapA _).mpr hx
  · intro x y hx hy
    have hx2 : x ∈ g.nodes := (mem_blockNodes_lspMapA g).mp hx
    have hy2 : y ∈ g.nodes := (mem_blockNodes_lspMapA g).mp hy
    refine ⟨lspStart g x y, mlookup_lspMapA_eq g hg.1 hg.2.1 hx2 hy2, ?_, ?_⟩
    · intro p hp
      refine lspStart_ge g x y p hg.2.1 ?_
      exact simplePath_mono (fun u vw hvw => (unionGraph_single_adj g u vw).mp hvw) hp
    · by_cases hxy : x = y
      · subst hxy
        exact Or.inl ⟨rfl, lspStart_self g x⟩
      · obtain ⟨p, hp, hw⟩ := lspStart_achieved g hg hx2 hy2 hxy
        exact Or.inr ⟨p,
          simplePath_mono (fun u vw hvw => (unionGraph_single_adj g u vw).mpr hvw) hp, hw⟩

theorem lspInv_step {done : List WGraph} {s s' : List ℕ × Wmap} {g : WGraph}
    (hall : ∀ g2 ∈ done, GoodBlock g2) (hg : GoodBlock g)
    (hInv : LspInv done s) (hwfs : WFMap s.1 s.2)
    (hmb : mergeB s (toBlock g) = some s') :
    LspInv (done ++ [g]) s' := by
  obtain ⟨c, hli, hre, hnd⟩ := mergeB_some_spec hmb
  obtain ⟨hcB, hcs⟩ := linter_single hli
  have hcg : c ∈ g.nodes := (mem_blockNodes_lspMapA g).mp hcB
  have sing : ∀ z ∈ (toBlock g).1, z ∈ s.1 → z = c := linter_single_mem hli
  have hIcap : ∀ z : ℕ, z ∈ s.1 → z ∈ g.nodes → z = c := fun z h1 h2 =>
    sing z ((mem_blockNodes_lspMapA g).mpr h2) h1
  have hallU : ∀ g2 ∈ done ++ [g], GoodBlock g2 := by
    intro g2 hg2
    rcases List.mem_append.mp hg2 with h | h
    · exact hall g2 h
    · rw [List.mem_singleton] at h
      subst h
      exact hg
  have hsplitA : ∀ u : ℕ, ∀ vw ∈ (unionGraph (done ++ [g])).adj u,
      vw ∈ (unionGraph done).adj u ∨ vw ∈ g.adj u := by
    intro u vw h
    obtain ⟨g2, hg2, he⟩ := mem_unionGraph_adj.mp h
    rcases List.mem_append.mp hg2 with h2 | h2
    · exact Or.inl (mem_unionGraph_adj.mpr ⟨g2, h2, he⟩)
    · rw [List.mem_singleton] at h2
      subst h2
      exact Or.inr he
  have hliftO : ∀ u : ℕ, ∀ vw ∈ (unionGraph done).adj u,
      vw ∈ (unionGraph (done ++ [g])).adj u := by
    intro u vw h
    obtain ⟨g2, hg2, he⟩ := mem_unionGraph_adj.mp h
    exact mem_unionGraph_adj.mpr ⟨g2, List.mem_append.mpr (Or.inl hg2), he⟩
  have hliftN : ∀ u : ℕ, ∀ vw ∈ g.adj u,
      vw ∈ (unionGraph (done ++ [g])).adj u := fun u vw h =>
    mem_unionGraph_adj.mpr
      ⟨g, List.mem_append.mpr (Or.inr (List.mem_singleton.mpr rfl)), h⟩
  have hO : ∀ u : ℕ, ∀ vw ∈ (unionGraph done).adj u,
      u ∈ (unionGraph done).nodes ∧ vw.1 ∈ (unionGraph done).nodes :=
    fun u vw h => ⟨unionGraph_src hall u vw h, unionGraph_closed hall u vw h⟩
  have hN : ∀ u : ℕ, ∀ vw ∈ g.adj u, u ∈ g.nodes ∧ vw.1 ∈ g.nodes := by
    intro u vw h
    refine ⟨?_, hg.2.1 u vw h⟩
    by_contra hu
    rw [hg.2.2.1 u hu] at h
    exact absurd h (List.not_mem_nil vw)
  have hI : ∀ z : ℕ, z ∈ (unionGraph done).nodes → z ∈ g.nodes → z = c :=
    fun z h1 h2 => hIcap z ((hInv.1 z).mpr h1) h2
  have hI2 : ∀ z : ℕ, z ∈ g.nodes → z ∈ (unionGraph done).nodes → z = c :=
    fun z h1 h2 => hI z h2 h1
  have hsplitA2 : ∀ u : ℕ, ∀ vw ∈ (unionGraph (done ++ [g])).adj u,
      vw ∈ g.adj u ∨ vw ∈ (unionGraph done).adj u :=
    fun u vw h => (hsplitA u vw h).symm
  have hwfB : WFMap (toBlock g).1 (toBlock g).2 := wfMap_toBlock g
  have blkVal : ∀ {a b : ℕ}, a ∈ g.nodes → b ∈ g.nodes →
      pval (toBlock g).2 a b = some (lspStart g a b) :=
    fun ha hb => mlookup_lspMapA_eq g hg.1 hg.2.1 ha hb
  have oldChar : ∀ x y : ℕ, x ∈ s.1 → y ∈ s.1 → ∃ v : ℚ,
      pval s'.2 x y = some v ∧
      (∀ p, SimplePath (unionGraph (done ++ [g])) x y p → pweight p ≤ v) ∧
      ((x = y ∧ v = 0) ∨
        ∃ p, SimplePath (unionGraph (done ++ [g])) x y p ∧ pweight p = v) := by
    intro x y hxs hys
    obtain ⟨v, hv, hub, hach⟩ := hInv.2 x y hxs hys
    refine ⟨v, ?_, ?_, ?_⟩
    · rw [merged_pval_old hwfs hre hxs hys]
      exact hv
    · intro p hp
      obtain ⟨hpath, hne, hndp, hxp, hpe⟩ := hp
      have hxo : x ∈ (unionGraph done).nodes := (hInv.1 x).mp hxs
      have hyo : y ∈ (unionGraph done).nodes := (hInv.1 y).mp hys
      have hstay := path_stay hsplitA2 hN hO hI2 p x hpath hndp hxp hxo
        (by rw [hpe]; exact hyo)
      exact hub p ⟨hstay, hne, hndp, hxp, hpe⟩
    · rcases hach with h | ⟨p, hp, hw⟩
      · exact Or.inl h
      · exact Or.inr ⟨p, simplePath_mono hliftO hp, hw⟩
  have newChar : ∀ x y : ℕ, x ∈ g.nodes → y ∈ g.nodes → ∃ v : ℚ,
      pval s'.2 x y = some v ∧
      (∀ p, SimplePath (unionGraph (done ++ [g])) x y p → pweight p ≤ v) ∧
      ((x = y ∧ v = 0) ∨
        ∃ p, SimplePath (unionGraph (done ++ [g])) x y p ∧ pweight p = v) := by
    intro x y hxg hyg
    refine ⟨lspStart g x y, ?_, ?_, ?_⟩
    · rw [merged_pval_new hwfs hwfB sing hcs hcB hre
        ((mem_blockNodes_lspMapA g).mpr hxg) ((mem_blockNodes_lspMapA g).mpr hyg)]
      exact blkVal hxg hyg
    · intro p hp
      obtain ⟨hpath, hne, hndp, hxp, hpe⟩ := hp
      have hstay := path_stay hsplitA hO hN hI p x hpath hndp hxp hxg
        (by rw [hpe]; exact hyg)
      exact lspStart_ge g x y p hg.2.1 ⟨hstay, hne, hndp, hxp, hpe⟩
    · by_cases hxy : x = y
      · subst hxy
        exact Or.inl ⟨rfl, lspStart_self g x⟩
      · obtain ⟨p, hp, hw⟩ := lspStart_achieved g hg hxg hyg hxy
        exact Or.inr ⟨p, simplePath_mono hliftN hp, hw⟩
  have crossChar : ∀ x y : ℕ, x ∈ s.1 → x ∉ g.nodes → y ∈ g.nodes → y ∉ s.1 →
      ∃ v : ℚ, pval s'.2 x y = some v ∧
      (∀ p, SimplePath (unionGraph (done ++ [g])) x y p → pweight p ≤ v) ∧
      ((x = y ∧ v = 0) ∨
        ∃ p, SimplePath (unionGraph (done ++ [g])) x y p ∧ pweight p = v) := by
    intro x y hxs hxg hyg hys
    obtain ⟨u, hu, hubO, hachO⟩ := hInv.2 x c hxs hcs
    have hyc : y ≠ c := fun h => hys (h ▸ hcs)
    have hxc : x ≠ c := fun h => hxg (h ▸ hcg)
    refine ⟨qadd u (lspStart g y c), ?_, ?_, ?_⟩
    · exact merged_pval_mixed hwfs hwfB sing hcs hcB hre hxs
        ((mem_blockNodes_lspMapA g).mpr hyg) hys hu (blkVal hyg hcg)
    · intro p hp
      obtain ⟨hpath, hne, hndp, hxp, hpe⟩ := hp
      have hxo : x ∈ (unionGraph done).nodes := (hInv.1 x).mp hxs
      have hyNotO : y ∉ (unionGraph done).nodes := fun h => hys ((hInv.1 y).mpr h)
      obtain ⟨p1, p2, heq, hne1, hp1, hpe1, hp2, hpe2⟩ :=
        path_split hsplitA hO hN hI hcg p x hpath hndp hxp hxo hxc
          (by rw [hpe]; exact hyg) (by rw [hpe]; exact hyNotO)
      have hnd12 : (pnodes p1).Nodup ∧ (pnodes p2).Nodup ∧
          (pnodes p1).Disjoint (pnodes p2) := by
        refine List.nodup_append.mp ?_
        rw [← pnodes_append, ← heq]
        exact hndp
      have hxp1 : x ∉ pnodes p1 := fun h =>
        hxp (by rw [heq, pnodes_append]; exact List.mem_append.mpr (Or.inl h))
      have hw1 : pweight p1 ≤ u :=
        hubO p1 ⟨hp1, hne1, hnd12.1, hxp1, hpe1⟩
      have hne2 : p2 ≠ [] := by
        intro h
        rw [h] at hpe2
        rw [hpe] at hpe2
        exact hyc hpe2.symm
      have hcp2 : c ∉ pnodes p2 := by
        have hc1 : c ∈ pnodes p1 := by
          rw [← hpe1]
          exact pend_mem x hne1
        exact fun h => hnd12.2.2 hc1 h
      have hsp2 : SimplePath g c y p2 :=
        ⟨hp2, hne2, hnd12.2.1, hcp2, by rw [hpe2, hpe]⟩
      have hw2 : pweight p2 ≤ lspStart g y c := by
        have := lspStart_ge g y c (prevP c p2) hg.2.1 (simplePath_rev hg.1 hsp2)
        rwa [pweight_prevP] at this
      have hsum : pweight p = pweight p1 + pweight p2 := by
        rw [heq, pweight_append]
      rw [hsum, qadd_eq]
      linarith
    · have hxy : x ≠ y := fun h => hxg (h ▸ hyg)
      rcases hachO with ⟨hxc2, _⟩ | ⟨px, hpx, hwx⟩
      · exact absurd hxc2 hxc
      · obtain ⟨py, hpy, hwy⟩ := lspStart_achieved g hg hyg hcg hyc
        have hpy2 : SimplePath g c y (prevP y py) := simplePath_rev hg.1 hpy
        refine Or.inr ⟨px ++ prevP y py, ?_, ?_⟩
        · obtain ⟨hpxP, hpxne, hpxnd, hpxs, hpxe⟩ := hpx
          obtain ⟨hpyP, hpyne, hpynd, hpys, hpye⟩ := hpy2
          have hnodes1 : ∀ z ∈ pnodes px, z ∈ (unionGraph done).nodes :=
            pathFrom_nodes_mem (unionGraph_closed hall) hpxP
          have hnodes2 : ∀ z ∈ pnodes (prevP y py), z ∈ g.nodes :=
            pathFrom_nodes_mem hg.2.1 hpyP
          refine ⟨?_, ?_, ?_, ?_, ?_⟩
          · refine pathFrom_concat (pathFrom_mono hliftO hpxP) ?_
            rw [hpxe]
            exact pathFrom_mono hliftN hpyP
          · intro h
            exact hpxne (List.append_eq_nil.mp h).1
          · rw [pnodes_append]
            refine List.nodup_append.mpr ⟨hpxnd, hpynd, ?_⟩
            intro z hz1 hz2
            have hzc := hI z (hnodes1 z hz1) (hnodes2 z hz2)
            exact hpys (hzc ▸ hz2)
          · rw [pnodes_append]
            intro h
            rcases List.mem_append.mp h with h1 | h1
            · exact hpxs h1
            · exact hxg (hnodes2 x h1)
          · rw [pend_append, hpxe, hpye]
        · rw [pweight_append, pweight_prevP, hwx, hwy, qadd_eq]
  constructor
  · intro x
    rw [hnd, mem_lunion, mem_unionGraph_nodes]
    constructor
    · rintro (h | h)
      · obtain ⟨g2, hg2, hx2⟩ := mem_unionGraph_nodes.mp ((hInv.1 x).mp h)
        exact ⟨g2, List.mem_append.mpr (Or.inl hg2), hx2⟩
      · exact ⟨g, List.mem_append.mpr (Or.inr (List.mem_singleton.mpr rfl)),
          (mem_blockNodes_lspMapA g).mp h⟩
    · rintro ⟨g2, hg2, hx2⟩
      rcases List.mem_append.mp hg2 with h2 | h2
      · exact Or.inl ((hInv.1 x).mpr (mem_unionGraph_nodes.mpr ⟨g2, h2, hx2⟩))
      · rw [List.mem_singleton] at h2
        subst h2
        exact Or.inr ((mem_blockNodes_lspMapA _).mpr hx2)
  · intro x y hx hy
    have hx2 : x ∈ s.1 ∨ x ∈ g.nodes := by
      rw [hnd, mem_lunion] at hx
      rcases hx with h | h
      · exact Or.inl h
      · exact Or.inr ((mem_blockNodes_lspMapA g).mp h)
    have hy2 : y ∈ s.1 ∨ y ∈ g.nodes := by
      rw [hnd, mem_lunion] at hy
      rcases hy with h | h
      · exact Or.inl h
      · exact Or.inr ((mem_blockNodes_lspMapA g).mp h)
    by_cases hxs : x ∈ s.1
    · by_cases hys : y ∈ s.1
      · exact oldChar x y hxs hys
      · have hyg : y ∈ g.nodes := hy2.resolve_left hys
        by_cases hxg : x ∈ g.nodes
        · exact newChar x y hxg hyg
        · exact crossChar x y hxs hxg hyg hys
    · have hxg : x ∈ g.nodes := hx2.resolve_left hxs
      by_cases hyg : y ∈ g.nodes
      · exact newChar x y hxg hyg
      · have hys : y ∈ s.1 := hy2.resolve_right hyg
        obtain ⟨v, hv, hub, hach⟩ := crossChar y x hys hyg hxg hxs
        obtain ⟨hub2, hach2⟩ := char_flip (unionGraph_sym hallU) hub hach
        refine ⟨v, ?_, hub2, hach2⟩
        rw [pval_comm]
        exact hv

theorem lspInv_run :
    ∀ (gs : List WGraph) {done : List WGraph} {s t : List ℕ × Wmap},
      LspInv done s → WFMap s.1 s.2 → (∀ g ∈ done, GoodBlock g) →
      (∀ g ∈ gs, GoodBlock g) →
      runBlocks s (gs.map toBlock) = some t → LspInv (done ++ gs) t := by
  intro gs
  induction gs with
  | nil =>
    intro done s t hInv _ _ _ h
    rw [List.map_nil, runBlocks] at h
    cases h
    rw [List.append_nil]
    exact hInv
  | cons g gs ih =>
    intro done s t hInv hwfs hdone hgs h
    rw [List.map_cons, runBlocks] at h
    cases hmb : mergeB s (toBlock g) with
    | none => rw [hmb] at h; cases h
    | some s1 =>
      rw [hmb] at h
      have hg : GoodBlock g := hgs g (List.mem_cons_self _ _)
      have hInv1 : LspInv (done ++ [g]) s1 :=
        lspInv_step hdone hg hInv hwfs hmb
      obtain ⟨c, hli, hre, hnd⟩ := mergeB_some_spec hmb
      have hwfs1 : WFMap s1.1 s1.2 := by
        rw [hnd]
        exact rebuild_wf hwfs (wfMap_toBlock g) hre
      have hdone1 : ∀ g2 ∈ done ++ [g], GoodBlock g2 := by
        intro g2 hg2
        rcases List.mem_append.mp hg2 with h2 | h2
        · exact hdone g2 h2
        · rw [List.mem_singleton] at h2
          subst h2
          exact hg
      have hgs1 : ∀ g2 ∈ gs, GoodBlock g2 :=
        fun g2 hg2 => hgs g2 (List.mem_cons_of_mem _ hg2)
      have := ih hInv1 hwfs1 hdone1 hgs1 h
      rw [List.append_assoc] at this
      rw [show ([g] : List WGraph) ++ gs = g :: gs from rfl] at this
      exact this

theorem map_perm_inv (f : WGraph → Block) :
    ∀ {m1 l2 : List Block}, m1.Perm l2 → ∀ l1 : List WGraph, m1 = l1.map f →
      ∃ l3 : List WGraph, l1.Perm l3 ∧ l2 = l3.map f := by
  intro m1 l2 hp
  induction hp with
  | nil =>
    intro l1 h
    cases l1 with
    | nil => exact ⟨[], List.Perm.refl _, rfl⟩
    | cons a l => cases h
  | cons x hp ih =>
    intro l1 h
    cases l1 with
    | nil => cases h
    | cons a l1a =>
      injection h with h1 h2
      subst h1
      obtain ⟨l3, hp3, hm⟩ := ih l1a h2
      exact ⟨a :: l3, hp3.cons a, by rw [hm]; rfl⟩
  | swap x y t =>
    intro l1 h
    cases l1 with
    | nil => cases h
    | cons a l1a =>
      cases l1a with
      | nil =>
        injection h with h1 h2
        cases h2
      | cons b l1b =>
        injection h with h1 h2
        injection h2 with h3 h4
        subst h1
        subst h3
        exact ⟨b :: a :: l1b, List.Perm.swap b a l1b, by rw [h4]; rfl⟩
  | trans hp1 hp2 ih1 ih2 =>
    intro l1 h
    obtain ⟨l3, hp3, hm⟩ := ih1 l1 h
    obtain ⟨l4, hp4, hm2⟩ := ih2 l3 hm
    exact ⟨l4, hp3.trans hp4, hm2⟩

theorem unionGraph_perm_adj {bs1 bs2 : List WGraph} (h : bs1.Perm bs2)
    (u : ℕ) (vw : ℕ × ℚ) :
    vw ∈ (unionGraph bs1).adj u ↔ vw ∈ (unionGraph bs2).adj u := by
  rw [mem_unionGraph_adj, mem_unionGraph_adj]
  constructor
  · rintro ⟨g, hg, he⟩
    exact ⟨g, h.subset hg, he⟩
  · rintro ⟨g, hg, he⟩
    exact ⟨g, h.symm.subset hg, he⟩

theorem unionGraph_perm_nodes {bs1 bs2 : List WGraph} (h : bs1.Perm bs2)
    (x : ℕ) : x ∈ (unionGraph bs1).nodes ↔ x ∈ (unionGraph bs2).nodes := by
  rw [mem_unionGraph_nodes, mem_unionGraph_nodes]
  constructor
  · rintro ⟨g, hg, hx⟩
    exact ⟨g, h.subset hg, hx⟩
  · rintro ⟨g, hg, hx⟩
    exact ⟨g, h.symm.subset hg, hx⟩

/-- **C1.** For a connected graph with nodes `0..N-1` handed to the core
as its list of biconnected block graphs (each undirected, self-contained,
non-negatively weighted and connected), every entry `(i, j)` of the
matrix produced by `CalcDetour.__call__` is exactly the maximum total
edge weight over all simple paths between `i` and `j` in the whole
(reassembled) graph: every simple path weighs at most `M i j`, and
`M i j` is attained by a simple path (or `i = j` and the entry is the
zero diagonal). -/
theorem detour_matrix_longest_simple_path (N : ℕ) (blocks : List WGraph)
    (hgood : ∀ g ∈ blocks, GoodBlock g)
    (hrange : ∀ x : ℕ, x ∈ (unionGraph blocks).nodes ↔ x < N)
    {M : ℕ → ℕ → ℚ} (h : calcDetourG N blocks = .ok M) :
    ∀ i j : ℕ, i < N → j < N →
      (∀ p, SimplePath (unionGraph blocks) i j p → pweight p ≤ M i j) ∧
      ((i = j ∧ M i j = 0) ∨
        ∃ p, SimplePath (unionGraph blocks) i j p ∧ pweight p = M i j) := by
  rw [calcDetourG, calcDetour] at h
  by_cases hN1 : N = 1
  · rw [if_pos hN1] at h
    cases h
    intro i j hi hj
    subst hN1
    have hij : i = j := by omega
    refine ⟨?_, Or.inl ⟨hij, rfl⟩⟩
    intro p hp
    have hie : i = j := hij
    subst hie
    exact absurd (hp.2.2.2.2 ▸ pend_mem i hp.2.1) hp.2.2.2.1
  · rw [if_neg hN1] at h
    cases hgl : (blocks.map toBlock).getLast? with
    | none => rw [hgl] at h; cases h
    | some blk =>
      rw [hgl] at h
      have h2 : (match mergeLoopF (blocks.map toBlock).dropLast.length
          ⟨blk.1, blk.2, (blocks.map toBlock).dropLast⟩ with
        | Except.error e => Except.error e
        | Except.ok st => assemble N st.C) = Except.ok M := h
      cases hml : mergeLoopF (blocks.map toBlock).dropLast.length
          ⟨blk.1, blk.2, (blocks.map toBlock).dropLast⟩ with
      | error e => rw [hml] at h2; cases h2
      | ok st =>
        rw [hml] at h2
        have ha : assemble N st.C = .ok M := h2
        obtain ⟨L, hpL, hrun⟩ := mergeLoopF_to_run hml
        have hqperm : (blk :: L).Perm (blocks.map toBlock) :=
          ((hpL.cons blk).symm.trans (getLast_cons_perm hgl).symm)
        obtain ⟨gs, hgsperm, hgs⟩ :=
          map_perm_inv toBlock hqperm.symm blocks rfl
        cases gs with
        | nil => cases hgs
        | cons gHead gsTail =>
          injection hgs with hg1 hg2
          subst hg1
          have hgsgood : ∀ g ∈ gHead :: gsTail, GoodBlock g :=
            fun g hg => hgood g (hgsperm.symm.subset hg)
          have hInv0 : LspInv [gHead] ((toBlock gHead).1, (toBlock gHead).2) :=
            lspInv_base gHead (hgsgood gHead (List.mem_cons_self _ _))
          have hrun2 : runBlocks ((toBlock gHead).1, (toBlock gHead).2)
              (gsTail.map toBlock) = some (st.nodes, st.C) := by
            rw [← hg2]
            exact hrun
          have hInvF : LspInv ([gHead] ++ gsTail) (st.nodes, st.C) :=
            lspInv_run gsTail hInv0 (wfMap_toBlock gHead)
              (fun g hg => by
                rw [List.mem_singleton] at hg
                subst hg
                exact hgsgood _ (List.mem_cons_self _ _))
              (fun g hg => hgsgood g (List.mem_cons_of_mem _ hg)) hrun2
          have hInvG : LspInv (gHead :: gsTail) (st.nodes, st.C) := hInvF
          have hMfun : M = fun i j => (mlookup st.C (min i j, max i j)).getD 0 := by
            unfold assemble at ha
            by_cases hcond : ∀ a ∈ List.range N, ∀ b ∈ List.range N,
                a ≤ b → (mlookup st.C (a, b)).isSome = true
            · rw [if_pos hcond] at ha
              cases ha
              rfl
            · rw [if_neg hcond] at ha
              cases ha
          intro i j hi hj
          have hiu : i ∈ (unionGraph blocks).nodes := (hrange i).mpr hi
          have hju : j ∈ (unionGraph blocks).nodes := (hrange j).mpr hj
          have hig : i ∈ (unionGraph (gHead :: gsTail)).nodes :=
            (unionGraph_perm_nodes hgsperm i).mp hiu
          have hjg : j ∈ (unionGraph (gHead :: gsTail)).nodes :=
            (unionGraph_perm_nodes hgsperm j).mp hju
          have hist : i ∈ st.nodes := (hInvG.1 i).mpr hig
          have hjst : j ∈ st.nodes := (hInvG.1 j).mpr hjg
          obtain ⟨v, hv, hub, hach⟩ := hInvG.2 i j hist hjst
          have hMv : M i j = v := by
            rw [hMfun]
            show (mlookup st.C (min i j, max i j)).getD 0 = v
            have hv2 : mlookup st.C (min i j, max i j) = some v := hv
            rw [hv2]
            rfl
          rw [hMv]
          constructor
          · intro p hp
            refine hub p (simplePath_mono ?_ hp)
            intro u vw hvw
            exact (unionGraph_perm_adj hgsperm u vw).mp hvw
          · rcases hach with hd | ⟨p, hp, hw⟩
            · exact Or.inl hd
            · refine Or.inr ⟨p, simplePath_mono ?_ hp, hw⟩
              intro u vw hvw
              exact (unionGraph_perm_adj hgsperm u vw).mpr hvw

theorem goodBlock_pathA : GoodBlock pathA := by
  refine ⟨?_, ?_, ?_, ?_, ?_⟩
  · intro u v w
    simp only [pathA]
    split_ifs <;> simp_all [Prod.ext_iff]
  · intro x vw h
    show vw.1 ∈ ([0, 1] : List ℕ)
    simp only [pathA] at h
    split_ifs at h <;> simp_all
  · intro u hu
    show (if u = 0 then [((1 : ℕ), (2 : ℚ))]
      else if u = 1 then [(0, 2)] else []) = []
    split_ifs with h1 h2
    · exact absurd (by simp [pathA, h1]) hu
    · exact absurd (by simp [pathA, h2]) hu
    · rfl
  · intro x vw h
    simp only [pathA] at h
    split_ifs at h <;> simp_all
  · intro x y hx hy hne
    have hx2 : x = 0 ∨ x = 1 := by simpa [pathA] using hx
    have hy2 : y = 0 ∨ y = 1 := by simpa [pathA] using hy
    rcases hx2 with rfl | rfl <;> rcases hy2 with rfl | rfl
    · exact absurd rfl hne
    · exact ⟨[(1, 2)], PathFrom.cons (by simp [pathA]) (PathFrom.nil _),
        by simp, by decide, by decide, rfl⟩
    · exact ⟨[(0, 2)], PathFrom.cons (by simp [pathA]) (PathFrom.nil _),
        by simp, by decide, by decide, rfl⟩
    · exact absurd rfl hne

theorem goodBlock_pathB : GoodBlock pathB := by
  refine ⟨?_, ?_, ?_, ?_, ?_⟩
  · intro u v w
    simp only [pathB]
    split_ifs <;> simp_all [Prod.ext_iff]
  · intro x vw h
    show vw.1 ∈ ([1, 2] : List ℕ)
    simp only [pathB] at h
    split_ifs at h <;> simp_all
  · intro u hu
    show (if u = 1 then [((2 : ℕ), (3 : ℚ))]
      else if u = 2 then [(1, 3)] else []) = []
    split_ifs with h1 h2
    · exact absurd (by simp [pathB, h1]) hu
    · exact absurd (by simp [pathB, h2]) hu
    · rfl
  · intro x vw h
    simp only [pathB] at h
    split_ifs at h <;> simp_all
  · intro x y hx hy hne
    have hx2 : x = 1 ∨ x = 2 := by simpa [pathB] using hx
    have hy2 : y = 1 ∨ y = 2 := by simpa [pathB] using hy
    rcases hx2 with rfl | rfl <;> rcases hy2 with rfl | rfl
    · exact absurd rfl hne
    · exact ⟨[(2, 3)], PathFrom.cons (by simp [pathB]) (PathFrom.nil _),
        by simp, by decide, by decide, rfl⟩
    · exact ⟨[(1, 3)], PathFrom.cons (by simp [pathB]) (PathFrom.nil _),
        by simp, by decide, by decide, rfl⟩
    · exact absurd rfl hne

theorem goodBlock_pathAB : ∀ g ∈ [pathA, pathB], GoodBlock g := by
  intro g hg
  rcases List.mem_cons.mp hg with rfl | hg2
  · exact goodBlock_pathA
  · rcases List.mem_cons.mp hg2 with rfl | hg3
    · exact goodBlock_pathB
    · exact absurd hg3 (List.not_mem_nil _)

theorem pathAB_range :
    ∀ x : ℕ, x ∈ (unionGraph [pathA, pathB]).nodes ↔ x < 3 := by
  intro x
  rw [mem_unionGraph_nodes]
  constructor
  · rintro ⟨g, hg, hx⟩
    rcases List.mem_cons.mp hg with rfl | hg2
    · have : x = 0 ∨ x = 1 := by simpa [pathA] using hx
      omega
    · rcases List.mem_cons.mp hg2 with rfl | hg3
      · have : x = 1 ∨ x = 2 := by simpa [pathB] using hx
        omega
      · exact absurd hg3 (List.not_mem_nil _)
  · intro hx
    have h3 : x = 0 ∨ x = 1 ∨ x = 2 := by omega
    rcases h3 with rfl | rfl | rfl
    · exact ⟨pathA, by simp, by simp [pathA]⟩
    · exact ⟨pathA, by simp, by simp [pathA]⟩
    · exact ⟨pathB, by simp, by simp [pathB]⟩

/-- Witness for C1: on the two-block weighted path graph the pipeline
succeeds and the entry `(0, 2)` is an attained upper bound over simple
paths of the reassembled graph. -/
theorem detour_matrix_longest_simple_path_witness :
    ∃ M : ℕ → ℕ → ℚ, calcDetourG 3 [pathA, pathB] = .ok M ∧
      ((∀ p, SimplePath (unionGraph [pathA, pathB]) 0 2 p →
          pweight p ≤ M 0 2) ∧
        ((0 = 2 ∧ M 0 2 = 0) ∨
          ∃ p, SimplePath (unionGraph [pathA, pathB]) 0 2 p ∧
            pweight p = M 0 2)) := by
  refine ⟨_, rfl, ?_⟩
  exact detour_matrix_longest_simple_path 3 [pathA, pathB]
    goodBlock_pathAB pathAB_range rfl 0 2 (by omega) (by omega)
